import Mathlib

/-!
# siren: the Archive codec (`include/archive.h`) and the intrusive list (`include/list.h`)

A shallow embedding of the binary serialization codec of `siren::Archive`:
the fixed-width integer codec (`serializeInteger` / `deserializeInteger`), the
public insertion / extraction operators built on it, the composite chaining of
`SIREN_SERDES`, and the operators for strings and vectors; followed by the
doubly linked ring of `siren::List` and `siren::ListNode`.

The header includes `stream.h`, `utility.h` and `assert.h`, and declares
member functions whose bodies live elsewhere; none of these is among the
sources.  Each definition that stands for one of them says so and quotes the
sentence of the specification it follows.

Conventions of the embedding.

* A byte (`unsigned char`) is a `Fin 256`.
* A value of an unsigned type of `W` bits is a `Nat` kept below `2 ^ W`; every
  conversion to such a type is an explicit `% 2 ^ W`.
* `std::size_t` cursors are `Nat`: they count bytes of a buffer held in memory.
* A pointer into the stream is an index into the corresponding byte list.
* A call ends normally, by `throw EndOfStream()`, by a failed `SIREN_ASSERT`, or
  by undefined behaviour; since a C++ exception leaves the effects that happened
  before it in place, every operation returns the archive and the destination
  as they are when the call ends, together with the way it ended.
-/

namespace siren

/-! ## Bytes and the stream -/

/-- One `unsigned char` (`std::numeric_limits<unsigned char>::digits == 8`). -/
abbrev Byte := Fin 256

/-- Conversion of an integer to `unsigned char`: reduction modulo `2 ^ 8`. -/
def toByte (x : Nat) : Byte := ⟨x % 256, Nat.mod_lt x (by decide)⟩

/-- Modelled from the spec: the `Stream` class (`stream.h` is not among the
sources).  Spec §3 and §6: the Buffer is "an append-only writable region plus a
sequentially readable prefix of available bytes"; the codec only asks it for
write pointers at an offset, read pointers at an offset, and the count of
available readable bytes.  `buffer` is the writable area addressed by
`getBuffer(offset)`, `data` the readable area addressed by `getData(offset)`. -/
structure Stream where
  data : List Byte
  buffer : List Byte
deriving DecidableEq

/-- Modelled from the spec: `Stream::reserveBuffer(size)`, spec §6
`reserveCapacity`: "ensures a contiguous writable region of at least that size
exists from the start of the writable area".  Bytes already in the region are
kept; the region is extended when it is shorter than `size`. -/
def Stream.reserveBuffer (s : Stream) (size : Nat) : Stream :=
  { s with buffer := s.buffer ++ List.replicate (size - s.buffer.length) 0 }

/-- Modelled from the spec: `Stream::getDataSize()`, spec §6
`availableByteCount`: "number of bytes currently readable from the start of the
readable area". -/
def Stream.getDataSize (s : Stream) : Nat := s.data.length

/-! ## Integer types -/

/-- The unsigned integer types the templates are instantiated at. -/
inductive UIntType where
  | u8
  | u16
  | u32
  | u64
deriving DecidableEq

/-- The value of `std::numeric_limits<T>::digits`. -/
def UIntType.digits : UIntType → Nat
  | .u8 => 8
  | .u16 => 16
  | .u32 => 32
  | .u64 => 64

/-- The value of `sizeof(T)`. -/
def UIntType.sizeof : UIntType → Nat
  | .u8 => 1
  | .u16 => 2
  | .u32 => 4
  | .u64 => 8

/-- Width of `unsigned int`, the type of the loop counters `n`, `k1`, `k2`. -/
def UINT_DIGITS : Nat := 32

/-- Modelled from the spec: `UnsignedToSigned` (`utility.h` is not among the
sources).  Spec §4.1: the "explicit, well-defined two's-complement mapping"
between an unsigned type of `bits` bits and its same-width signed counterpart:
patterns below `2 ^ (bits - 1)` are themselves, the others are negative. -/
def UnsignedToSigned (bits : Nat) (x : Nat) : Int :=
  if x % 2 ^ bits < 2 ^ (bits - 1) then ((x % 2 ^ bits : Nat) : Int)
  else ((x % 2 ^ bits : Nat) : Int) - ((2 ^ bits : Nat) : Int)

/-- Conversion of a signed integer to the unsigned type of `bits` bits (the
implicit conversion at the call `serializeInteger<U>(integer)`): the value
modulo `2 ^ bits`. -/
def SignedToUnsigned (bits : Nat) (x : Int) : Nat :=
  (x % ((2 ^ bits : Nat) : Int)).toNat

/-! ## The archive session -/

/-- The way a call ends when it does not return normally. -/
inductive Signal where
  | EndOfStream
  | AssertionFailure
  | UndefinedBehaviour
deriving DecidableEq

/-- The data members of `class Archive`; `stream_ = none` is the null pointer. -/
structure Archive where
  stream_ : Option Stream
  writtenByteCount_ : Nat
  readByteCount_ : Nat
deriving DecidableEq

/-- The state at the end of a call: the archive, the destination object and
the signal raised (`none` when the call returned normally). -/
structure Outcome (α : Type) where
  archive : Archive
  dest : α
  signal : Option Signal
deriving DecidableEq

/-- `Archive::isValid`: `return stream_ != nullptr;` -/
def Archive.isValid (a : Archive) : Bool := a.stream_.isSome

/-! ## Fixed-width integer codec -/

/-- The loop of `Archive::serializeInteger`:
`for (n = k1 - k2; UnsignedToSigned(n) >= 1; n -= k2) *++buffer = (integer >>= k2);`
`p` is the position `buffer` points at, `n` the `unsigned int` counter. -/
def serializeLoop (T : UIntType) (buffer : List Byte) (p integer n : Nat) : List Byte :=
  if 1 ≤ UnsignedToSigned UINT_DIGITS n then
    serializeLoop T (buffer.set (p + 1) (toByte ((integer >>> 8) % 2 ^ T.digits))) (p + 1)
      ((integer >>> 8) % 2 ^ T.digits) ((n + 2 ^ UINT_DIGITS - 8) % 2 ^ UINT_DIGITS)
  else buffer
termination_by (UnsignedToSigned UINT_DIGITS n).toNat
decreasing_by
  simp only [UnsignedToSigned, UINT_DIGITS] at *
  split at * <;> split <;> omega

/-- `Archive::serializeInteger<T>` for an unsigned type `T`.  The argument is
converted to `T` at the call. -/
def Archive.serializeInteger (T : UIntType) (a : Archive) (integer : Nat) : Outcome Unit :=
  match a.stream_ with
  | none => ⟨a, (), some .UndefinedBehaviour⟩
  | some s =>
    let integer := integer % 2 ^ T.digits
    let k1 := T.digits
    let k2 := 8
    let s1 := s.reserveBuffer (a.writtenByteCount_ + T.sizeof)
    let p := a.writtenByteCount_
    let b1 := s1.buffer.set p (toByte integer)
    let b2 := serializeLoop T b1 p integer ((k1 + 2 ^ UINT_DIGITS - k2) % 2 ^ UINT_DIGITS)
    ⟨{ a with stream_ := some { s1 with buffer := b2 },
              writtenByteCount_ := a.writtenByteCount_ + T.sizeof }, (), none⟩

/-- The loop of `Archive::deserializeInteger`:
`for (n = k2; n < k1; n += k2) *integer |= static_cast<T>(*++data) << n;`
`p` is the position `data` points at; the shift and the assignment are in `T`. -/
def deserializeLoop (T : UIntType) (data : List Byte) (p integer n : Nat) : Nat :=
  if n < T.digits then
    deserializeLoop T data (p + 1)
      ((integer ||| (((data.getD (p + 1) 0).val <<< n) % 2 ^ T.digits)) % 2 ^ T.digits)
      ((n + 8) % 2 ^ UINT_DIGITS)
  else integer
termination_by T.digits - n
decreasing_by
  cases T <;> simp only [UIntType.digits, UINT_DIGITS] at * <;> omega

/-- `Archive::deserializeInteger<T>` for an unsigned type `T`; `integer` is the
content of `*integer` before the call. -/
def Archive.deserializeInteger (T : UIntType) (a : Archive) (integer : Nat) : Outcome Nat :=
  match a.stream_ with
  | none => ⟨a, integer, some .UndefinedBehaviour⟩
  | some s =>
    if s.getDataSize < a.readByteCount_ + T.sizeof then
      ⟨a, integer, some .EndOfStream⟩
    else
      let p := a.readByteCount_
      let integer := (s.data.getD p 0).val % 2 ^ T.digits
      let integer := deserializeLoop T s.data p integer 8
      ⟨{ a with readByteCount_ := a.readByteCount_ + T.sizeof }, integer, none⟩

/-! ## Public insertion and extraction operators

`SIREN_ASSERT` comes from `assert.h`, which is not among the sources; following
spec §4.5 ("every public encode/decode operation first asserts the session is
still Bound ... a fatal precondition failure") a failed assertion ends the call
at once with `Signal.AssertionFailure`. -/

/-- `Archive::operator<<(T)` for an unsigned type `T`. -/
def Archive.insertUnsigned (T : UIntType) (a : Archive) (integer : Nat) : Outcome Unit :=
  if a.isValid then a.serializeInteger T integer
  else ⟨a, (), some .AssertionFailure⟩

/-- `Archive::operator>>(T &)` for an unsigned type `T`. -/
def Archive.extractUnsigned (T : UIntType) (a : Archive) (integer : Nat) : Outcome Nat :=
  if a.isValid then a.deserializeInteger T integer
  else ⟨a, integer, some .AssertionFailure⟩

/-- `Archive::operator<<(T)` for the signed type whose `std::make_unsigned_t` is
`T`: `serializeInteger<U>(integer)`. -/
def Archive.insertSigned (T : UIntType) (a : Archive) (integer : Int) : Outcome Unit :=
  if a.isValid then a.serializeInteger T (SignedToUnsigned T.digits integer)
  else ⟨a, (), some .AssertionFailure⟩

/-- `Archive::operator>>(T &)` for the signed type whose `std::make_unsigned_t`
is `T`: `U temp; integer = UnsignedToSigned((deserializeInteger(&temp), temp));`
The assignment happens only when `deserializeInteger` returns.  The local
`temp` starts indeterminate and is never read before it is written. -/
def Archive.extractSigned (T : UIntType) (a : Archive) (integer : Int) : Outcome Int :=
  if a.isValid then
    let r := a.deserializeInteger T 0
    match r.signal with
    | none => ⟨r.archive, UnsignedToSigned T.digits r.dest, none⟩
    | some e => ⟨r.archive, integer, some e⟩
  else ⟨a, integer, some .AssertionFailure⟩

/-- `Archive::operator<<(bool)`:
`operator<<(static_cast<unsigned char>(boolean));` -/
def Archive.insertBool (a : Archive) (boolean : Bool) : Outcome Unit :=
  if a.isValid then a.insertUnsigned .u8 (if boolean then 1 else 0)
  else ⟨a, (), some .AssertionFailure⟩

/-- `Archive::operator>>(bool &)`:
`unsigned char temp; boolean = (operator>>(temp), temp);` -/
def Archive.extractBool (a : Archive) (boolean : Bool) : Outcome Bool :=
  if a.isValid then
    let r := a.extractUnsigned .u8 0
    match r.signal with
    | none => ⟨r.archive, decide (r.dest ≠ 0), none⟩
    | some e => ⟨r.archive, boolean, some e⟩
  else ⟨a, boolean, some .AssertionFailure⟩

/-! ## Byte blobs

`serializeBytes` and `deserializeBytes` are declared in `archive.h` and defined
in a file that is not among the sources; they are modelled from the spec. -/

/-- The bytes of a region from position `start`, `len` of them. -/
def window (region : List Byte) (start len : Nat) : List Byte :=
  (region.drop start).take len

/-- A run of stores `*p++ = b` for the bytes `bytes`, starting at position `w`. -/
def copyAt : List Byte → Nat → List Byte → List Byte
  | region, _, [] => region
  | region, w, b :: bs => copyAt (region.set w b) (w + 1) bs

/-- Modelled from the spec: `Archive::serializeBytes(bytes, size)`, whose body
is absent.  Spec §4.3: "reserves space and copies N bytes verbatim at the
current write cursor, advancing it by N".  `bytes` is the memory the pointer
argument points at; reading `size` bytes from fewer is undefined. -/
def Archive.serializeBytes (a : Archive) (bytes : List Byte) (size : Nat) : Outcome Unit :=
  match a.stream_ with
  | none => ⟨a, (), some .UndefinedBehaviour⟩
  | some s =>
    if bytes.length < size then ⟨a, (), some .UndefinedBehaviour⟩
    else
      let s1 := s.reserveBuffer (a.writtenByteCount_ + size)
      let b := copyAt s1.buffer a.writtenByteCount_ (bytes.take size)
      ⟨{ a with stream_ := some { s1 with buffer := b },
                writtenByteCount_ := a.writtenByteCount_ + size }, (), none⟩

/-- Modelled from the spec: `Archive::deserializeBytes(bytes, size)`, whose
body is absent.  Spec §4.3: "checks that N bytes are available from the read
cursor; if not, raises End-of-Stream; otherwise copies N bytes out and advances
the read cursor by N".  `bytes` is the memory the pointer argument points at,
before the call; the result holds it after the call. -/
def Archive.deserializeBytes (a : Archive) (bytes : List Byte) (size : Nat) :
    Outcome (List Byte) :=
  match a.stream_ with
  | none => ⟨a, bytes, some .UndefinedBehaviour⟩
  | some s =>
    if s.getDataSize < a.readByteCount_ + size then ⟨a, bytes, some .EndOfStream⟩
    else if bytes.length < size then ⟨a, bytes, some .UndefinedBehaviour⟩
    else
      ⟨{ a with readByteCount_ := a.readByteCount_ + size },
        window s.data a.readByteCount_ size ++ bytes.drop size, none⟩

/-! ## Type dispatch over composite values -/

/-- The values the dispatch layer is studied on: booleans, fixed-width
integers, fixed-size arrays, and objects of a class whose members are declared
by `SIREN_SERDES(m1, ..., mk)`.  Whether a class is byte-like
(`SIREN__LIKE_CHAR(T)`: one byte in size and alignment, and a POD) is not
decided by the members it serializes, so it is part of the value: `object` is
an object of a class that is not byte-like, `byteObject` an object of a
byte-like class, which has a single byte-sized member.  A value also stands
for the destination object of an extraction: its shape selects the overloads,
its content is what the destination holds before the call. -/
inductive Value where
  | bool (b : Bool)
  | unsigned (T : UIntType) (x : Nat)
  | signed (T : UIntType) (x : Int)
  | array (xs : List Value)
  | object (members : List Value)
  | byteObject (member : Value)

mutual
/-- The value of `SIREN__LIKE_CHAR(T)` for the type `T` of a value:
`sizeof(T) == sizeof(char) && alignof(T) == alignof(char) && std::is_pod<T>::value`.
`bool`, `unsigned char` and `signed char` are byte-like, wider integers are
not; an array type `U[1]` is byte-like when `U` is, longer arrays are bigger
than one byte. -/
def Value.likeChar : Value → Bool
  | .bool _ => true
  | .unsigned T _ => decide (T = UIntType.u8)
  | .signed T _ => decide (T = UIntType.u8)
  | .array xs => Value.singleLikeChar xs
  | .object _ => false
  | .byteObject member => Value.likeChar member
/-- The list holds exactly one value, and that value is byte-like. -/
def Value.singleLikeChar : List Value → Bool
  | [] => false
  | x :: rest =>
    match rest with
    | [] => Value.likeChar x
    | _ :: _ => false
end

/-- The element type of the array `T (&)[N]` with elements `xs` is byte-like:
the array has elements (`N >= 1`) and they are byte-like. -/
def Value.likeCharElements (xs : List Value) : Bool :=
  !xs.isEmpty && xs.all Value.likeChar

mutual
/-- The byte a byte-like value occupies in memory (its object
representation): `01` / `00` for `true` / `false`, the value modulo `2 ^ 8`
for `unsigned char` and `signed char`, the byte of its element or member for
`U[1]` and for an object of a byte-like class. -/
def Value.rawByte : Value → Byte
  | .bool b => if b then 1 else 0
  | .unsigned _ x => toByte x
  | .signed _ x => toByte (SignedToUnsigned 8 x)
  | .array xs => Value.rawByteFirst xs
  | .object _ => 0
  | .byteObject member => Value.rawByte member
/-- The byte of the first value of a list. -/
def Value.rawByteFirst : List Value → Byte
  | [] => 0
  | x :: _ => Value.rawByte x
end

mutual
/-- The byte-like value `dest` after the byte `b` has been copied over it.  A
byte other than `00` and `01` is not the representation of a `bool` value; the
model reads it as `true`, as `operator>>(bool &)` does. -/
def Value.ofRawByte (b : Byte) : Value → Value
  | .bool _ => .bool (decide (b.val ≠ 0))
  | .unsigned T _ => .unsigned T b.val
  | .signed T _ => .signed T (UnsignedToSigned 8 b.val)
  | .array xs => .array (Value.ofRawByteFirst b xs)
  | .object members => .object members
  | .byteObject member => .byteObject (Value.ofRawByte b member)
/-- The byte `b` copied over the first value of a list. -/
def Value.ofRawByteFirst (b : Byte) : List Value → List Value
  | [] => []
  | x :: rest => Value.ofRawByte b x :: rest
end

mutual
/-- `Archive::operator<<` selected by the type of the operand.  For an array of
a byte-like element type: `serializeBytes(array, N);`.  For an array of any
other element type: `for (const T &x : array) operator<<(x);`.  For an object:
`object.serialize(this)`, which `SIREN_SERDES` defines as
`(Serializer(archive)), m1, ..., mk;`. -/
def Archive.insert (a : Archive) : Value → Outcome Unit
  | .bool b => a.insertBool b
  | .unsigned T x => a.insertUnsigned T x
  | .signed T x => a.insertSigned T x
  | .array xs =>
    if a.isValid then
      if Value.likeCharElements xs then a.serializeBytes (xs.map Value.rawByte) xs.length
      else Archive.insertEach a xs
    else ⟨a, (), some .AssertionFailure⟩
  | .object members =>
    if a.isValid then Archive.insertEach a members else ⟨a, (), some .AssertionFailure⟩
  | .byteObject member =>
    if a.isValid then
      let r := Archive.insert a member
      ⟨r.archive, (), r.signal⟩
    else ⟨a, (), some .AssertionFailure⟩
/-- The operands taken from left to right, each by `operator<<`: the range-for
of the array overload, and the chain of `Serializer::operator,`
(`*archive_ << x; return *this;`).  A signal ends the chain. -/
def Archive.insertEach (a : Archive) : List Value → Outcome Unit
  | [] => ⟨a, (), none⟩
  | x :: xs =>
    let r := Archive.insert a x
    match r.signal with
    | none => Archive.insertEach r.archive xs
    | some e => ⟨r.archive, (), some e⟩
end

mutual
/-- `Archive::operator>>` selected by the type of the destination.  For an
array of a byte-like element type: `deserializeBytes(array, N);`, which
either copies all `N` bytes over the elements or throws and copies none.  For
an array of any other element type: `for (T &x : array) operator>>(x);`.  For
an object: `object.deserialize(this)`, i.e.
`(Deserializer(archive)), m1, ..., mk;`. -/
def Archive.extract (a : Archive) : Value → Outcome Value
  | .bool b =>
    let r := a.extractBool b
    ⟨r.archive, .bool r.dest, r.signal⟩
  | .unsigned T x =>
    let r := a.extractUnsigned T x
    ⟨r.archive, .unsigned T r.dest, r.signal⟩
  | .signed T x =>
    let r := a.extractSigned T x
    ⟨r.archive, .signed T r.dest, r.signal⟩
  | .array xs =>
    if a.isValid then
      if Value.likeCharElements xs then
        let r := a.deserializeBytes (xs.map Value.rawByte) xs.length
        match r.signal with
        | none => ⟨r.archive, .array (List.zipWith Value.ofRawByte r.dest xs), none⟩
        | some e => ⟨r.archive, .array xs, some e⟩
      else
        let r := Archive.extractEach a xs
        ⟨r.archive, .array r.dest, r.signal⟩
    else ⟨a, .array xs, some .AssertionFailure⟩
  | .object members =>
    if a.isValid then
      let r := Archive.extractEach a members
      ⟨r.archive, .object r.dest, r.signal⟩
    else ⟨a, .object members, some .AssertionFailure⟩
  | .byteObject member =>
    if a.isValid then
      let r := Archive.extract a member
      ⟨r.archive, .byteObject r.dest, r.signal⟩
    else ⟨a, .byteObject member, some .AssertionFailure⟩
/-- The destinations taken from left to right, each by `operator>>`: the
range-for of the array overload, and the chain of `Deserializer::operator,`
(`*archive_ >> x; return *this;`).  A signal ends the chain: the destinations
after the failing one are not touched. -/
def Archive.extractEach (a : Archive) : List Value → Outcome (List Value)
  | [] => ⟨a, [], none⟩
  | x :: xs =>
    let r := Archive.extract a x
    match r.signal with
    | none =>
      let rs := Archive.extractEach r.archive xs
      ⟨rs.archive, r.dest :: rs.dest, rs.signal⟩
    | some e => ⟨r.archive, r.dest :: xs, some e⟩
end

/-- The writable area of the stream an archive is bound to. -/
def Archive.buffer (a : Archive) : List Byte :=
  match a.stream_ with
  | none => []
  | some s => s.buffer

/-- The readable area of the stream an archive is bound to. -/
def Archive.data (a : Archive) : List Byte :=
  match a.stream_ with
  | none => []
  | some s => s.data

/-- The bytes a call left between the write cursor it started from and the
write cursor it ended at. -/
def bytesWritten (before : Archive) (after : Outcome Unit) : List Byte :=
  window after.archive.buffer before.writtenByteCount_
    (after.archive.writtenByteCount_ - before.writtenByteCount_)

/-- An archive bound to an empty stream, both cursors at zero. -/
def Archive.fresh : Archive := ⟨some ⟨[], []⟩, 0, 0⟩

/-- The encoding of a value by the code: what inserting it into a fresh
archive writes. -/
def encodingOf (v : Value) : List Byte :=
  bytesWritten Archive.fresh (Archive.fresh.insert v)

mutual
/-- The value is representable in its type: an unsigned integer of `W` bits is
below `2 ^ W`, a signed one lies in `[-2 ^ (W-1), 2 ^ (W-1) - 1]`. -/
def Value.inRange : Value → Bool
  | .bool _ => true
  | .unsigned T x => decide (x < 2 ^ T.digits)
  | .signed T x => decide (-((2 ^ (T.digits - 1) : Nat) : Int) ≤ x ∧
      x < ((2 ^ (T.digits - 1) : Nat) : Int))
  | .array xs => Value.allInRange xs
  | .object members => Value.allInRange members
  | .byteObject member => Value.inRange member
/-- Every value of the list is representable. -/
def Value.allInRange : List Value → Bool
  | [] => true
  | x :: xs => Value.inRange x && Value.allInRange xs
end

mutual
/-- The two values have the same C++ type. -/
def Value.sameType : Value → Value → Bool
  | .bool _, .bool _ => true
  | .unsigned T _, .unsigned U _ => decide (T = U)
  | .signed T _, .signed U _ => decide (T = U)
  | .array xs, .array ys => Value.sameTypes xs ys
  | .object xs, .object ys => Value.sameTypes xs ys
  | .byteObject x, .byteObject y => Value.sameType x y
  | _, _ => false
/-- The two lists have the same length and pairwise the same types. -/
def Value.sameTypes : List Value → List Value → Bool
  | [], [] => true
  | x :: xs, y :: ys => Value.sameType x y && Value.sameTypes xs ys
  | _, _ => false
end

/-- The effect of a write of `bytes` at position `w` on the writable area: the
bytes stand at `w`, `w + 1`, ..., every byte that existed outside that window is
what it was, and the area did not shrink. -/
def WritesAt (before after : List Byte) (w : Nat) (bytes : List Byte) : Prop :=
  (∀ i, i < bytes.length → after[w + i]? = bytes[i]?) ∧
  (∀ j, (j < w ∨ w + bytes.length ≤ j) → j < before.length → after[j]? = before[j]?) ∧
  before.length ≤ after.length

/-- The value is a boolean or a fixed-width integer. -/
def Value.isFixedWidth : Value → Bool
  | .bool _ => true
  | .unsigned _ _ => true
  | .signed _ _ => true
  | _ => false

/-! ## Lengths and strings

`serializeVariableLengthInteger` and `deserializeVariableLengthInteger` are
declared in `archive.h` and defined in a file that is not among the sources;
they are modelled from the spec. -/

/-- Modelled from the spec: the variable-length encoding of a length, the body
of `serializeVariableLengthInteger` being absent.  Spec §4.2: "group the value's
bits into 7-bit chunks, least-significant chunk first; emit one byte per chunk
with the high bit set on every byte except the last, which has the high bit
clear"; §2: "a minimal number of bytes". -/
def varintBytes (n : Nat) : List Byte :=
  if n < 128 then [toByte n] else toByte (n % 128 + 128) :: varintBytes (n / 128)
termination_by n
decreasing_by omega

/-- Modelled from the spec: reading a variable-length integer from the bytes
at the read cursor, the body of `deserializeVariableLengthInteger` being
absent.  Spec §4.2: "reads bytes one at a time, accumulating 7 bits per byte
into the result, continuing while the high bit is set"; `none` when the bytes
run out "before a terminating (high-bit-clear) byte is seen".  The result is
the value and the number of bytes read. -/
def varintRead : List Byte → Option (Nat × Nat)
  | [] => none
  | b :: bs =>
    if b.val < 128 then some (b.val, 1)
    else
      match varintRead bs with
      | none => none
      | some (v, k) => some (b.val % 128 + 128 * v, k + 1)

/-- Modelled from the spec: `Archive::serializeVariableLengthInteger`, whose
body is absent: the bytes of `varintBytes` are emitted at the write cursor,
which advances by their number.  The parameter type is `std::uintmax_t`; the
lengths passed by the callers are in its range. -/
def Archive.serializeVariableLengthInteger (a : Archive) (n : Nat) : Outcome Unit :=
  a.serializeBytes (varintBytes n) (varintBytes n).length

/-- Modelled from the spec: `Archive::deserializeVariableLengthInteger`, whose
body is absent: the value read by `varintRead` from the bytes at the read
cursor is stored and the read cursor advances by the number of bytes read;
when the bytes run out, `EndOfStream` (the spec does not say where the read
cursor then stands; the model leaves it in place). -/
def Archive.deserializeVariableLengthInteger (a : Archive) (dest : Nat) : Outcome Nat :=
  match a.stream_ with
  | none => ⟨a, dest, some .UndefinedBehaviour⟩
  | some s =>
    match varintRead (s.data.drop a.readByteCount_) with
    | none => ⟨a, dest, some .EndOfStream⟩
    | some (v, k) => ⟨{ a with readByteCount_ := a.readByteCount_ + k }, v, none⟩

/-- `std::string::front()` and `std::vector<T>::front()`: a reference to the
first element.  The standard library requires `!empty()`; on an empty container
there is no first element and the call is undefined (`none`).  The reference is
modelled by the storage that starts at the first element, which is what
`&container.front()` points at. -/
def front (container : List Byte) : Option (List Byte) :=
  match container with
  | [] => none
  | x :: xs => some (x :: xs)

/-- `std::string::resize(n)` and `std::vector<T>::resize(n)` for a byte-like
`T`: the first `n` elements are kept, missing ones are value-initialized. -/
def resize (container : List Byte) (n : Nat) : List Byte :=
  container.take n ++ List.replicate (n - container.length) 0

/-- `Archive::operator<<(const std::string &)`:
`serializeVariableLengthInteger(string.size());`
`serializeBytes(&string.front(), string.size());` -/
def Archive.insertString (a : Archive) (string : List Byte) : Outcome Unit :=
  if a.isValid then
    let r := a.serializeVariableLengthInteger string.length
    match r.signal with
    | some e => ⟨r.archive, (), some e⟩
    | none =>
      match front string with
      | none => ⟨r.archive, (), some .UndefinedBehaviour⟩
      | some p => r.archive.serializeBytes p string.length
  else ⟨a, (), some .AssertionFailure⟩

/-- `Archive::operator>>(std::string &)`:
`string.resize((deserializeVariableLengthInteger(&temp), temp));`
`deserializeBytes(&string.front(), string.size());` -/
def Archive.extractString (a : Archive) (string : List Byte) : Outcome (List Byte) :=
  if a.isValid then
    let r := a.deserializeVariableLengthInteger 0
    match r.signal with
    | some e => ⟨r.archive, string, some e⟩
    | none =>
      let string := resize string r.dest
      match front string with
      | none => ⟨r.archive, string, some .UndefinedBehaviour⟩
      | some p => r.archive.deserializeBytes p string.length
  else ⟨a, string, some .AssertionFailure⟩

/-- `Archive::operator<<(const std::vector<T> &)` for a byte-like `T`
(`SIREN__LIKE_CHAR(T)`): `serializeVariableLengthInteger(vector.size());`
`serializeBytes(&vector.front(), vector.size());` -/
def Archive.insertByteVector (a : Archive) (vector : List Byte) : Outcome Unit :=
  if a.isValid then
    let r := a.serializeVariableLengthInteger vector.length
    match r.signal with
    | some e => ⟨r.archive, (), some e⟩
    | none =>
      match front vector with
      | none => ⟨r.archive, (), some .UndefinedBehaviour⟩
      | some p => r.archive.serializeBytes p vector.length
  else ⟨a, (), some .AssertionFailure⟩

/-- `Archive::operator>>(std::vector<T> &)` for a byte-like `T`:
`vector.resize((deserializeVariableLengthInteger(&temp), temp));`
`deserializeBytes(&vector.front(), vector.size());` -/
def Archive.extractByteVector (a : Archive) (vector : List Byte) : Outcome (List Byte) :=
  if a.isValid then
    let r := a.deserializeVariableLengthInteger 0
    match r.signal with
    | some e => ⟨r.archive, vector, some e⟩
    | none =>
      let vector := resize vector r.dest
      match front vector with
      | none => ⟨r.archive, vector, some .UndefinedBehaviour⟩
      | some p => r.archive.deserializeBytes p vector.length
  else ⟨a, vector, some .AssertionFailure⟩

/-! ## Vectors of other element types, and moving a session -/

/-- `std::vector<T>::resize(n)` for an element type `T` whose value-initialized
object `T()` is `init`: the first `n` elements are kept, missing ones are
value-initialized. -/
def resizeWith (vector : List Value) (n : Nat) (init : Value) : List Value :=
  vector.take n ++ List.replicate (n - vector.length) init

/-- `Archive::operator<<(const std::vector<T> &)` for an element type that is
not byte-like (`!SIREN__LIKE_CHAR(T)`):
`serializeVariableLengthInteger(vector.size());`
`for (const T &x : vector) operator<<(x);` -/
def Archive.insertVector (a : Archive) (vector : List Value) : Outcome Unit :=
  if a.isValid then
    let r := a.serializeVariableLengthInteger vector.length
    match r.signal with
    | some e => ⟨r.archive, (), some e⟩
    | none => Archive.insertEach r.archive vector
  else ⟨a, (), some .AssertionFailure⟩

/-- `Archive::operator>>(std::vector<T> &)` for an element type that is not
byte-like: `vector.resize((deserializeVariableLengthInteger(&temp), temp));`
`for (T &x : vector) operator>>(x);`  `init` is the value-initialized element
`T()` that `resize` appends. -/
def Archive.extractVector (a : Archive) (init : Value) (vector : List Value) :
    Outcome (List Value) :=
  if a.isValid then
    let r := a.deserializeVariableLengthInteger 0
    match r.signal with
    | some e => ⟨r.archive, vector, some e⟩
    | none => Archive.extractEach r.archive (resizeWith vector r.dest init)
  else ⟨a, vector, some .AssertionFailure⟩

/-- Modelled from the spec: `Archive::move(Archive *other)`, declared in
`archive.h`, its body absent.  Spec §4.5: "Move transfers the Buffer reference
and both cursor values to a new session and resets the source to Moved-From".
The result is the source after the move and the session moved to. -/
def Archive.move (a : Archive) : Archive × Archive :=
  ({ a with stream_ := none }, a)

/-- The cursor invariant between the session before a call and the session
after it: neither cursor has decreased, and if the read cursor was within the
available bytes and the available bytes did not shrink, it still is. -/
def CursorInvariant (before after : Archive) : Prop :=
  before.writtenByteCount_ ≤ after.writtenByteCount_ ∧
  before.readByteCount_ ≤ after.readByteCount_ ∧
  (before.readByteCount_ ≤ before.data.length → before.data.length ≤ after.data.length →
    after.readByteCount_ ≤ after.data.length)

/-! ## Little-endian byte strings (specification side) -/

/-- The `k` low bytes of `v`, least-significant byte first: byte `i` is
`(v >> 8*i) & 0xFF`.  This is the wire layout the spec gives for a fixed-width
integer (§4.1, §6); the code is compared against it. -/
def leBytes : Nat → Nat → List Byte
  | 0, _ => []
  | k + 1, v => toByte v :: leBytes k (v / 256)

/-- The number a byte string denotes when read least-significant byte first. -/
def leValue : List Byte → Nat
  | [] => 0
  | b :: bs => b.val + 256 * leValue bs

mutual
/-- The wire layout of spec §6 for a value: one byte `00` / `01` for a boolean,
`W/8` little-endian bytes for an unsigned integer, the little-endian bytes of
the two's-complement pattern for a signed one, and for arrays and objects the
layouts of the elements or members one after another, nothing in between. -/
def Value.wireLayout : Value → List Byte
  | .bool b => [if b then 1 else 0]
  | .unsigned T x => leBytes T.sizeof x
  | .signed T x => leBytes T.sizeof (SignedToUnsigned T.digits x)
  | .array xs => Value.wireLayouts xs
  | .object members => Value.wireLayouts members
  | .byteObject member => Value.wireLayout member
/-- The layouts of the values of a list, concatenated in order. -/
def Value.wireLayouts : List Value → List Byte
  | [] => []
  | x :: xs => Value.wireLayout x ++ Value.wireLayouts xs
end

/-! ## Classes with container members

`SIREN_SERDES(m1, ..., mk)` takes any members `operator<<` and `operator>>`
accept, a `std::string` or a `std::vector` among them. -/

/-- A member named in `SIREN_SERDES(m1, ..., mk)`: a value of the dispatch
layer, a `std::string`, a `std::vector` of a byte-like element type, or a
`std::vector` of another element type, `init` being its value-initialized
element. -/
inductive Member where
  | value (v : Value)
  | string (s : List Byte)
  | byteVector (v : List Byte)
  | vector (init : Value) (xs : List Value)

/-- `*archive_ << x` of `Serializer::operator,` for a member `x`: the overload
of `operator<<` its type selects. -/
def Archive.insertMember (a : Archive) : Member → Outcome Unit
  | .value v => a.insert v
  | .string s => a.insertString s
  | .byteVector v => a.insertByteVector v
  | .vector _ xs => a.insertVector xs

/-- `*archive_ >> x` of `Deserializer::operator,` for a member `x`: the
overload of `operator>>` its type selects. -/
def Archive.extractMember (a : Archive) : Member → Outcome Member
  | .value d =>
    let r := a.extract d
    ⟨r.archive, .value r.dest, r.signal⟩
  | .string s =>
    let r := a.extractString s
    ⟨r.archive, .string r.dest, r.signal⟩
  | .byteVector v =>
    let r := a.extractByteVector v
    ⟨r.archive, .byteVector r.dest, r.signal⟩
  | .vector init xs =>
    let r := a.extractVector init xs
    ⟨r.archive, .vector init r.dest, r.signal⟩

/-- `serialize` as `SIREN_SERDES` defines it:
`(Serializer(archive)), m1, ..., mk;`, the members taken from left to right by
`Serializer::operator,` (`*archive_ << x; return *this;`).  A signal ends the
chain. -/
def Archive.insertMembers (a : Archive) : List Member → Outcome Unit
  | [] => ⟨a, (), none⟩
  | m :: ms =>
    let r := a.insertMember m
    match r.signal with
    | none => Archive.insertMembers r.archive ms
    | some e => ⟨r.archive, (), some e⟩

/-- `deserialize` as `SIREN_SERDES` defines it:
`(Deserializer(archive)), m1, ..., mk;`, the members taken from left to right
by `Deserializer::operator,` (`*archive_ >> x; return *this;`).  A signal ends
the chain: the members after the failing one are not touched. -/
def Archive.extractMembers (a : Archive) : List Member → Outcome (List Member)
  | [] => ⟨a, [], none⟩
  | m :: ms =>
    let r := a.extractMember m
    match r.signal with
    | none =>
      let rs := Archive.extractMembers r.archive ms
      ⟨rs.archive, r.dest :: rs.dest, rs.signal⟩
    | some e => ⟨r.archive, r.dest :: ms, some e⟩

/-- `Archive::operator<<(const T &object)` for a class `T`:
`SIREN_ASSERT(isValid());` `object.serialize(this);` -/
def Archive.insertComposite (a : Archive) (members : List Member) : Outcome Unit :=
  if a.isValid then a.insertMembers members else ⟨a, (), some .AssertionFailure⟩

/-- `Archive::operator>>(T &object)` for a class `T`:
`SIREN_ASSERT(isValid());` `object.deserialize(this);` -/
def Archive.extractComposite (a : Archive) (members : List Member) :
    Outcome (List Member) :=
  if a.isValid then a.extractMembers members else ⟨a, members, some .AssertionFailure⟩

/-- The wire layout of spec §6 for a member: that of a value; for a string or a
vector the variable-length encoding of its size followed by its bytes or by the
layouts of its elements. -/
def Member.wireLayout : Member → List Byte
  | .value v => v.wireLayout
  | .string s => varintBytes s.length ++ s
  | .byteVector v => varintBytes v.length ++ v
  | .vector _ xs => varintBytes xs.length ++ Value.wireLayouts xs

/-- The member is not a `std::string` or byte-like `std::vector` of size 0:
inserting it takes `&container.front()` of no empty container. -/
def Member.hasFront : Member → Bool
  | .value _ => true
  | .string s => !s.isEmpty
  | .byteVector v => !v.isEmpty
  | .vector _ _ => true

/-! ## The intrusive list (`include/list.h`)

Nodes live in memory and are known by their address; a pointer to a node is an
address, `nullptr` is address 0.  A `List` object holds one member, the
sentinel node `nil_`, so the address of the list is the address of its
sentinel.  `assert` comes from `<cassert>`: a failed assertion ends the call,
which is the result `none`. -/

/-- `struct ListNode`: the link pointers `prev_` and `next_`. -/
structure ListNode where
  prev_ : Nat
  next_ : Nat
deriving DecidableEq

/-- The null pointer. -/
def nullptr : Nat := 0

/-- The nodes in memory, by address. -/
abbrev Memory := Nat → ListNode

/-- The store `p->prev_ = v`. -/
def setPrev (m : Memory) (p v : Nat) : Memory :=
  fun q => if q = p then { prev_ := v, next_ := (m q).next_ } else m q

/-- The store `p->next_ = v`. -/
def setNext (m : Memory) (p v : Nat) : Memory :=
  fun q => if q = p then { prev_ := (m q).prev_, next_ := v } else m q

/-- `ListNode::insert(prev, next)` on the node `this`:
`(prev_ = prev)->next_ = this; (next_ = next)->prev_ = this;` -/
def ListNode.insert (m : Memory) (this prev next : Nat) : Memory :=
  let m1 := setPrev m this prev
  let m2 := setNext m1 (m1 this).prev_ this
  let m3 := setNext m2 this next
  setPrev m3 (m3 this).next_ this

/-- `ListNode::insertBefore(other)` on the node `this`:
`assert(other != nullptr); insert(other->prev_, other);` -/
def ListNode.insertBefore (m : Memory) (this other : Nat) : Option Memory :=
  if other = nullptr then none
  else some (ListNode.insert m this (m other).prev_ other)

/-- `ListNode::insertAfter(other)` on the node `this`:
`assert(other != nullptr); insert(other, other->next_);` -/
def ListNode.insertAfter (m : Memory) (this other : Nat) : Option Memory :=
  if other = nullptr then none
  else some (ListNode.insert m this other (m other).next_)

/-- `ListNode::remove()` on the node `this`:
`prev_->next_ = next_; next_->prev_ = prev_;` -/
def ListNode.remove (m : Memory) (this : Nat) : Memory :=
  let m1 := setNext m (m this).prev_ (m this).next_
  setPrev m1 (m1 this).next_ (m1 this).prev_

/-- `ListNode::isOnly()`: `return prev_ == next_;` -/
def ListNode.isOnly (m : Memory) (this : Nat) : Bool :=
  decide ((m this).prev_ = (m this).next_)

/-- The function `List::initialize()` on the list whose sentinel is at `nil`:
`nil_.prev_ = &nil_; nil_.next_ = &nil_;` -/
def NodeList.initializeNil (m : Memory) (nil : Nat) : Memory :=
  setNext (setPrev m nil nil) nil nil

/-- `List::List()`: `initialize();` -/
def NodeList.construct (m : Memory) (nil : Nat) : Memory :=
  NodeList.initializeNil m nil

/-- `List::reset()`: `initialize();` -/
def NodeList.reset (m : Memory) (nil : Nat) : Memory :=
  NodeList.initializeNil m nil

/-- `List::isEmpty()`: `return nil_.prev_ == &nil_;` -/
def NodeList.isEmpty (m : Memory) (nil : Nat) : Bool :=
  decide ((m nil).prev_ = nil)

/-- `List::getTail()`: `return nil_.prev_;` -/
def NodeList.getTail (m : Memory) (nil : Nat) : Nat := (m nil).prev_

/-- `List::getHead()`: `return nil_.next_;` -/
def NodeList.getHead (m : Memory) (nil : Nat) : Nat := (m nil).next_

/-- `List::isNil(node)`: `assert(node != nullptr); return node == &nil_;` -/
def NodeList.isNil (nil node : Nat) : Option Bool :=
  if node = nullptr then none else some (decide (node = nil))

/-- `List::addTail(tail)`: `assert(tail != nullptr); tail->insert(getTail(), &nil_);` -/
def NodeList.addTail (m : Memory) (nil tail : Nat) : Option Memory :=
  if tail = nullptr then none
  else some (ListNode.insert m tail (NodeList.getTail m nil) nil)

/-- `List::addHead(head)`: `assert(head != nullptr); head->insert(&nil_, getHead());` -/
def NodeList.addHead (m : Memory) (nil head : Nat) : Option Memory :=
  if head = nullptr then none
  else some (ListNode.insert m head nil (NodeList.getHead m nil))

/-- `List::move(other)` on the list at `this`:
`if (isEmpty()) other->initialize();`
`else { other->nil_.insert(nil_.prev_, nil_.next_); initialize(); }` -/
def NodeList.move (m : Memory) (this other : Nat) : Memory :=
  if NodeList.isEmpty m this then NodeList.initializeNil m other
  else NodeList.initializeNil (ListNode.insert m other (m this).prev_ (m this).next_) this

/-- `List::List(List &&other)` constructing the list at `this`:
`other.move(this);` -/
def NodeList.moveConstruct (m : Memory) (this other : Nat) : Memory :=
  NodeList.move m other this

/-- `List::operator=(List &&other)` on the list at `this`:
`if (&other != this) other.move(this);` -/
def NodeList.moveAssign (m : Memory) (this other : Nat) : Memory :=
  if other ≠ this then NodeList.move m other this else m

/-- `SIREN_LIST_FOR_EACH_NODE`, collecting the nodes the loop body is run on:
`for (node = getHead(); !isNil(node); node = node->getNext())`, entered here at
`node`.  `fuel` bounds the number of loop tests; the result is `none` when the
bound is reached or an assertion fails. -/
def forEachNode (m : Memory) (nil : Nat) : Nat → Nat → Option (List Nat)
  | 0, _ => none
  | fuel + 1, node =>
    match NodeList.isNil nil node with
    | none => none
    | some true => some []
    | some false => (forEachNode m nil fuel (m node).next_).map (fun rest => node :: rest)

/-- `SIREN_LIST_FOR_EACH_NODE_REVERSE`, collecting the nodes the loop body is
run on: `for (node = getTail(); !isNil(node); node = node->getPrev())`. -/
def forEachNodeReverse (m : Memory) (nil : Nat) : Nat → Nat → Option (List Nat)
  | 0, _ => none
  | fuel + 1, node =>
    match NodeList.isNil nil node with
    | none => none
    | some true => some []
    | some false =>
      (forEachNodeReverse m nil fuel (m node).prev_).map (fun rest => node :: rest)

/-- The nodes of a list from head to tail, as `SIREN_LIST_FOR_EACH_NODE` visits
them. -/
def NodeList.nodes (fuel : Nat) (m : Memory) (nil : Nat) : Option (List Nat) :=
  forEachNode m nil fuel (NodeList.getHead m nil)

/-- The nodes of a list from tail to head, as
`SIREN_LIST_FOR_EACH_NODE_REVERSE` visits them. -/
def NodeList.nodesReverse (fuel : Nat) (m : Memory) (nil : Nat) : Option (List Nat) :=
  forEachNodeReverse m nil fuel (NodeList.getTail m nil)

/-- A doubly linked segment: following `next_` from `a` leads through `xs` to
`b`, and `prev_` leads back. -/
def Chain (m : Memory) : Nat → List Nat → Nat → Prop
  | a, [], b => (m a).next_ = b ∧ (m b).prev_ = a
  | a, x :: xs, b => (m a).next_ = x ∧ (m x).prev_ = a ∧ Chain m x xs b

/-- A well-formed ring: from the sentinel through the nodes `xs` back to the
sentinel, all nodes distinct and none at the null address. -/
def Ring (m : Memory) (nil : Nat) (xs : List Nat) : Prop :=
  Chain m nil xs nil ∧ (nil :: xs).Nodup ∧ nullptr ∉ nil :: xs

/-- The list at `nil` is the sequence `xs`: the forward traversal returns `xs`
and the reverse traversal returns `xs` reversed, for every bound on the loop
tests above the length of `xs`. -/
def Models (m : Memory) (nil : Nat) (xs : List Nat) : Prop :=
  ∀ fuel, xs.length < fuel →
    NodeList.nodes fuel m nil = some xs ∧ NodeList.nodesReverse fuel m nil = some xs.reverse

/-- The node `x` is currently linked into the list at `nil`: the forward
traversal visits it. -/
def Linked (m : Memory) (nil x : Nat) : Prop :=
  ∃ fuel xs, NodeList.nodes fuel m nil = some xs ∧ x ∈ xs

/-- The memories that hold a list at `nil` built through the interface: a
newly constructed list, followed by any number of `addHead`, `addTail`,
`insertBefore` and `insertAfter` of an existing node that is not currently
linked and is not the sentinel, relative to the sentinel or a linked node, and
`remove` of a linked node. -/
inductive Built (nil : Nat) : Memory → Prop
  | construct (m : Memory) : nil ≠ nullptr → Built nil (NodeList.construct m nil)
  | addHead (m m' : Memory) (x : Nat) : Built nil m → x ≠ nil → ¬ Linked m nil x →
      NodeList.addHead m nil x = some m' → Built nil m'
  | addTail (m m' : Memory) (x : Nat) : Built nil m → x ≠ nil → ¬ Linked m nil x →
      NodeList.addTail m nil x = some m' → Built nil m'
  | insertBefore (m m' : Memory) (x y : Nat) : Built nil m → x ≠ nullptr → x ≠ nil →
      ¬ Linked m nil x → (y = nil ∨ Linked m nil y) →
      ListNode.insertBefore m x y = some m' → Built nil m'
  | insertAfter (m m' : Memory) (x y : Nat) : Built nil m → x ≠ nullptr → x ≠ nil →
      ¬ Linked m nil x → (y = nil ∨ Linked m nil y) →
      ListNode.insertAfter m x y = some m' → Built nil m'
  | remove (m : Memory) (x : Nat) : Built nil m → Linked m nil x →
      Built nil (ListNode.remove m x)

/-! # Theorems -/

/-! ## Arithmetic of the integer types -/

theorem UIntType.digits_eq (T : UIntType) : T.digits = 8 * T.sizeof := by
  cases T <;> rfl

theorem UIntType.sizeof_pos (T : UIntType) : 0 < T.sizeof := by
  cases T <;> decide

theorem UIntType.sizeof_le (T : UIntType) : T.sizeof ≤ 8 := by
  cases T <;> decide

theorem toByte_val (x : Nat) : (toByte x).val = x % 256 := rfl

theorem toByte_mod (x : Nat) : toByte (x % 256) = toByte x := by
  apply Fin.ext
  simp [toByte_val]

theorem toByte_of_val (b : Byte) : toByte b.val = b := by
  apply Fin.ext
  simp [toByte_val, Nat.mod_eq_of_lt b.isLt]

/-! ## Little-endian byte strings -/

theorem leBytes_length (k v : Nat) : (leBytes k v).length = k := by
  induction k generalizing v with
  | zero => rfl
  | succ k ih => simp [leBytes, ih]

theorem leBytes_getElem? (k : Nat) : ∀ (v i : Nat),
    (leBytes k v)[i]? = if i < k then some (toByte (v / 256 ^ i)) else none := by
  induction k with
  | zero => intro v i; simp [leBytes]
  | succ k ih =>
    intro v i
    cases i with
    | zero => simp [leBytes]
    | succ i =>
      simp only [leBytes, List.getElem?_cons_succ, ih, Nat.add_lt_add_iff_right]
      rw [Nat.div_div_eq_div_mul, pow_succ, Nat.mul_comm]

theorem leValue_lt (bs : List Byte) : leValue bs < 256 ^ bs.length := by
  induction bs with
  | nil => simp [leValue]
  | cons b bs ih =>
    have hb := b.isLt
    simp only [leValue, List.length_cons, pow_succ]
    omega

theorem leValue_leBytes (k : Nat) : ∀ v : Nat, leValue (leBytes k v) = v % 256 ^ k := by
  induction k with
  | zero => intro v; simp [leBytes, leValue, Nat.mod_one]
  | succ k ih =>
    intro v
    simp only [leBytes, leValue, ih, toByte_val]
    rw [pow_succ, Nat.mul_comm (256 ^ k) 256, Nat.mod_mul]

theorem leBytes_leValue (bs : List Byte) : leBytes bs.length (leValue bs) = bs := by
  induction bs with
  | nil => rfl
  | cons b bs ih =>
    have hb := b.isLt
    simp only [List.length_cons, leBytes, leValue]
    have h1 : (b.val + 256 * leValue bs) / 256 = leValue bs := by omega
    have h2 : toByte (b.val + 256 * leValue bs) = b := by
      apply Fin.ext
      simp only [toByte_val]
      omega
    rw [h1, h2, ih]

/-! ## The two loops of the fixed-width codec -/

theorem UnsignedToSigned_counter (j : Nat) (hj : j < 2 ^ 28) :
    UnsignedToSigned UINT_DIGITS (8 * j) = ((8 * j : Nat) : Int) := by
  have h : 8 * j % 2 ^ 32 = 8 * j := Nat.mod_eq_of_lt (by omega)
  simp only [UnsignedToSigned, UINT_DIGITS, h]
  rw [if_pos (by omega)]

/-- The serializing loop run for `j` rounds stores the next `j` bytes of
`integer` behind position `p` and leaves every other position alone. -/
theorem serializeLoop_getElem? (T : UIntType) : ∀ (j : Nat) (buffer : List Byte)
    (p integer : Nat), j < 2 ^ 28 → integer < 2 ^ T.digits → p + j < buffer.length →
    ∀ i : Nat, (serializeLoop T buffer p integer (8 * j))[i]? =
      if p < i ∧ i ≤ p + j then some (toByte (integer / 256 ^ (i - p))) else buffer[i]? := by
  intro j
  induction j with
  | zero =>
    intro buffer p integer _ _ _ i
    rw [serializeLoop, UnsignedToSigned_counter 0 (by decide)]
    have h0 : ¬ (p < i ∧ i ≤ p + 0) := by omega
    rw [if_neg h0]
    simp
  | succ j ih =>
    intro buffer p integer hj hint hp i
    rw [serializeLoop, UnsignedToSigned_counter (j + 1) hj]
    rw [if_pos (by omega)]
    have hshift : (integer >>> 8) % 2 ^ T.digits = integer / 256 := by
      rw [Nat.shiftRight_eq_div_pow]
      apply Nat.mod_eq_of_lt
      exact lt_of_le_of_lt (Nat.div_le_self _ _) hint
    have hn : (8 * (j + 1) + 2 ^ UINT_DIGITS - 8) % 2 ^ UINT_DIGITS = 8 * j := by
      simp only [UINT_DIGITS]
      omega
    rw [hshift, hn]
    have hlt : integer / 256 < 2 ^ T.digits := lt_of_le_of_lt (Nat.div_le_self _ _) hint
    rw [ih _ (p + 1) (integer / 256) (by omega) hlt (by simp; omega) i]
    by_cases h1 : p + 1 < i ∧ i ≤ p + 1 + j
    · have h2 : p < i ∧ i ≤ p + (j + 1) := by omega
      rw [if_pos h1, if_pos h2, Nat.div_div_eq_div_mul]
      have : i - p = (i - (p + 1)) + 1 := by omega
      rw [this, pow_succ, Nat.mul_comm]
    · rw [if_neg h1, List.getElem?_set]
      by_cases h3 : p + 1 = i
      · have h2 : p < i ∧ i ≤ p + (j + 1) := by omega
        have h4 : i - p = 1 := by omega
        rw [if_pos h3, if_pos (by omega), if_pos h2, h4, pow_one]
      · have h2 : ¬ (p < i ∧ i ≤ p + (j + 1)) := by omega
        rw [if_neg h3, if_neg h2]

theorem serializeLoop_length (T : UIntType) : ∀ (j : Nat) (buffer : List Byte)
    (p integer : Nat), j < 2 ^ 28 →
    (serializeLoop T buffer p integer (8 * j)).length = buffer.length := by
  intro j
  induction j with
  | zero =>
    intro buffer p integer _
    rw [serializeLoop, UnsignedToSigned_counter 0 (by decide)]
    simp
  | succ j ih =>
    intro buffer p integer hj
    rw [serializeLoop, UnsignedToSigned_counter (j + 1) hj]
    rw [if_pos (by omega)]
    have hn : (8 * (j + 1) + 2 ^ UINT_DIGITS - 8) % 2 ^ UINT_DIGITS = 8 * j := by
      simp only [UINT_DIGITS]
      omega
    rw [hn, ih _ _ _ (by omega)]
    simp

theorem getD_drop_take (data : List Byte) (p m : Nat) (h : p + m < data.length) :
    (data.drop p).take (m + 1) = data.getD p 0 :: (data.drop (p + 1)).take m := by
  have hp : p < data.length := by omega
  rw [List.drop_eq_getElem_cons hp, List.take_succ_cons]
  simp [List.getD_eq_getElem?_getD, List.getElem?_eq_getElem hp]

/-- The deserializing loop, entered with `k` bytes already merged into `integer`
and `m` bytes still to come, adds those `m` bytes above the `k` low ones. -/
theorem deserializeLoop_eq (T : UIntType) : ∀ (m : Nat) (data : List Byte)
    (p integer k : Nat), k + m = T.sizeof → integer < 256 ^ k → p + m < data.length →
    deserializeLoop T data p integer (8 * k) =
      integer + 256 ^ k * leValue ((data.drop (p + 1)).take m) := by
  intro m
  induction m with
  | zero =>
    intro data p integer k hk _ _
    rw [deserializeLoop, if_neg (by rw [UIntType.digits_eq]; omega)]
    simp [leValue]
  | succ m ih =>
    intro data p integer k hk hint hp
    have hsz := T.sizeof_le
    rw [deserializeLoop, if_pos (by rw [UIntType.digits_eq]; omega)]
    have hn : (8 * k + 8) % 2 ^ UINT_DIGITS = 8 * (k + 1) := by
      simp only [UINT_DIGITS]
      omega
    have hpow : (256 : Nat) ^ k = 2 ^ (8 * k) := by
      rw [pow_mul]
      norm_num
    have hb := (data.getD (p + 1) 0).isLt
    have hle : (256 : Nat) ^ (k + 1) ≤ 2 ^ T.digits := by
      have : (256 : Nat) ^ (k + 1) = 2 ^ (8 * (k + 1)) := by
        rw [pow_mul]
        norm_num
      rw [this]
      apply Nat.pow_le_pow_right (by decide)
      rw [UIntType.digits_eq]
      omega
    have hsh : (data.getD (p + 1) 0).val <<< (8 * k) < 256 ^ (k + 1) := by
      rw [Nat.shiftLeft_eq, ← hpow, pow_succ, Nat.mul_comm]
      exact Nat.mul_lt_mul_of_pos_left hb (by positivity)
    have hor : integer ||| (data.getD (p + 1) 0).val <<< (8 * k) =
        integer + 256 ^ k * (data.getD (p + 1) 0).val := by
      rw [Nat.shiftLeft_eq, ← hpow, Nat.mul_comm, Nat.lor_comm, hpow,
        ← Nat.mul_add_lt_is_or (by rw [← hpow]; exact hint), Nat.add_comm]
    have hsum : integer + 256 ^ k * (data.getD (p + 1) 0).val < 256 ^ (k + 1) := by
      rw [pow_succ]
      have : 256 ^ k * (data.getD (p + 1) 0).val ≤ 256 ^ k * 255 :=
        Nat.mul_le_mul_left _ (by omega)
      omega
    rw [hn, Nat.mod_eq_of_lt (lt_of_lt_of_le hsh hle), hor,
      Nat.mod_eq_of_lt (lt_of_lt_of_le hsum hle),
      ih data (p + 1) _ (k + 1) (by omega) hsum (by omega),
      getD_drop_take data (p + 1) m (by omega)]
    simp only [leValue, pow_succ]
    ring

/-! ## Windows of a region -/

theorem window_length_le (region : List Byte) (start len : Nat) :
    (window region start len).length ≤ len := by
  simp [window, List.length_take]

theorem window_length (region : List Byte) (start len : Nat)
    (h : start + len ≤ region.length) : (window region start len).length = len := by
  simp only [window, List.length_take, List.length_drop]
  omega

theorem window_getElem? (region : List Byte) (start len i : Nat) :
    (window region start len)[i]? = if i < len then region[start + i]? else none := by
  simp only [window, List.getElem?_take, List.getElem?_drop]

theorem window_eq_of_getElem? (region bytes : List Byte) (start : Nat)
    (h : ∀ i, i < bytes.length → region[start + i]? = bytes[i]?) :
    window region start bytes.length = bytes := by
  apply List.ext_getElem?
  intro i
  rw [window_getElem?]
  by_cases hi : i < bytes.length
  · rw [if_pos hi, h i hi]
  · rw [if_neg hi]
    exact (List.getElem?_eq_none (by omega)).symm

theorem window_append (region x y : List Byte) (start : Nat)
    (h : window region start (x.length + y.length) = x ++ y) :
    window region start x.length = x ∧ window region (start + x.length) y.length = y := by
  have hget : ∀ i : Nat,
      (window region start (x.length + y.length))[i]? = (x ++ y)[i]? := by
    intro i
    rw [h]
  constructor
  · apply window_eq_of_getElem?
    intro i hi
    have := hget i
    rw [window_getElem?, if_pos (by omega), List.getElem?_append_left hi] at this
    exact this
  · apply window_eq_of_getElem?
    intro i hi
    have := hget (x.length + i)
    rw [window_getElem?, if_pos (by omega),
      List.getElem?_append_right (by omega)] at this
    rw [Nat.add_assoc, this]
    congr 1
    omega

theorem window_all (region : List Byte) (start len : Nat) (bytes : List Byte)
    (h : window region start len = bytes) (hlen : bytes.length = len) (hpos : 0 < len) :
    start + len ≤ region.length := by
  have h1 : (window region start len).length = len := by rw [h, hlen]
  simp only [window, List.length_take, List.length_drop, Nat.min_def] at h1
  split at h1 <;> omega

theorem WritesAt.window {before after : List Byte} {w : Nat} {bytes : List Byte}
    (h : WritesAt before after w bytes) : window after w bytes.length = bytes :=
  window_eq_of_getElem? after bytes w h.1

theorem WritesAt.refl (b : List Byte) (w : Nat) : WritesAt b b w [] :=
  ⟨fun i hi => absurd hi (Nat.not_lt_zero i), fun _ _ _ => rfl, Nat.le_refl _⟩

theorem WritesAt.append {b0 b1 b2 : List Byte} {w : Nat} {x y : List Byte}
    (h1 : WritesAt b0 b1 w x) (h2 : WritesAt b1 b2 (w + x.length) y) :
    WritesAt b0 b2 w (x ++ y) := by
  obtain ⟨hw1, hf1, hl1⟩ := h1
  obtain ⟨hw2, hf2, hl2⟩ := h2
  refine ⟨?_, ?_, Nat.le_trans hl1 hl2⟩
  · intro i hi
    rw [List.length_append] at hi
    by_cases hx : i < x.length
    · have hin : w + i < b1.length := by
        have := hw1 i hx
        rw [List.getElem?_eq_getElem hx] at this
        by_contra hc
        rw [List.getElem?_eq_none (by omega)] at this
        exact Option.noConfusion this
      rw [hf2 (w + i) (Or.inl (by omega)) hin, hw1 i hx, List.getElem?_append_left hx]
    · have := hw2 (i - x.length) (by omega)
      rw [List.getElem?_append_right (by omega), ← this]
      congr 1
      omega
  · intro j hj hlen
    rw [List.length_append] at hj
    rw [hf2 j (by omega) (by omega), hf1 j (by omega) hlen]

/-! ## The fixed-width codec, stated on whole calls -/

theorem leBytes_mod (k : Nat) : ∀ v : Nat, leBytes k (v % 256 ^ k) = leBytes k v := by
  intro v
  apply List.ext_getElem?
  intro i
  rw [leBytes_getElem?, leBytes_getElem?]
  by_cases hi : i < k
  · rw [if_pos hi, if_pos hi]
    congr 1
    apply Fin.ext
    simp only [toByte_val]
    obtain ⟨d, rfl⟩ : ∃ d, k = i + 1 + d := ⟨k - (i + 1), by omega⟩
    rw [pow_add, pow_succ, Nat.mul_assoc, Nat.mod_mul_right_div_self, Nat.mod_mod_of_dvd]
    exact Dvd.intro _ rfl
  · rw [if_neg hi, if_neg hi]

theorem two_pow_digits (T : UIntType) : 2 ^ T.digits = 256 ^ T.sizeof := by
  cases T <;> decide

/-- What `serializeInteger` does on a bound archive: it returns normally, the
little-endian bytes of the argument stand at the old write cursor, the write
cursor has advanced by `sizeof(T)`, nothing else has changed. -/
theorem serializeInteger_spec (T : UIntType) (a : Archive) (s : Stream) (v : Nat)
    (h : a.stream_ = some s) :
    ∃ b, a.serializeInteger T v =
        ⟨⟨some ⟨s.data, b⟩, a.writtenByteCount_ + T.sizeof, a.readByteCount_⟩, (), none⟩ ∧
      WritesAt s.buffer b a.writtenByteCount_ (leBytes T.sizeof v) := by
  have hsz := T.sizeof_le
  have hpos := T.sizeof_pos
  have hn : (T.digits + 2 ^ UINT_DIGITS - 8) % 2 ^ UINT_DIGITS = 8 * (T.sizeof - 1) := by
    rw [UIntType.digits_eq]
    simp only [UINT_DIGITS]
    omega
  have hv : v % 2 ^ T.digits < 2 ^ T.digits := Nat.mod_lt _ (by positivity)
  simp only [Archive.serializeInteger, h, Stream.reserveBuffer]
  refine ⟨_, rfl, ?_⟩
  · simp only [hn]
    set w := a.writtenByteCount_
    set pad := s.buffer ++ List.replicate (w + T.sizeof - s.buffer.length) 0 with hpad
    have hlen : w + T.sizeof ≤ pad.length := by
      simp only [hpad, List.length_append, List.length_replicate]
      omega
    have hset : w + (T.sizeof - 1) < (pad.set w (toByte (v % 2 ^ T.digits))).length := by
      rw [List.length_set]
      omega
    have hget := serializeLoop_getElem? T (T.sizeof - 1) _ w (v % 2 ^ T.digits)
      (by omega) hv hset
    refine ⟨?_, ?_, ?_⟩
    · intro i hi
      rw [leBytes_length] at hi
      rw [hget, ← leBytes_mod, ← two_pow_digits, leBytes_getElem?, if_pos hi]
      by_cases h0 : i = 0
      · subst h0
        rw [if_neg (by omega), Nat.add_zero, List.getElem?_set, if_pos rfl,
          if_pos (by omega), pow_zero, Nat.div_one]
      · rw [if_pos (by omega), Nat.add_sub_cancel_left]
    · intro j hj hjl
      rw [leBytes_length] at hj
      rw [hget, if_neg (by omega), List.getElem?_set, if_neg (by omega), hpad,
        List.getElem?_append_left hjl]
    · rw [serializeLoop_length T _ _ _ _ (by omega), List.length_set, hpad,
        List.length_append]
      omega

/-- What `deserializeInteger` does on a bound archive holding enough bytes: it
returns normally with the little-endian value of the `sizeof(T)` bytes at the
read cursor and advances the read cursor by `sizeof(T)`. -/
theorem deserializeInteger_spec (T : UIntType) (a : Archive) (s : Stream) (d : Nat)
    (h : a.stream_ = some s) (hlen : a.readByteCount_ + T.sizeof ≤ s.data.length) :
    a.deserializeInteger T d =
      ⟨{ a with readByteCount_ := a.readByteCount_ + T.sizeof },
        leValue (window s.data a.readByteCount_ T.sizeof), none⟩ := by
  have hsz := T.sizeof_le
  have hpos := T.sizeof_pos
  have hb := (s.data.getD a.readByteCount_ 0).isLt
  have h256 : (256 : Nat) ≤ 2 ^ T.digits := by
    cases T <;> decide
  simp only [Archive.deserializeInteger, h, Stream.getDataSize]
  rw [if_neg (by omega)]
  have hk := deserializeLoop_eq T (T.sizeof - 1) s.data a.readByteCount_
    ((s.data.getD a.readByteCount_ 0).val % 2 ^ T.digits) 1 (by omega)
    (by rw [Nat.mod_eq_of_lt (by omega)]; simp) (by omega)
  rw [show (8 : Nat) = 8 * 1 from rfl, hk, Nat.mod_eq_of_lt (by omega)]
  have hw : window s.data a.readByteCount_ T.sizeof =
      s.data.getD a.readByteCount_ 0 ::
        (s.data.drop (a.readByteCount_ + 1)).take (T.sizeof - 1) := by
    have := getD_drop_take s.data a.readByteCount_ (T.sizeof - 1) (by omega)
    rw [← this, window]
    congr 1
    omega
  rw [hw]
  simp [leValue]

/-- When fewer than `sizeof(T)` bytes are available beyond the read cursor,
`deserializeInteger` throws and changes nothing. -/
theorem deserializeInteger_short (T : UIntType) (a : Archive) (s : Stream) (d : Nat)
    (h : a.stream_ = some s) (hlen : s.data.length < a.readByteCount_ + T.sizeof) :
    a.deserializeInteger T d = ⟨a, d, some .EndOfStream⟩ := by
  simp only [Archive.deserializeInteger, h, Stream.getDataSize]
  rw [if_pos hlen]

theorem isValid_iff (a : Archive) : a.isValid = true ↔ ∃ s, a.stream_ = some s := by
  cases a with
  | mk st w r =>
    cases st with
    | none => simp [Archive.isValid]
    | some s => simp [Archive.isValid]

theorem bytesWritten_serializeInteger (T : UIntType) (a : Archive) (v : Nat)
    (ha : a.isValid = true) :
    bytesWritten a (a.serializeInteger T v) = leBytes T.sizeof v := by
  obtain ⟨s, hs⟩ := (isValid_iff a).1 ha
  obtain ⟨b, hb, hw⟩ := serializeInteger_spec T a s v hs
  rw [hb]
  simp only [bytesWritten, Archive.buffer, Nat.add_sub_cancel_left]
  have := hw.window
  rw [leBytes_length] at this
  exact this

theorem leBytes_val (k v i : Nat) (hi : i < k) :
    ((leBytes k v)[i]?).map Fin.val = some ((v >>> (8 * i)) &&& 0xFF) := by
  rw [leBytes_getElem?, if_pos hi, Option.map_some', toByte_val, Nat.shiftRight_eq_div_pow,
    pow_mul]
  have : (0xFF : Nat) = 2 ^ 8 - 1 := by decide
  rw [this, Nat.and_pow_two_sub_one_eq_mod]
  norm_num

/-! ## The dispatch layer: what a value writes and how it is read back -/

theorem valid_of_isValid (a : Archive) (s : Stream) (h : a.stream_ = some s) : a.isValid = true := by
  simp [Archive.isValid, h]

theorem insertUnsigned_spec (T : UIntType) (a : Archive) (s : Stream) (v : Nat)
    (h : a.stream_ = some s) :
    ∃ b, a.insertUnsigned T v =
        ⟨⟨some ⟨s.data, b⟩, a.writtenByteCount_ + T.sizeof, a.readByteCount_⟩, (), none⟩ ∧
      WritesAt s.buffer b a.writtenByteCount_ (leBytes T.sizeof v) := by
  simp only [Archive.insertUnsigned, valid_of_isValid a s h, if_true]
  exact serializeInteger_spec T a s v h

/-! ## Byte-like values and the blob copy -/

theorem data_eq (a : Archive) (s : Stream) (h : a.stream_ = some s) : a.data = s.data := by
  simp [Archive.data, h]

theorem WritesAt.single (region : List Byte) (w : Nat) (b : Byte) (h : w < region.length) :
    WritesAt region (region.set w b) w [b] := by
  refine ⟨?_, ?_, by rw [List.length_set]⟩
  · intro i hi
    have h0 : i = 0 := by simpa using hi
    subst h0
    rw [Nat.add_zero, List.getElem?_set, if_pos rfl, if_pos h]
    rfl
  · intro j hj _
    simp only [List.length_singleton] at hj
    rw [List.getElem?_set, if_neg (by omega)]

theorem copyAt_spec : ∀ (bytes region : List Byte) (w : Nat),
    w + bytes.length ≤ region.length → WritesAt region (copyAt region w bytes) w bytes
  | [], region, w, _ => WritesAt.refl region w
  | b :: bs, region, w, h => by
    simp only [List.length_cons] at h
    have h1 := WritesAt.single region w b (by omega)
    have h2 := copyAt_spec bs (region.set w b) (w + 1) (by rw [List.length_set]; omega)
    exact WritesAt.append h1 h2

theorem WritesAt.of_padded {region after : List Byte} {w k : Nat} {bytes : List Byte}
    (h : WritesAt (region ++ List.replicate k 0) after w bytes) :
    WritesAt region after w bytes := by
  obtain ⟨h1, h2, h3⟩ := h
  refine ⟨h1, ?_, ?_⟩
  · intro j hj hlen
    rw [h2 j hj (by rw [List.length_append]; omega), List.getElem?_append_left hlen]
  · rw [List.length_append] at h3
    omega

theorem serializeBytes_spec (a : Archive) (s : Stream) (bytes : List Byte)
    (h : a.stream_ = some s) :
    ∃ b, a.serializeBytes bytes bytes.length =
        ⟨⟨some ⟨s.data, b⟩, a.writtenByteCount_ + bytes.length, a.readByteCount_⟩, (), none⟩ ∧
      WritesAt s.buffer b a.writtenByteCount_ bytes := by
  simp only [Archive.serializeBytes, h, Stream.reserveBuffer, Nat.lt_irrefl, if_false,
    List.take_length]
  refine ⟨_, rfl, ?_⟩
  apply WritesAt.of_padded
  apply copyAt_spec
  simp only [List.length_append, List.length_replicate]
  omega

theorem deserializeBytes_spec (a : Archive) (s : Stream) (bytes : List Byte)
    (h : a.stream_ = some s)
    (hlen : a.readByteCount_ + bytes.length ≤ s.data.length) :
    a.deserializeBytes bytes bytes.length =
      ⟨{ a with readByteCount_ := a.readByteCount_ + bytes.length },
        window s.data a.readByteCount_ bytes.length, none⟩ := by
  simp only [Archive.deserializeBytes, h, Stream.getDataSize]
  rw [if_neg (by omega), if_neg (Nat.lt_irrefl _)]
  simp

theorem deserializeBytes_short (a : Archive) (s : Stream) (bytes : List Byte) (size : Nat)
    (h : a.stream_ = some s) (hlen : s.data.length < a.readByteCount_ + size) :
    a.deserializeBytes bytes size = ⟨a, bytes, some .EndOfStream⟩ := by
  simp only [Archive.deserializeBytes, h, Stream.getDataSize]
  rw [if_pos hlen]

mutual
theorem wireLayout_of_likeChar : ∀ (v : Value), v.likeChar = true →
    v.wireLayout = [v.rawByte]
  | .bool _, _ => rfl
  | .unsigned T x, h => by
    simp only [Value.likeChar, decide_eq_true_eq] at h
    subst h
    rfl
  | .signed T x, h => by
    simp only [Value.likeChar, decide_eq_true_eq] at h
    subst h
    rfl
  | .array xs, h => by
    simp only [Value.likeChar] at h
    simp only [Value.wireLayout, Value.rawByte]
    exact wireLayouts_of_single xs h
  | .object _, h => by simp [Value.likeChar] at h
  | .byteObject m, h => by
    simp only [Value.likeChar] at h
    simp only [Value.wireLayout, Value.rawByte]
    exact wireLayout_of_likeChar m h
theorem wireLayouts_of_single : ∀ (xs : List Value), Value.singleLikeChar xs = true →
    Value.wireLayouts xs = [Value.rawByteFirst xs]
  | [], h => by simp [Value.singleLikeChar] at h
  | x :: [], h => by
    simp only [Value.singleLikeChar] at h
    simp only [Value.wireLayouts, Value.rawByteFirst, List.append_nil]
    exact wireLayout_of_likeChar x h
  | x :: _ :: _, h => by simp [Value.singleLikeChar] at h
end

theorem wireLayouts_of_all : ∀ (xs : List Value), xs.all Value.likeChar = true →
    Value.wireLayouts xs = xs.map Value.rawByte
  | [], _ => rfl
  | x :: xs, h => by
    simp only [List.all_cons, Bool.and_eq_true] at h
    simp only [Value.wireLayouts, List.map_cons, wireLayout_of_likeChar x h.1,
      wireLayouts_of_all xs h.2, List.singleton_append]

theorem likeCharElements_iff (xs : List Value) :
    Value.likeCharElements xs = true ↔ xs ≠ [] ∧ xs.all Value.likeChar = true := by
  cases xs <;> simp [Value.likeCharElements]

mutual
theorem likeChar_of_sameType : ∀ (v d : Value), Value.sameType d v = true →
    d.likeChar = v.likeChar
  | .bool _, d, h => by
    cases d <;> simp only [Value.sameType, Bool.false_eq_true] at h
    rfl
  | .unsigned T _, d, h => by
    cases d <;> simp only [Value.sameType, Bool.false_eq_true, decide_eq_true_eq] at h
    subst h
    rfl
  | .signed T _, d, h => by
    cases d <;> simp only [Value.sameType, Bool.false_eq_true, decide_eq_true_eq] at h
    subst h
    rfl
  | .array xs, d, h => by
    cases d <;> simp only [Value.sameType, Bool.false_eq_true] at h
    simp only [Value.likeChar]
    exact singleLikeChar_of_sameTypes xs _ h
  | .object _, d, h => by
    cases d <;> simp only [Value.sameType, Bool.false_eq_true] at h
    rfl
  | .byteObject m, d, h => by
    cases d <;> simp only [Value.sameType, Bool.false_eq_true] at h
    simp only [Value.likeChar]
    exact likeChar_of_sameType m _ h
theorem singleLikeChar_of_sameTypes : ∀ (xs ds : List Value),
    Value.sameTypes ds xs = true → Value.singleLikeChar ds = Value.singleLikeChar xs
  | [], ds, h => by
    cases ds <;> simp only [Value.sameTypes, Bool.false_eq_true] at h
    rfl
  | x :: [], ds, h => by
    cases ds with
    | nil => simp only [Value.sameTypes, Bool.false_eq_true] at h
    | cons d ds =>
      simp only [Value.sameTypes, Bool.and_eq_true] at h
      cases ds with
      | nil =>
        simp only [Value.singleLikeChar]
        exact likeChar_of_sameType x d h.1
      | cons _ _ => simp only [Value.sameTypes, Bool.false_eq_true] at h; exact absurd h.2 id
  | x :: y :: xs, ds, h => by
    cases ds with
    | nil => simp only [Value.sameTypes, Bool.false_eq_true] at h
    | cons d ds =>
      simp only [Value.sameTypes, Bool.and_eq_true] at h
      cases ds with
      | nil => simp only [Value.sameTypes, Bool.false_eq_true] at h; exact absurd h.2 id
      | cons _ _ => simp only [Value.singleLikeChar]
end

theorem sameTypes_length : ∀ (xs ds : List Value), Value.sameTypes ds xs = true →
    ds.length = xs.length
  | [], ds, h => by
    cases ds <;> simp only [Value.sameTypes, Bool.false_eq_true] at h
    rfl
  | x :: xs, ds, h => by
    cases ds with
    | nil => simp only [Value.sameTypes, Bool.false_eq_true] at h
    | cons d ds =>
      simp only [Value.sameTypes, Bool.and_eq_true] at h
      simp only [List.length_cons, sameTypes_length xs ds h.2]

theorem all_likeChar_of_sameTypes : ∀ (xs ds : List Value), Value.sameTypes ds xs = true →
    ds.all Value.likeChar = xs.all Value.likeChar
  | [], ds, h => by
    cases ds <;> simp only [Value.sameTypes, Bool.false_eq_true] at h
    rfl
  | x :: xs, ds, h => by
    cases ds with
    | nil => simp only [Value.sameTypes, Bool.false_eq_true] at h
    | cons d ds =>
      simp only [Value.sameTypes, Bool.and_eq_true] at h
      simp only [List.all_cons, likeChar_of_sameType x d h.1,
        all_likeChar_of_sameTypes xs ds h.2]

theorem likeCharElements_of_sameTypes (xs ds : List Value)
    (h : Value.sameTypes ds xs = true) :
    Value.likeCharElements ds = Value.likeCharElements xs := by
  have h1 := sameTypes_length xs ds h
  have h2 := all_likeChar_of_sameTypes xs ds h
  cases xs <;> cases ds <;> simp [Value.likeCharElements] at h1 h2 ⊢
  exact h2

mutual
theorem insert_spec : ∀ (v : Value) (a : Archive) (s : Stream), a.stream_ = some s →
    ∃ b, a.insert v = ⟨⟨some ⟨s.data, b⟩, a.writtenByteCount_ + v.wireLayout.length,
        a.readByteCount_⟩, (), none⟩ ∧
      WritesAt s.buffer b a.writtenByteCount_ v.wireLayout
  | .bool x, a, s, h => by
    obtain ⟨b, hb, hw⟩ := insertUnsigned_spec .u8 a s (if x then 1 else 0) h
    refine ⟨b, ?_, ?_⟩
    · simp only [Archive.insert, Archive.insertBool, valid_of_isValid a s h, if_true, hb]
      rfl
    · cases x <;> exact hw
  | .unsigned T x, a, s, h => by
    obtain ⟨b, hb, hw⟩ := insertUnsigned_spec T a s x h
    refine ⟨b, ?_, hw⟩
    simp only [Archive.insert, hb, Value.wireLayout, leBytes_length]
  | .signed T x, a, s, h => by
    obtain ⟨b, hb, hw⟩ := serializeInteger_spec T a s (SignedToUnsigned T.digits x) h
    refine ⟨b, ?_, hw⟩
    simp only [Archive.insert, Archive.insertSigned, valid_of_isValid a s h, if_true, hb,
      Value.wireLayout, leBytes_length]
  | .array xs, a, s, h => by
    have hv := valid_of_isValid a s h
    cases hl : Value.likeCharElements xs with
    | true =>
      have hall := ((likeCharElements_iff xs).1 hl).2
      obtain ⟨b, hb, hw⟩ := serializeBytes_spec a s (xs.map Value.rawByte) h
      rw [List.length_map] at hb
      refine ⟨b, ?_, ?_⟩
      · simp only [Archive.insert, hv, if_true, hl, hb, Value.wireLayout,
          wireLayouts_of_all xs hall, List.length_map]
      · simp only [Value.wireLayout, wireLayouts_of_all xs hall]
        exact hw
    | false =>
      obtain ⟨b, hb, hw⟩ := insertEach_spec xs a s h
      refine ⟨b, ?_, hw⟩
      simp only [Archive.insert, hv, if_true, hl, Bool.false_eq_true, if_false, hb,
        Value.wireLayout]
  | .object xs, a, s, h => by
    obtain ⟨b, hb, hw⟩ := insertEach_spec xs a s h
    refine ⟨b, ?_, hw⟩
    simp only [Archive.insert, valid_of_isValid a s h, if_true, hb, Value.wireLayout]
  | .byteObject m, a, s, h => by
    obtain ⟨b, hb, hw⟩ := insert_spec m a s h
    refine ⟨b, ?_, hw⟩
    simp only [Archive.insert, valid_of_isValid a s h, if_true, hb, Value.wireLayout]
theorem insertEach_spec : ∀ (vs : List Value) (a : Archive) (s : Stream), a.stream_ = some s →
    ∃ b, Archive.insertEach a vs = ⟨⟨some ⟨s.data, b⟩,
        a.writtenByteCount_ + (Value.wireLayouts vs).length, a.readByteCount_⟩, (), none⟩ ∧
      WritesAt s.buffer b a.writtenByteCount_ (Value.wireLayouts vs)
  | [], a, s, h => by
    refine ⟨s.buffer, ?_, WritesAt.refl _ _⟩
    simp only [Archive.insertEach, Value.wireLayouts, List.length_nil, Nat.add_zero, ← h]
  | x :: xs, a, s, h => by
    obtain ⟨b1, e1, w1⟩ := insert_spec x a s h
    obtain ⟨b2, e2, w2⟩ := insertEach_spec xs
      ⟨some ⟨s.data, b1⟩, a.writtenByteCount_ + x.wireLayout.length, a.readByteCount_⟩
      ⟨s.data, b1⟩ rfl
    refine ⟨b2, ?_, WritesAt.append w1 w2⟩
    simp only [Archive.insertEach, e1, e2, Value.wireLayouts, List.length_append, Nat.add_assoc]
end

theorem UnsignedToSigned_SignedToUnsigned (T : UIntType) (v : Int)
    (hlo : -((2 ^ (T.digits - 1) : Nat) : Int) ≤ v)
    (hhi : v < ((2 ^ (T.digits - 1) : Nat) : Int)) :
    UnsignedToSigned T.digits (SignedToUnsigned T.digits v) = v := by
  cases T <;> simp only [UnsignedToSigned, SignedToUnsigned, UIntType.digits] at * <;>
    norm_num at * <;> split <;> omega

theorem SignedToUnsigned_lt (T : UIntType) (v : Int) :
    SignedToUnsigned T.digits v < 2 ^ T.digits := by
  cases T <;> simp only [SignedToUnsigned, UIntType.digits] <;> norm_num <;> omega

/-- Reading back the bytes of `x`. -/
theorem deserializeInteger_leBytes (T : UIntType) (r : Archive) (s : Stream) (x d : Nat)
    (h : r.stream_ = some s) (hx : x < 2 ^ T.digits)
    (hwin : window s.data r.readByteCount_ T.sizeof = leBytes T.sizeof x) :
    r.deserializeInteger T d =
      ⟨{ r with readByteCount_ := r.readByteCount_ + T.sizeof }, x, none⟩ := by
  have hlen := window_all _ _ _ _ hwin (leBytes_length _ _) T.sizeof_pos
  rw [deserializeInteger_spec T r s d h hlen, hwin, leValue_leBytes, ← two_pow_digits,
    Nat.mod_eq_of_lt hx]

theorem toByte_val_of_lt (x : Nat) (h : x < 256) : (toByte x).val = x := by
  simp only [toByte]
  exact Nat.mod_eq_of_lt h

mutual
theorem ofRawByte_rawByte : ∀ (v d : Value), v.likeChar = true → v.inRange = true →
    Value.sameType d v = true → Value.ofRawByte v.rawByte d = v
  | .bool x, d, _, _, hst => by
    cases d <;> simp only [Value.sameType, Bool.false_eq_true] at hst
    cases x <;> simp [Value.ofRawByte, Value.rawByte]
  | .unsigned T x, d, hl, hr, hst => by
    cases d <;> simp only [Value.sameType, Bool.false_eq_true, decide_eq_true_eq] at hst
    subst hst
    simp only [Value.likeChar, decide_eq_true_eq] at hl
    subst hl
    simp only [Value.inRange, decide_eq_true_eq, UIntType.digits] at hr
    simp only [Value.ofRawByte, Value.rawByte, toByte_val_of_lt x (by omega)]
  | .signed T x, d, hl, hr, hst => by
    cases d <;> simp only [Value.sameType, Bool.false_eq_true, decide_eq_true_eq] at hst
    subst hst
    simp only [Value.likeChar, decide_eq_true_eq] at hl
    subst hl
    simp only [Value.inRange, decide_eq_true_eq] at hr
    have h1 := SignedToUnsigned_lt .u8 x
    have h2 := UnsignedToSigned_SignedToUnsigned .u8 x hr.1 hr.2
    simp only [UIntType.digits] at h1 h2
    have h3 : SignedToUnsigned 8 x < 256 := h1
    simp only [Value.ofRawByte, Value.rawByte, toByte_val_of_lt _ h3, h2]
  | .array xs, d, hl, hr, hst => by
    cases d <;> simp only [Value.sameType, Bool.false_eq_true] at hst
    simp only [Value.likeChar] at hl
    simp only [Value.inRange] at hr
    simp only [Value.ofRawByte, Value.rawByte, ofRawByteFirst_rawByteFirst xs _ hl hr hst]
  | .object _, _, hl, _, _ => by simp [Value.likeChar] at hl
  | .byteObject m, d, hl, hr, hst => by
    cases d <;> simp only [Value.sameType, Bool.false_eq_true] at hst
    simp only [Value.likeChar] at hl
    simp only [Value.inRange] at hr
    simp only [Value.ofRawByte, Value.rawByte, ofRawByte_rawByte m _ hl hr hst]
theorem ofRawByteFirst_rawByteFirst : ∀ (xs ds : List Value),
    Value.singleLikeChar xs = true → Value.allInRange xs = true →
    Value.sameTypes ds xs = true →
    Value.ofRawByteFirst (Value.rawByteFirst xs) ds = xs
  | [], _, hl, _, _ => by simp [Value.singleLikeChar] at hl
  | x :: [], ds, hl, hr, hst => by
    cases ds with
    | nil => simp only [Value.sameTypes, Bool.false_eq_true] at hst
    | cons d ds =>
      simp only [Value.sameTypes, Bool.and_eq_true] at hst
      cases ds with
      | nil =>
        simp only [Value.singleLikeChar] at hl
        simp only [Value.allInRange, Bool.and_true] at hr
        simp only [Value.ofRawByteFirst, Value.rawByteFirst,
          ofRawByte_rawByte x d hl hr hst.1]
      | cons _ _ => simp only [Value.sameTypes, Bool.false_eq_true] at hst; exact absurd hst.2 id
  | _ :: _ :: _, _, hl, _, _ => by simp [Value.singleLikeChar] at hl
end

theorem zipWith_ofRawByte : ∀ (xs ds : List Value), xs.all Value.likeChar = true →
    Value.allInRange xs = true → Value.sameTypes ds xs = true →
    List.zipWith Value.ofRawByte (xs.map Value.rawByte) ds = xs
  | [], ds, _, _, hst => by
    cases ds <;> simp only [Value.sameTypes, Bool.false_eq_true] at hst
    rfl
  | x :: xs, ds, hl, hr, hst => by
    cases ds with
    | nil => simp only [Value.sameTypes, Bool.false_eq_true] at hst
    | cons d ds =>
      simp only [Value.sameTypes, Bool.and_eq_true] at hst
      simp only [Value.allInRange, Bool.and_eq_true] at hr
      simp only [List.all_cons, Bool.and_eq_true] at hl
      simp only [List.map_cons, List.zipWith_cons_cons, ofRawByte_rawByte x d hl.1 hr.1 hst.1,
        zipWith_ofRawByte xs ds hl.2 hr.2 hst.2]

mutual
theorem extract_spec : ∀ (v d : Value) (r : Archive) (s : Stream), r.stream_ = some s →
    v.inRange = true → Value.sameType d v = true →
    window s.data r.readByteCount_ v.wireLayout.length = v.wireLayout →
    r.extract d =
      ⟨{ r with readByteCount_ := r.readByteCount_ + v.wireLayout.length }, v, none⟩
  | .bool x, d, r, s, h, _, hst, hwin => by
    cases d <;> simp only [Value.sameType, Bool.false_eq_true] at hst
    have hv := valid_of_isValid r s h
    have hw : window s.data r.readByteCount_ UIntType.u8.sizeof =
        leBytes UIntType.u8.sizeof (if x then 1 else 0) := by
      rw [show UIntType.u8.sizeof = (Value.bool x).wireLayout.length from rfl, hwin]
      cases x <;> rfl
    have hd := deserializeInteger_leBytes .u8 r s (if x then 1 else 0) 0 h
      (by cases x <;> decide) hw
    simp only [Archive.extract, Archive.extractBool, Archive.extractUnsigned, hv, if_true, hd]
    cases x <;> rfl
  | .unsigned T x, d, r, s, h, hr, hst, hwin => by
    cases d <;> simp only [Value.sameType, Bool.false_eq_true, decide_eq_true_eq] at hst
    subst hst
    have hv := valid_of_isValid r s h
    simp only [Value.inRange, decide_eq_true_eq] at hr
    simp only [Value.wireLayout, leBytes_length] at hwin ⊢
    have hd := fun y => deserializeInteger_leBytes _ r s x y h hr hwin
    simp only [Archive.extract, Archive.extractUnsigned, hv, if_true, hd]
  | .signed T x, d, r, s, h, hr, hst, hwin => by
    cases d <;> simp only [Value.sameType, Bool.false_eq_true, decide_eq_true_eq] at hst
    subst hst
    have hv := valid_of_isValid r s h
    simp only [Value.inRange, decide_eq_true_eq] at hr
    simp only [Value.wireLayout, leBytes_length] at hwin ⊢
    have hd := deserializeInteger_leBytes _ r s _ 0 h (SignedToUnsigned_lt _ x) hwin
    simp only [Archive.extract, Archive.extractSigned, hv, if_true, hd,
      UnsignedToSigned_SignedToUnsigned _ x hr.1 hr.2]
  | .array xs, d, r, s, h, hr, hst, hwin => by
    cases d with
    | array ds =>
      simp only [Value.sameType] at hst
      have hv := valid_of_isValid r s h
      simp only [Value.inRange] at hr
      simp only [Value.wireLayout] at hwin ⊢
      have hle := likeCharElements_of_sameTypes xs ds hst
      cases hl : Value.likeCharElements xs with
      | true =>
        have hall := ((likeCharElements_iff xs).1 hl).2
        have hlen := sameTypes_length xs ds hst
        rw [wireLayouts_of_all xs hall, List.length_map] at hwin ⊢
        have hn : 0 < xs.length := List.length_pos.2 ((likeCharElements_iff xs).1 hl).1
        have hfit := window_all _ _ _ _ hwin (by rw [List.length_map]) hn
        have e := deserializeBytes_spec r s (ds.map Value.rawByte) h
          (by rw [List.length_map, hlen]; exact hfit)
        rw [List.length_map, hlen, hwin] at e
        rw [hl] at hle
        simp only [Archive.extract, hv, if_true, hle, hlen, e,
          zipWith_ofRawByte xs ds hall hr hst]
      | false =>
        rw [hl] at hle
        simp only [Archive.extract, hv, if_true, hle, Bool.false_eq_true, if_false,
          extractEach_spec xs _ r s h hr hst hwin]
    | _ => simp only [Value.sameType, Bool.false_eq_true] at hst
  | .object xs, d, r, s, h, hr, hst, hwin => by
    cases d <;> simp only [Value.sameType, Bool.false_eq_true] at hst
    have hv := valid_of_isValid r s h
    simp only [Value.inRange] at hr
    simp only [Value.wireLayout] at hwin ⊢
    simp only [Archive.extract, hv, if_true, extractEach_spec xs _ r s h hr hst hwin]
  | .byteObject m, d, r, s, h, hr, hst, hwin => by
    cases d <;> simp only [Value.sameType, Bool.false_eq_true] at hst
    have hv := valid_of_isValid r s h
    simp only [Value.inRange] at hr
    simp only [Value.wireLayout] at hwin ⊢
    simp only [Archive.extract, hv, if_true, extract_spec m _ r s h hr hst hwin]
theorem extractEach_spec : ∀ (vs ds : List Value) (r : Archive) (s : Stream),
    r.stream_ = some s → Value.allInRange vs = true → Value.sameTypes ds vs = true →
    window s.data r.readByteCount_ (Value.wireLayouts vs).length = Value.wireLayouts vs →
    Archive.extractEach r ds =
      ⟨{ r with readByteCount_ := r.readByteCount_ + (Value.wireLayouts vs).length }, vs, none⟩
  | [], ds, r, s, h, _, hst, _ => by
    cases ds <;> simp only [Value.sameTypes, Bool.false_eq_true] at hst
    simp only [Archive.extractEach, Value.wireLayouts, List.length_nil, Nat.add_zero]
  | v :: vs, ds, r, s, h, hr, hst, hwin => by
    cases ds with
    | nil => simp only [Value.sameTypes, Bool.false_eq_true] at hst
    | cons d ds =>
      simp only [Value.sameTypes, Bool.and_eq_true] at hst
      simp only [Value.allInRange, Bool.and_eq_true] at hr
      simp only [Value.wireLayouts, List.length_append] at hwin ⊢
      obtain ⟨hw1, hw2⟩ := window_append _ _ _ _ hwin
      have e1 := extract_spec v d r s h hr.1 hst.1 hw1
      have e2 := extractEach_spec vs ds
        { r with readByteCount_ := r.readByteCount_ + v.wireLayout.length } s h hr.2 hst.2 hw2
      simp only [Archive.extractEach, e1, e2, Nat.add_assoc]
end

/-! ## The dispatch layer: enough bytes, too few bytes -/

/-- A fixed-width destination on a bound archive holding enough bytes: the
extraction returns normally and advances the read cursor by the width. -/
theorem extract_fixed_enough (d : Value) (r : Archive) (s : Stream)
    (hd : d.isFixedWidth = true) (h : r.stream_ = some s)
    (hlen : r.readByteCount_ + d.wireLayout.length ≤ s.data.length) :
    (r.extract d).signal = none ∧
    (r.extract d).archive =
      { r with readByteCount_ := r.readByteCount_ + d.wireLayout.length } := by
  have hv := valid_of_isValid r s h
  cases d with
  | bool x =>
    have e := deserializeInteger_spec .u8 r s 0 h hlen
    simp only [Archive.extract, Archive.extractBool, Archive.extractUnsigned, hv, if_true, e]
    exact ⟨trivial, rfl⟩
  | unsigned T x =>
    simp only [Value.wireLayout, leBytes_length] at hlen ⊢
    have e := deserializeInteger_spec T r s x h hlen
    simp only [Archive.extract, Archive.extractUnsigned, hv, if_true, e]
    exact ⟨trivial, trivial⟩
  | signed T x =>
    simp only [Value.wireLayout, leBytes_length] at hlen ⊢
    have e := deserializeInteger_spec T r s 0 h hlen
    simp only [Archive.extract, Archive.extractSigned, hv, if_true, e]
    exact ⟨trivial, trivial⟩
  | array xs => simp [Value.isFixedWidth] at hd
  | object xs => simp [Value.isFixedWidth] at hd
  | byteObject m => simp [Value.isFixedWidth] at hd

/-- A fixed-width destination on a bound archive holding too few bytes: the
extraction throws `EndOfStream`; archive and destination are untouched. -/
theorem extract_fixed_short (d : Value) (r : Archive) (s : Stream)
    (hd : d.isFixedWidth = true) (h : r.stream_ = some s)
    (hlen : s.data.length < r.readByteCount_ + d.wireLayout.length) :
    r.extract d = ⟨r, d, some .EndOfStream⟩ := by
  have hv := valid_of_isValid r s h
  cases d with
  | bool x =>
    have e := deserializeInteger_short .u8 r s 0 h hlen
    simp only [Archive.extract, Archive.extractBool, Archive.extractUnsigned, hv, if_true, e]
  | unsigned T x =>
    simp only [Value.wireLayout, leBytes_length] at hlen
    have e := deserializeInteger_short T r s x h hlen
    simp only [Archive.extract, Archive.extractUnsigned, hv, if_true, e]
  | signed T x =>
    simp only [Value.wireLayout, leBytes_length] at hlen
    have e := deserializeInteger_short T r s 0 h hlen
    simp only [Archive.extract, Archive.extractSigned, hv, if_true, e]
  | array xs => simp [Value.isFixedWidth] at hd
  | object xs => simp [Value.isFixedWidth] at hd
  | byteObject m => simp [Value.isFixedWidth] at hd

mutual
theorem extract_enough : ∀ (d : Value) (r : Archive) (s : Stream), r.stream_ = some s →
    d.wireLayout.length ≤ s.data.length - r.readByteCount_ →
    (r.extract d).signal = none ∧
    (r.extract d).archive =
      { r with readByteCount_ := r.readByteCount_ + d.wireLayout.length }
  | .bool x, r, s, h, hlen => by
    have hl : (Value.bool x).wireLayout.length = 1 := rfl
    exact extract_fixed_enough (.bool x) r s rfl h (by omega)
  | .unsigned T x, r, s, h, hlen => by
    have hl : (Value.unsigned T x).wireLayout.length = T.sizeof := by
      simp [Value.wireLayout, leBytes_length]
    have := T.sizeof_pos
    exact extract_fixed_enough (.unsigned T x) r s rfl h (by omega)
  | .signed T x, r, s, h, hlen => by
    have hl : (Value.signed T x).wireLayout.length = T.sizeof := by
      simp [Value.wireLayout, leBytes_length]
    have := T.sizeof_pos
    exact extract_fixed_enough (.signed T x) r s rfl h (by omega)
  | .array xs, r, s, h, hlen => by
    have hv := valid_of_isValid r s h
    simp only [Value.wireLayout] at hlen ⊢
    cases hl : Value.likeCharElements xs with
    | true =>
      have hall := ((likeCharElements_iff xs).1 hl).2
      have hn : 0 < xs.length := List.length_pos.2 ((likeCharElements_iff xs).1 hl).1
      rw [wireLayouts_of_all xs hall, List.length_map] at hlen ⊢
      have e := deserializeBytes_spec r s (xs.map Value.rawByte) h
        (by rw [List.length_map]; omega)
      rw [List.length_map] at e
      simp only [Archive.extract, hv, if_true, hl, e]
      exact ⟨trivial, trivial⟩
    | false =>
      simp only [Archive.extract, hv, if_true, hl, Bool.false_eq_true, if_false]
      exact extractEach_enough xs r s h hlen
  | .object xs, r, s, h, hlen => by
    have hv := valid_of_isValid r s h
    simp only [Value.wireLayout] at hlen ⊢
    simp only [Archive.extract, hv, if_true]
    exact extractEach_enough xs r s h hlen
  | .byteObject m, r, s, h, hlen => by
    have hv := valid_of_isValid r s h
    simp only [Value.wireLayout] at hlen ⊢
    simp only [Archive.extract, hv, if_true]
    exact extract_enough m r s h hlen
theorem extractEach_enough : ∀ (ds : List Value) (r : Archive) (s : Stream),
    r.stream_ = some s →
    (Value.wireLayouts ds).length ≤ s.data.length - r.readByteCount_ →
    (Archive.extractEach r ds).signal = none ∧
    (Archive.extractEach r ds).archive =
      { r with readByteCount_ := r.readByteCount_ + (Value.wireLayouts ds).length }
  | [], r, s, h, _ => by
    simp only [Archive.extractEach, Value.wireLayouts, List.length_nil, Nat.add_zero]
    exact ⟨trivial, trivial⟩
  | d :: ds, r, s, h, hlen => by
    simp only [Value.wireLayouts, List.length_append] at hlen ⊢
    obtain ⟨e1, e2⟩ := extract_enough d r s h (by omega)
    have h2 : (r.extract d).archive.stream_ = some s := by rw [e2]; exact h
    obtain ⟨e3, e4⟩ := extractEach_enough ds (r.extract d).archive s h2
      (by rw [e2]; simp only []; omega)
    simp only [Archive.extractEach, e1]
    refine ⟨e3, ?_⟩
    rw [e4, e2, Nat.add_assoc]
end

mutual
theorem extract_short : ∀ (d : Value) (r : Archive) (s : Stream), r.stream_ = some s →
    s.data.length - r.readByteCount_ < d.wireLayout.length →
    (r.extract d).signal = some .EndOfStream ∧
    ∃ n, (r.extract d).archive = { r with readByteCount_ := n } ∧
      r.readByteCount_ ≤ n ∧ n < r.readByteCount_ + d.wireLayout.length
  | .bool x, r, s, h, hlen => by
    have hl : (Value.bool x).wireLayout.length = 1 := rfl
    rw [extract_fixed_short (.bool x) r s rfl h (by omega)]
    exact ⟨rfl, r.readByteCount_, rfl, Nat.le_refl _, by omega⟩
  | .unsigned T x, r, s, h, hlen => by
    have hl : (Value.unsigned T x).wireLayout.length = T.sizeof := by
      simp [Value.wireLayout, leBytes_length]
    have := T.sizeof_pos
    rw [extract_fixed_short (.unsigned T x) r s rfl h (by omega)]
    exact ⟨rfl, r.readByteCount_, rfl, Nat.le_refl _, by omega⟩
  | .signed T x, r, s, h, hlen => by
    have hl : (Value.signed T x).wireLayout.length = T.sizeof := by
      simp [Value.wireLayout, leBytes_length]
    have := T.sizeof_pos
    rw [extract_fixed_short (.signed T x) r s rfl h (by omega)]
    exact ⟨rfl, r.readByteCount_, rfl, Nat.le_refl _, by omega⟩
  | .array xs, r, s, h, hlen => by
    have hv := valid_of_isValid r s h
    simp only [Value.wireLayout] at hlen ⊢
    cases hl : Value.likeCharElements xs with
    | true =>
      have hall := ((likeCharElements_iff xs).1 hl).2
      rw [wireLayouts_of_all xs hall, List.length_map] at hlen ⊢
      have e := deserializeBytes_short r s (xs.map Value.rawByte) xs.length h (by omega)
      simp only [Archive.extract, hv, if_true, hl, e]
      exact ⟨trivial, r.readByteCount_, rfl, Nat.le_refl _, by omega⟩
    | false =>
      simp only [Archive.extract, hv, if_true, hl, Bool.false_eq_true, if_false]
      exact extractEach_short xs r s h hlen
  | .object xs, r, s, h, hlen => by
    have hv := valid_of_isValid r s h
    simp only [Value.wireLayout] at hlen ⊢
    simp only [Archive.extract, hv, if_true]
    exact extractEach_short xs r s h hlen
  | .byteObject m, r, s, h, hlen => by
    have hv := valid_of_isValid r s h
    simp only [Value.wireLayout] at hlen ⊢
    simp only [Archive.extract, hv, if_true]
    exact extract_short m r s h hlen
theorem extractEach_short : ∀ (ds : List Value) (r : Archive) (s : Stream),
    r.stream_ = some s →
    s.data.length - r.readByteCount_ < (Value.wireLayouts ds).length →
    (Archive.extractEach r ds).signal = some .EndOfStream ∧
    ∃ n, (Archive.extractEach r ds).archive = { r with readByteCount_ := n } ∧
      r.readByteCount_ ≤ n ∧ n < r.readByteCount_ + (Value.wireLayouts ds).length
  | [], r, s, h, hlen => by
    simp only [Value.wireLayouts, List.length_nil] at hlen
    omega
  | d :: ds, r, s, h, hlen => by
    simp only [Value.wireLayouts, List.length_append] at hlen ⊢
    by_cases hd : s.data.length - r.readByteCount_ < d.wireLayout.length
    · obtain ⟨e1, n, e2, h1, h2⟩ := extract_short d r s h hd
      simp only [Archive.extractEach, e1]
      exact ⟨trivial, n, e2, h1, by omega⟩
    · obtain ⟨e1, e2⟩ := extract_enough d r s h (by omega)
      have h2 : (r.extract d).archive.stream_ = some s := by rw [e2]; exact h
      obtain ⟨e3, n, e4, h3, h4⟩ := extractEach_short ds (r.extract d).archive s h2
        (by rw [e2]; simp only []; omega)
      simp only [Archive.extractEach, e1]
      refine ⟨e3, n, ?_, ?_, ?_⟩
      · rw [e4, e2]
      · rw [e2] at h3; simp only [] at h3; omega
      · rw [e2] at h4; simp only [] at h4; omega
end

/-! ## Encodings as the code produces them -/

theorem encodingOf_eq (v : Value) : encodingOf v = v.wireLayout := by
  obtain ⟨b, hb, hw⟩ := insert_spec v Archive.fresh ⟨[], []⟩ rfl
  simp only [encodingOf, bytesWritten, hb, Archive.buffer, Nat.add_sub_cancel_left]
  exact hw.window

theorem flatten_encodingOf (vs : List Value) :
    (vs.map encodingOf).flatten = Value.wireLayouts vs := by
  induction vs with
  | nil => rfl
  | cons v vs ih => simp only [List.map_cons, List.flatten_cons, ih, encodingOf_eq,
      Value.wireLayouts]

theorem sum_encodingOf (vs : List Value) :
    (vs.map (fun m => (encodingOf m).length)).sum = (Value.wireLayouts vs).length := by
  induction vs with
  | nil => rfl
  | cons v vs ih =>
    rw [List.map_cons, List.sum_cons, ih, encodingOf_eq]
    simp only [Value.wireLayouts, List.length_append]

theorem bytesWritten_insert (v : Value) (a : Archive) (ha : a.isValid = true) :
    (a.insert v).signal = none ∧
    (a.insert v).archive.writtenByteCount_ = a.writtenByteCount_ + v.wireLayout.length ∧
    bytesWritten a (a.insert v) = v.wireLayout := by
  obtain ⟨s, hs⟩ := (isValid_iff a).1 ha
  obtain ⟨b, hb, hw⟩ := insert_spec v a s hs
  rw [hb]
  refine ⟨rfl, rfl, ?_⟩
  simp only [bytesWritten, Archive.buffer, Nat.add_sub_cancel_left]
  exact hw.window

theorem bytesWritten_insertEach (vs : List Value) (a : Archive) (ha : a.isValid = true) :
    (Archive.insertEach a vs).signal = none ∧
    (Archive.insertEach a vs).archive.writtenByteCount_ =
      a.writtenByteCount_ + (Value.wireLayouts vs).length ∧
    bytesWritten a (Archive.insertEach a vs) = Value.wireLayouts vs := by
  obtain ⟨s, hs⟩ := (isValid_iff a).1 ha
  obtain ⟨b, hb, hw⟩ := insertEach_spec vs a s hs
  rw [hb]
  refine ⟨rfl, rfl, ?_⟩
  simp only [bytesWritten, Archive.buffer, Nat.add_sub_cancel_left]
  exact hw.window

theorem extractSigned_leBytes (T : UIntType) (r : Archive) (v d : Int)
    (hlo : -(2 : Int) ^ (T.digits - 1) ≤ v) (hhi : v ≤ (2 : Int) ^ (T.digits - 1) - 1)
    (hwin : window r.data r.readByteCount_ T.sizeof =
      leBytes T.sizeof (SignedToUnsigned T.digits v)) :
    r.extractSigned T d =
      ⟨{ r with readByteCount_ := r.readByteCount_ + T.sizeof }, v, none⟩ := by
  have hlen := window_all _ _ _ _ hwin (leBytes_length _ _) T.sizeof_pos
  cases hr : r.stream_ with
  | none =>
    have hpos := T.sizeof_pos
    simp [Archive.data, hr] at hlen
    omega
  | some sr =>
    rw [data_eq r sr hr] at hwin
    have hd := deserializeInteger_leBytes T r sr _ 0 hr (SignedToUnsigned_lt T v) hwin
    have h1 : -((2 ^ (T.digits - 1) : Nat) : Int) ≤ v := by
      push_cast
      exact hlo
    have h2 : v < ((2 ^ (T.digits - 1) : Nat) : Int) := by
      push_cast
      omega
    simp only [Archive.extractSigned, valid_of_isValid r sr hr, if_true, hd,
      UnsignedToSigned_SignedToUnsigned T v h1 h2, hr]

/-! ## Byte blobs and strings -/

theorem varintBytes_two : varintBytes 2 = [2] := by
  rw [varintBytes]
  rfl

theorem varintBytes_zero : varintBytes 0 = [0] := by
  rw [varintBytes]
  rfl

/-- What `operator<<(const std::string &)` leaves in the stream. -/
theorem insertString_spec (a : Archive) (s : Stream) (str : List Byte)
    (h : a.stream_ = some s) :
    ∃ b, (a.insertString str).archive =
        ⟨some ⟨s.data, b⟩,
          a.writtenByteCount_ + ((varintBytes str.length).length + str.length),
          a.readByteCount_⟩ ∧
      WritesAt s.buffer b a.writtenByteCount_ (varintBytes str.length ++ str) ∧
      (a.insertString str).signal =
        if str = [] then some .UndefinedBehaviour else none := by
  have hv := valid_of_isValid a s h
  obtain ⟨b1, e1, w1⟩ := serializeBytes_spec a s (varintBytes str.length) h
  cases str with
  | nil =>
    refine ⟨b1, ?_, ?_, ?_⟩
    · simp only [Archive.insertString, hv, if_true, Archive.serializeVariableLengthInteger,
        e1, front]
      rfl
    · simpa using w1
    · simp only [Archive.insertString, hv, if_true, Archive.serializeVariableLengthInteger,
        e1, front]
  | cons c cs =>
    obtain ⟨b2, e2, w2⟩ := serializeBytes_spec
      ⟨some ⟨s.data, b1⟩, a.writtenByteCount_ + (varintBytes (c :: cs).length).length,
        a.readByteCount_⟩ ⟨s.data, b1⟩ (c :: cs) rfl
    refine ⟨b2, ?_, WritesAt.append w1 w2, ?_⟩
    · simp only [Archive.insertString, hv, if_true, Archive.serializeVariableLengthInteger,
        e1, front, e2, Nat.add_assoc]
    · simp only [Archive.insertString, hv, if_true, Archive.serializeVariableLengthInteger,
        e1, front, e2]
      simp

theorem insertByteVector_eq (a : Archive) (v : List Byte) :
    a.insertByteVector v = a.insertString v := rfl

theorem extractByteVector_eq (a : Archive) (v : List Byte) :
    a.extractByteVector v = a.extractString v := rfl

/-! ## Frames of the extraction operators -/

theorem isValid_false_iff (a : Archive) : a.isValid = false ↔ a.stream_ = none := by
  cases a with
  | mk st w r =>
    cases st with
    | none => simp [Archive.isValid]
    | some s => simp [Archive.isValid]

/-- The frame of `deserializeInteger` on any archive: only the read cursor can
change, it does not decrease, and it stays within the available bytes. -/
theorem deserializeInteger_frame (T : UIntType) (a : Archive) (d : Nat) :
    ∃ n, (a.deserializeInteger T d).archive = { a with readByteCount_ := n } ∧
      a.readByteCount_ ≤ n ∧ (a.readByteCount_ ≤ a.data.length → n ≤ a.data.length) := by
  obtain ⟨st, w, r⟩ := a
  cases st with
  | none => exact ⟨r, rfl, Nat.le_refl _, fun h => h⟩
  | some s =>
    by_cases h : s.data.length < r + T.sizeof
    · refine ⟨r, ?_, Nat.le_refl _, fun h => h⟩
      rw [deserializeInteger_short T _ s d rfl h]
    · refine ⟨r + T.sizeof, ?_, Nat.le_add_right _ _, fun _ => ?_⟩
      · rw [deserializeInteger_spec T _ s d rfl (by simpa using h)]
      · simp only [Archive.data]
        simp only [] at h
        omega

theorem extract_fixed_frame (d : Value) (a : Archive) (hd : d.isFixedWidth = true) :
    ∃ n, (a.extract d).archive = { a with readByteCount_ := n } ∧
      a.readByteCount_ ≤ n ∧ (a.readByteCount_ ≤ a.data.length → n ≤ a.data.length) := by
  cases hv : a.isValid with
  | false =>
    refine ⟨a.readByteCount_, ?_, Nat.le_refl _, fun h => h⟩
    cases d <;>
      simp [Archive.extract, Archive.extractBool, Archive.extractUnsigned,
        Archive.extractSigned, hv, Value.isFixedWidth] at hd ⊢
  | true =>
    cases d with
    | bool x =>
      obtain ⟨n, e, h1, h2⟩ := deserializeInteger_frame .u8 a 0
      refine ⟨n, ?_, h1, h2⟩
      simp only [Archive.extract, Archive.extractBool, Archive.extractUnsigned, hv, if_true]
      split <;> exact e
    | unsigned T x =>
      obtain ⟨n, e, h1, h2⟩ := deserializeInteger_frame T a x
      refine ⟨n, ?_, h1, h2⟩
      simp only [Archive.extract, Archive.extractUnsigned, hv, if_true]
      exact e
    | signed T x =>
      obtain ⟨n, e, h1, h2⟩ := deserializeInteger_frame T a 0
      refine ⟨n, ?_, h1, h2⟩
      simp only [Archive.extract, Archive.extractSigned, hv, if_true]
      split <;> exact e
    | array xs => simp [Value.isFixedWidth] at hd
    | object xs => simp [Value.isFixedWidth] at hd
    | byteObject m => simp [Value.isFixedWidth] at hd

theorem data_with_read (a : Archive) (n : Nat) :
    ({ a with readByteCount_ := n } : Archive).data = a.data := rfl

theorem deserializeBytes_frame (a : Archive) (bytes : List Byte) (size : Nat) :
    ∃ n, (a.deserializeBytes bytes size).archive = { a with readByteCount_ := n } ∧
      a.readByteCount_ ≤ n ∧ (a.readByteCount_ ≤ a.data.length → n ≤ a.data.length) := by
  obtain ⟨st, w, r⟩ := a
  cases st with
  | none => exact ⟨r, rfl, Nat.le_refl _, fun h => h⟩
  | some s =>
    simp only [Archive.deserializeBytes, Stream.getDataSize]
    split
    · exact ⟨r, rfl, Nat.le_refl _, fun h => h⟩
    · split
      · exact ⟨r, rfl, Nat.le_refl _, fun h => h⟩
      · refine ⟨r + size, rfl, Nat.le_add_right _ _, fun _ => ?_⟩
        simp only [Archive.data]
        omega

mutual
theorem extract_frame : ∀ (d : Value) (a : Archive),
    ∃ n, (a.extract d).archive = { a with readByteCount_ := n } ∧
      a.readByteCount_ ≤ n ∧ (a.readByteCount_ ≤ a.data.length → n ≤ a.data.length)
  | .bool x, a => extract_fixed_frame (.bool x) a rfl
  | .unsigned T x, a => extract_fixed_frame (.unsigned T x) a rfl
  | .signed T x, a => extract_fixed_frame (.signed T x) a rfl
  | .array xs, a => by
    cases hv : a.isValid with
    | false =>
      refine ⟨a.readByteCount_, ?_, Nat.le_refl _, fun h => h⟩
      simp [Archive.extract, hv]
    | true =>
      cases hl : Value.likeCharElements xs with
      | true =>
        obtain ⟨n, e, h1, h2⟩ := deserializeBytes_frame a (xs.map Value.rawByte) xs.length
        refine ⟨n, ?_, h1, h2⟩
        simp only [Archive.extract, hv, if_true, hl]
        split <;> exact e
      | false =>
        obtain ⟨n, e, h1, h2⟩ := extractEach_frame xs a
        refine ⟨n, ?_, h1, h2⟩
        simp only [Archive.extract, hv, if_true, hl, Bool.false_eq_true, if_false]
        exact e
  | .byteObject m, a => by
    cases hv : a.isValid with
    | false =>
      refine ⟨a.readByteCount_, ?_, Nat.le_refl _, fun h => h⟩
      simp [Archive.extract, hv]
    | true =>
      obtain ⟨n, e, h1, h2⟩ := extract_frame m a
      refine ⟨n, ?_, h1, h2⟩
      simp only [Archive.extract, hv, if_true]
      exact e
  | .object xs, a => by
    cases hv : a.isValid with
    | false =>
      refine ⟨a.readByteCount_, ?_, Nat.le_refl _, fun h => h⟩
      simp [Archive.extract, hv]
    | true =>
      obtain ⟨n, e, h1, h2⟩ := extractEach_frame xs a
      refine ⟨n, ?_, h1, h2⟩
      simp only [Archive.extract, hv, if_true]
      exact e
theorem extractEach_frame : ∀ (ds : List Value) (a : Archive),
    ∃ n, (Archive.extractEach a ds).archive = { a with readByteCount_ := n } ∧
      a.readByteCount_ ≤ n ∧ (a.readByteCount_ ≤ a.data.length → n ≤ a.data.length)
  | [], a => ⟨a.readByteCount_, rfl, Nat.le_refl _, fun h => h⟩
  | d :: ds, a => by
    obtain ⟨n, e, h1, h2⟩ := extract_frame d a
    cases hsig : (a.extract d).signal with
    | some sg =>
      refine ⟨n, ?_, h1, h2⟩
      simp only [Archive.extractEach, hsig]
      exact e
    | none =>
      obtain ⟨m, e', h3, h4⟩ := extractEach_frame ds (a.extract d).archive
      refine ⟨m, ?_, ?_, ?_⟩
      · simp only [Archive.extractEach, hsig]
        rw [e', e]
      · rw [e] at h3
        exact Nat.le_trans h1 h3
      · intro h
        rw [e] at h4
        exact h4 (h2 h)
end

/-! ## The variable-length encoding of a length -/

theorem varintBytes_small (n : Nat) (h : n < 128) : varintBytes n = [toByte n] := by
  rw [varintBytes, if_pos h]

theorem varintBytes_large (n : Nat) (h : ¬ n < 128) :
    varintBytes n = toByte (n % 128 + 128) :: varintBytes (n / 128) := by
  rw [varintBytes, if_neg h]

theorem varintBytes_length_pos (n : Nat) : 1 ≤ (varintBytes n).length := by
  by_cases h : n < 128
  · rw [varintBytes_small n h]
    simp
  · rw [varintBytes_large n h]
    simp

/-- The number of bytes is the number of 7-bit groups needed for `n`. -/
theorem varintBytes_length_spec (n : Nat) :
    n < 128 ^ (varintBytes n).length ∧
    ((varintBytes n).length = 1 ∨ 128 ^ ((varintBytes n).length - 1) ≤ n) := by
  induction n using Nat.strong_induction_on with
  | _ n ih =>
    by_cases h : n < 128
    · rw [varintBytes_small n h]
      simp only [List.length_singleton, pow_one]
      exact ⟨h, Or.inl trivial⟩
    · rw [varintBytes_large n h]
      obtain ⟨h1, h2⟩ := ih (n / 128) (by omega)
      have hpos := varintBytes_length_pos (n / 128)
      simp only [List.length_cons, Nat.add_sub_cancel]
      constructor
      · rw [pow_succ]
        have := Nat.div_add_mod n 128
        have hm := Nat.mod_lt n (show 0 < 128 by decide)
        omega
      · right
        rcases h2 with h2 | h2
        · rw [h2, pow_one]
          omega
        · obtain ⟨k, hk⟩ : ∃ k, (varintBytes (n / 128)).length = k + 1 := ⟨_, (Nat.sub_add_cancel hpos).symm⟩
          rw [hk] at h2 ⊢
          simp only [Nat.add_sub_cancel] at h2
          rw [pow_succ]
          have := Nat.div_add_mod n 128
          omega

/-- Byte `i` carries the 7-bit group `i` of `n`, with the high bit set exactly
when another byte follows. -/
theorem varintBytes_getElem? (n : Nat) : ∀ i, i < (varintBytes n).length →
    ((varintBytes n)[i]?).map Fin.val =
      some ((n / 128 ^ i) % 128 + if i + 1 < (varintBytes n).length then 128 else 0) := by
  induction n using Nat.strong_induction_on with
  | _ n ih =>
    intro i hi
    by_cases h : n < 128
    · rw [varintBytes_small n h] at hi ⊢
      simp only [List.length_singleton, Nat.lt_one_iff] at hi
      subst hi
      simp [toByte_val]
      omega
    · rw [varintBytes_large n h] at hi ⊢
      have hpos := varintBytes_length_pos (n / 128)
      cases i with
      | zero =>
        simp only [List.getElem?_cons_zero, Option.map_some', toByte_val, pow_zero,
          Nat.div_one, List.length_cons, Nat.zero_add]
        rw [if_pos (by omega)]
        have : (n % 128 + 128) % 256 = n % 128 + 128 := by omega
        rw [this]
      | succ i =>
        simp only [List.length_cons, Nat.add_lt_add_iff_right] at hi
        simp only [List.getElem?_cons_succ, List.length_cons, Nat.add_lt_add_iff_right]
        rw [ih (n / 128) (by omega) i hi, Nat.div_div_eq_div_mul, pow_succ, Nat.mul_comm]

/-- Reading back the encoding of `n`, whatever follows it. -/
theorem varintRead_varintBytes (n : Nat) (rest : List Byte) :
    varintRead (varintBytes n ++ rest) = some (n, (varintBytes n).length) := by
  induction n using Nat.strong_induction_on with
  | _ n ih =>
    by_cases h : n < 128
    · rw [varintBytes_small n h]
      have hv : (toByte n).val = n := by
        rw [toByte_val]
        omega
      simp [varintRead, hv, h]
    · rw [varintBytes_large n h]
      have hv : (toByte (n % 128 + 128)).val = n % 128 + 128 := by
        rw [toByte_val]
        omega
      have ih' := ih (n / 128) (by omega)
      simp only [List.cons_append, varintRead, hv, List.length_cons]
      rw [if_neg (by omega)]
      simp only [List.append_eq] at ih' ⊢
      rw [ih']
      simp only [Option.some.injEq, Prod.mk.injEq, and_true]
      omega

theorem varintRead_le : ∀ (bytes : List Byte) (v k : Nat),
    varintRead bytes = some (v, k) → k ≤ bytes.length
  | [], v, k, h => by simp [varintRead] at h
  | b :: bs, v, k, h => by
    simp only [varintRead] at h
    split at h
    · simp only [Option.some.injEq, Prod.mk.injEq] at h
      simp only [List.length_cons]
      omega
    · cases hr : varintRead bs with
      | none => simp [hr] at h
      | some p =>
        obtain ⟨v', k'⟩ := p
        simp only [hr, Option.some.injEq, Prod.mk.injEq] at h
        have := varintRead_le bs v' k' hr
        simp only [List.length_cons]
        omega

theorem drop_of_window (region bytes : List Byte) (start len : Nat)
    (h : window region start len = bytes) :
    region.drop start = bytes ++ region.drop (start + len) := by
  rw [← h, window, ← List.drop_drop, List.take_append_drop]

theorem deserializeVariableLengthInteger_spec (a : Archive) (s : Stream) (n d : Nat)
    (rest : List Byte) (h : a.stream_ = some s)
    (hdata : s.data.drop a.readByteCount_ = varintBytes n ++ rest) :
    a.deserializeVariableLengthInteger d =
      ⟨{ a with readByteCount_ := a.readByteCount_ + (varintBytes n).length }, n, none⟩ := by
  simp only [Archive.deserializeVariableLengthInteger, h, hdata, varintRead_varintBytes]

/-! ## Calls on a session that is not bound, and frames of the insertions -/

theorem insert_invalid (v : Value) (a : Archive) (h : a.isValid = false) :
    a.insert v = ⟨a, (), some .AssertionFailure⟩ := by
  cases v <;>
    simp [Archive.insert, Archive.insertBool, Archive.insertUnsigned, Archive.insertSigned, h]

theorem extract_invalid (d : Value) (a : Archive) (h : a.isValid = false) :
    a.extract d = ⟨a, d, some .AssertionFailure⟩ := by
  cases d <;>
    simp [Archive.extract, Archive.extractBool, Archive.extractUnsigned,
      Archive.extractSigned, h]

theorem buffer_eq (a : Archive) (s : Stream) (h : a.stream_ = some s) :
    a.buffer = s.buffer := by
  simp [Archive.buffer, h]

/-- The frame of an insertion on any archive: the read cursor and the readable
area are kept, the write cursor does not decrease, and no byte that existed
outside the window of the encoding is changed. -/
theorem insert_frame (v : Value) (a : Archive) :
    (a.insert v).archive.readByteCount_ = a.readByteCount_ ∧
    (a.insert v).archive.data = a.data ∧
    a.writtenByteCount_ ≤ (a.insert v).archive.writtenByteCount_ ∧
    (∀ j, (j < a.writtenByteCount_ ∨ a.writtenByteCount_ + v.wireLayout.length ≤ j) →
      j < a.buffer.length → (a.insert v).archive.buffer[j]? = a.buffer[j]?) := by
  cases hv : a.isValid with
  | false =>
    rw [insert_invalid v a hv]
    exact ⟨rfl, rfl, Nat.le_refl _, fun _ _ _ => rfl⟩
  | true =>
    obtain ⟨s, hs⟩ := (isValid_iff a).1 hv
    obtain ⟨b, hb, hw⟩ := insert_spec v a s hs
    rw [hb, data_eq a s hs, buffer_eq a s hs]
    exact ⟨rfl, rfl, Nat.le_add_right _ _, fun j hj hl => hw.2.1 j hj hl⟩

theorem serializeInteger_frame (T : UIntType) (a : Archive) (x : Nat) :
    (a.serializeInteger T x).archive.readByteCount_ = a.readByteCount_ ∧
    (a.serializeInteger T x).archive.data = a.data ∧
    a.writtenByteCount_ ≤ (a.serializeInteger T x).archive.writtenByteCount_ ∧
    (∀ j, (j < a.writtenByteCount_ ∨ a.writtenByteCount_ + T.sizeof ≤ j) →
      j < a.buffer.length → (a.serializeInteger T x).archive.buffer[j]? = a.buffer[j]?) := by
  cases hs : a.stream_ with
  | none =>
    have : a.serializeInteger T x = ⟨a, (), some .UndefinedBehaviour⟩ := by
      simp [Archive.serializeInteger, hs]
    rw [this]
    exact ⟨rfl, rfl, Nat.le_refl _, fun _ _ _ => rfl⟩
  | some s =>
    obtain ⟨b, hb, hw⟩ := serializeInteger_spec T a s x hs
    rw [hb, data_eq a s hs, buffer_eq a s hs]
    refine ⟨rfl, rfl, Nat.le_add_right _ _, fun j hj hl => hw.2.1 j ?_ hl⟩
    rw [leBytes_length]
    exact hj

/-! ## Vectors and the cursor invariant -/

theorem insertVector_spec (a : Archive) (s : Stream) (xs : List Value)
    (h : a.stream_ = some s) :
    ∃ b, a.insertVector xs =
        ⟨⟨some ⟨s.data, b⟩, a.writtenByteCount_ +
          ((varintBytes xs.length).length + (Value.wireLayouts xs).length),
          a.readByteCount_⟩, (), none⟩ ∧
      WritesAt s.buffer b a.writtenByteCount_ (varintBytes xs.length ++ Value.wireLayouts xs) := by
  have hv := valid_of_isValid a s h
  obtain ⟨b1, e1, w1⟩ := serializeBytes_spec a s (varintBytes xs.length) h
  obtain ⟨b2, e2, w2⟩ := insertEach_spec xs
    ⟨some ⟨s.data, b1⟩, a.writtenByteCount_ + (varintBytes xs.length).length,
      a.readByteCount_⟩ ⟨s.data, b1⟩ rfl
  refine ⟨b2, ?_, WritesAt.append w1 w2⟩
  simp only [Archive.insertVector, hv, if_true, Archive.serializeVariableLengthInteger, e1,
    e2, Nat.add_assoc]

theorem sameTypes_of_forall : ∀ (ds xs : List Value), ds.length = xs.length →
    (∀ d ∈ ds, ∀ x ∈ xs, Value.sameType d x = true) → Value.sameTypes ds xs = true
  | [], [], _, _ => rfl
  | [], _ :: _, h, _ => by simp at h
  | _ :: _, [], h, _ => by simp at h
  | d :: ds, x :: xs, h, hall => by
    simp only [Value.sameTypes, Bool.and_eq_true]
    refine ⟨hall d (List.mem_cons_self _ _) x (List.mem_cons_self _ _), ?_⟩
    apply sameTypes_of_forall ds xs (by simpa using h)
    intro d' hd' x' hx'
    exact hall d' (List.mem_cons_of_mem _ hd') x' (List.mem_cons_of_mem _ hx')

theorem resizeWith_length (vector : List Value) (n : Nat) (init : Value) :
    (resizeWith vector n init).length = n := by
  simp only [resizeWith, List.length_append, List.length_take, List.length_replicate]
  omega

theorem mem_resizeWith (vector : List Value) (n : Nat) (init d : Value)
    (h : d ∈ resizeWith vector n init) : d ∈ vector ∨ d = init := by
  simp only [resizeWith, List.mem_append, List.mem_replicate] at h
  rcases h with h | h
  · exact Or.inl (List.mem_of_mem_take h)
  · exact Or.inr h.2

theorem CursorInvariant.unchanged (a : Archive) : CursorInvariant a a :=
  ⟨Nat.le_refl _, Nat.le_refl _, fun h _ => h⟩

theorem CursorInvariant.of_read {a b : Archive} {n : Nat}
    (e : b = { a with readByteCount_ := n }) (h1 : a.readByteCount_ ≤ n)
    (h2 : a.readByteCount_ ≤ a.data.length → n ≤ a.data.length) : CursorInvariant a b := by
  subst e
  exact ⟨Nat.le_refl _, h1, fun h _ => h2 h⟩

theorem deserializeVariableLengthInteger_frame (a : Archive) (d : Nat) :
    ∃ n, (a.deserializeVariableLengthInteger d).archive = { a with readByteCount_ := n } ∧
      a.readByteCount_ ≤ n ∧ (a.readByteCount_ ≤ a.data.length → n ≤ a.data.length) := by
  obtain ⟨st, w, r⟩ := a
  cases st with
  | none => exact ⟨r, rfl, Nat.le_refl _, fun h => h⟩
  | some s =>
    cases hr : varintRead (s.data.drop r) with
    | none =>
      refine ⟨r, ?_, Nat.le_refl _, fun h => h⟩
      simp only [Archive.deserializeVariableLengthInteger, hr]
    | some p =>
      obtain ⟨v, k⟩ := p
      refine ⟨r + k, ?_, Nat.le_add_right _ _, fun h => ?_⟩
      · simp only [Archive.deserializeVariableLengthInteger, hr]
      · have := varintRead_le _ _ _ hr
        simp only [List.length_drop] at this
        simp only [Archive.data] at h ⊢
        omega

theorem extractString_frame (a : Archive) (str : List Byte) :
    ∃ n, (a.extractString str).archive = { a with readByteCount_ := n } ∧
      a.readByteCount_ ≤ n ∧ (a.readByteCount_ ≤ a.data.length → n ≤ a.data.length) := by
  cases hv : a.isValid with
  | false =>
    refine ⟨a.readByteCount_, ?_, Nat.le_refl _, fun h => h⟩
    simp [Archive.extractString, hv]
  | true =>
    obtain ⟨n, e, h1, h2⟩ := deserializeVariableLengthInteger_frame a 0
    simp only [Archive.extractString, hv, if_true]
    split
    · exact ⟨n, e, h1, h2⟩
    · split
      · exact ⟨n, e, h1, h2⟩
      · rename_i p _
        obtain ⟨m, e', h3, h4⟩ := deserializeBytes_frame
          (a.deserializeVariableLengthInteger 0).archive p
          (resize str (a.deserializeVariableLengthInteger 0).dest).length
        refine ⟨m, by rw [e', e], ?_, ?_⟩
        · rw [e] at h3
          exact Nat.le_trans h1 h3
        · intro h
          rw [e] at h4
          exact h4 (h2 h)

theorem extractVector_frame (a : Archive) (init : Value) (ds : List Value) :
    ∃ n, (a.extractVector init ds).archive = { a with readByteCount_ := n } ∧
      a.readByteCount_ ≤ n ∧ (a.readByteCount_ ≤ a.data.length → n ≤ a.data.length) := by
  cases hv : a.isValid with
  | false =>
    refine ⟨a.readByteCount_, ?_, Nat.le_refl _, fun h => h⟩
    simp [Archive.extractVector, hv]
  | true =>
    obtain ⟨n, e, h1, h2⟩ := deserializeVariableLengthInteger_frame a 0
    simp only [Archive.extractVector, hv, if_true]
    split
    · exact ⟨n, e, h1, h2⟩
    · obtain ⟨m, e', h3, h4⟩ := extractEach_frame
        (resizeWith ds (a.deserializeVariableLengthInteger 0).dest init)
        (a.deserializeVariableLengthInteger 0).archive
      refine ⟨m, by rw [e', e], ?_, ?_⟩
      · rw [e] at h3
        exact Nat.le_trans h1 h3
      · intro h
        rw [e] at h4
        exact h4 (h2 h)

theorem CursorInvariant.of_write {a b : Archive} (h1 : b.readByteCount_ = a.readByteCount_)
    (h2 : b.data = a.data) (h3 : a.writtenByteCount_ ≤ b.writtenByteCount_) :
    CursorInvariant a b :=
  ⟨h3, by rw [h1], fun h _ => by rw [h1, h2]; exact h⟩

theorem insertString_frame (a : Archive) (str : List Byte) :
    CursorInvariant a (a.insertString str).archive := by
  cases hv : a.isValid with
  | false =>
    have : a.insertString str = ⟨a, (), some .AssertionFailure⟩ := by
      simp [Archive.insertString, hv]
    rw [this]
    exact CursorInvariant.unchanged a
  | true =>
    obtain ⟨s, hs⟩ := (isValid_iff a).1 hv
    obtain ⟨b, e, _, _⟩ := insertString_spec a s str hs
    rw [e]
    exact CursorInvariant.of_write rfl (by simp [Archive.data, hs]) (Nat.le_add_right _ _)

theorem insertVector_frame (a : Archive) (xs : List Value) :
    CursorInvariant a (a.insertVector xs).archive := by
  cases hv : a.isValid with
  | false =>
    have : a.insertVector xs = ⟨a, (), some .AssertionFailure⟩ := by
      simp [Archive.insertVector, hv]
    rw [this]
    exact CursorInvariant.unchanged a
  | true =>
    obtain ⟨s, hs⟩ := (isValid_iff a).1 hv
    obtain ⟨b, e, _⟩ := insertVector_spec a s xs hs
    rw [e]
    exact CursorInvariant.of_write rfl (by simp [Archive.data, hs]) (Nat.le_add_right _ _)

/-! ## The intrusive list: stores, segments, traversals -/

theorem setPrev_prev (m : Memory) (p v q : Nat) :
    ((setPrev m p v) q).prev_ = if q = p then v else (m q).prev_ := by
  unfold setPrev
  split <;> rfl

theorem setPrev_next (m : Memory) (p v q : Nat) :
    ((setPrev m p v) q).next_ = (m q).next_ := by
  unfold setPrev
  split <;> rfl

theorem setNext_next (m : Memory) (p v q : Nat) :
    ((setNext m p v) q).next_ = if q = p then v else (m q).next_ := by
  unfold setNext
  split <;> rfl

theorem setNext_prev (m : Memory) (p v q : Nat) :
    ((setNext m p v) q).prev_ = (m q).prev_ := by
  unfold setNext
  split <;> rfl

/-- The `next_` links after `insert`. -/
theorem insert_next (m : Memory) (x p q a : Nat) :
    ((ListNode.insert m x p q) a).next_ =
      if a = x then q else if a = p then x else (m a).next_ := by
  simp only [ListNode.insert, setPrev_next, setNext_next, setPrev_prev, if_true]

/-- The `prev_` links after `insert`. -/
theorem insert_prev (m : Memory) (x p q a : Nat) :
    ((ListNode.insert m x p q) a).prev_ =
      if a = q then x else if a = x then p else (m a).prev_ := by
  simp only [ListNode.insert, setPrev_next, setNext_next, setPrev_prev, setNext_prev, if_true]

/-- The `next_` links after `remove`. -/
theorem remove_next (m : Memory) (y a : Nat) :
    ((ListNode.remove m y) a).next_ =
      if a = (m y).prev_ then (m y).next_ else (m a).next_ := by
  simp only [ListNode.remove, setPrev_next, setNext_next]

/-- The `prev_` links after `remove` of a node that is not its own predecessor. -/
theorem remove_prev (m : Memory) (y a : Nat) (h : (m y).prev_ ≠ y) :
    ((ListNode.remove m y) a).prev_ =
      if a = (m y).next_ then (m y).prev_ else (m a).prev_ := by
  simp only [ListNode.remove, setPrev_prev, setNext_next, setNext_prev, if_neg h.symm]

theorem initializeNil_next (m : Memory) (nil a : Nat) :
    ((NodeList.initializeNil m nil) a).next_ = if a = nil then nil else (m a).next_ := by
  simp only [NodeList.initializeNil, setNext_next, setPrev_next]

theorem initializeNil_prev (m : Memory) (nil a : Nat) :
    ((NodeList.initializeNil m nil) a).prev_ = if a = nil then nil else (m a).prev_ := by
  simp only [NodeList.initializeNil, setNext_prev, setPrev_prev]

/-- A segment only depends on the `next_` links of its start and inner nodes
and on the `prev_` links of its inner nodes and end. -/
theorem Chain.frame {m m' : Memory} : ∀ (xs : List Nat) (a b : Nat), Chain m a xs b →
    (∀ p, p ∈ a :: xs → (m' p).next_ = (m p).next_) →
    (∀ p, p ∈ xs ++ [b] → (m' p).prev_ = (m p).prev_) → Chain m' a xs b
  | [], a, b, h, hn, hp => by
    simp only [Chain] at h ⊢
    rw [hn a (by simp), hp b (by simp)]
    exact h
  | x :: xs, a, b, h, hn, hp => by
    simp only [Chain] at h ⊢
    refine ⟨by rw [hn a (by simp)]; exact h.1, by rw [hp x (by simp)]; exact h.2.1, ?_⟩
    apply Chain.frame xs x b h.2.2
    · intro p hp'
      exact hn p (List.mem_cons_of_mem _ hp')
    · intro p hp'
      exact hp p (by simpa using Or.inr (by simpa using hp'))

theorem Chain.split_at {m : Memory} : ∀ (l : List Nat) (a y : Nat) (r : List Nat) (b : Nat),
    Chain m a (l ++ y :: r) b ↔ Chain m a l y ∧ Chain m y r b
  | [], a, y, r, b => by
    simp only [List.nil_append, Chain, and_assoc]
  | x :: l, a, y, r, b => by
    have ih := @Chain.split_at m l x y r b
    simp only [List.cons_append, Chain, and_assoc]
    simp only [List.append_eq]
    rw [ih]

/-- Rotating the base of a ring. -/
theorem Chain.rotate {m : Memory} (c y : Nat) (l r : List Nat) :
    Chain m c (l ++ y :: r) c ↔ Chain m y (r ++ c :: l) y := by
  rw [Chain.split_at, Chain.split_at]
  exact And.comm

theorem Chain.next_prev {m : Memory} : ∀ (xs : List Nat) (a b : Nat), Chain m a xs b →
    ∀ n, n ∈ a :: xs → (m (m n).next_).prev_ = n
  | [], a, b, h, n, hn => by
    simp only [Chain] at h
    simp only [List.mem_singleton] at hn
    subst hn
    rw [h.1, h.2]
  | x :: xs, a, b, h, n, hn => by
    simp only [Chain] at h
    rcases List.mem_cons.1 hn with rfl | hn'
    · rw [h.1, h.2.1]
    · exact Chain.next_prev xs x b h.2.2 n hn'

theorem Chain.prev_next {m : Memory} : ∀ (xs : List Nat) (a b : Nat), Chain m a xs b →
    ∀ n, n ∈ xs ++ [b] → (m (m n).prev_).next_ = n
  | [], a, b, h, n, hn => by
    simp only [Chain] at h
    simp only [List.nil_append, List.mem_singleton] at hn
    subst hn
    rw [h.2, h.1]
  | x :: xs, a, b, h, n, hn => by
    simp only [Chain] at h
    rw [List.cons_append] at hn
    rcases List.mem_cons.1 hn with rfl | hn'
    · rw [h.2.1, h.1]
    · exact Chain.prev_next xs x b h.2.2 n hn'

/-- The forward traversal of a segment that ends at the sentinel. -/
theorem forEachNode_chain {m : Memory} {nil : Nat} : ∀ (xs : List Nat) (a : Nat),
    Chain m a xs nil → nil ∉ xs → nullptr ∉ xs → nil ≠ nullptr →
    ∀ fuel, xs.length < fuel → forEachNode m nil fuel (m a).next_ = some xs
  | [], a, h, _, _, hnil, fuel, hf => by
    simp only [Chain] at h
    obtain ⟨k, rfl⟩ : ∃ k, fuel = k + 1 := ⟨fuel - 1, by simp at hf; omega⟩
    simp [forEachNode, NodeList.isNil, h.1, hnil]
  | x :: xs, a, h, hx, h0, hnil, fuel, hf => by
    simp only [Chain] at h
    simp only [List.length_cons] at hf
    obtain ⟨k, rfl⟩ : ∃ k, fuel = k + 1 := ⟨fuel - 1, by omega⟩
    have hxn : x ≠ nil := fun e => hx (by simp [e])
    have hx0 : x ≠ nullptr := fun e => h0 (by simp [e])
    have ih := forEachNode_chain xs x h.2.2 (fun e => hx (List.mem_cons_of_mem _ e))
      (fun e => h0 (List.mem_cons_of_mem _ e)) hnil k (by omega)
    simp [forEachNode, NodeList.isNil, h.1, hxn, hx0, ih]

/-- The reverse traversal of a segment that starts at the sentinel. -/
theorem forEachNodeReverse_chain {m : Memory} {nil : Nat} : ∀ (xs : List Nat) (b : Nat),
    Chain m nil xs b → nil ∉ xs → nullptr ∉ xs → nil ≠ nullptr →
    ∀ fuel, xs.length < fuel → forEachNodeReverse m nil fuel (m b).prev_ = some xs.reverse := by
  intro xs
  induction xs using List.reverseRecOn with
  | nil =>
    intro b h _ _ hnil fuel hf
    simp only [Chain] at h
    obtain ⟨k, rfl⟩ : ∃ k, fuel = k + 1 := ⟨fuel - 1, by simp at hf; omega⟩
    simp [forEachNodeReverse, NodeList.isNil, h.2, hnil]
  | append_singleton xs z ih =>
    intro b h hx h0 hnil fuel hf
    rw [Chain.split_at] at h
    obtain ⟨h1, h2⟩ := h
    simp only [Chain] at h2
    simp only [List.length_append, List.length_singleton] at hf
    obtain ⟨k, rfl⟩ : ∃ k, fuel = k + 1 := ⟨fuel - 1, by omega⟩
    have hzn : z ≠ nil := fun e => hx (by simp [e])
    have hz0 : z ≠ nullptr := fun e => h0 (by simp [e])
    have ih' := ih z h1 (fun e => hx (by simp [e])) (fun e => h0 (by simp [e])) hnil k
      (by omega)
    simp [forEachNodeReverse, NodeList.isNil, h2.2, hzn, hz0, ih']

/-- A well-formed ring is modelled by its node sequence. -/
theorem Ring.models {m : Memory} {nil : Nat} {xs : List Nat} (h : Ring m nil xs) :
    Models m nil xs := by
  obtain ⟨hc, hnd, h0⟩ := h
  have hnil : nil ≠ nullptr := fun e => h0 (by simp [e])
  have hx : nil ∉ xs := (List.nodup_cons.1 hnd).1
  have h0' : nullptr ∉ xs := fun e => h0 (List.mem_cons_of_mem _ e)
  intro fuel hf
  exact ⟨forEachNode_chain xs nil hc hx h0' hnil fuel hf,
    forEachNodeReverse_chain xs nil hc hx h0' hnil fuel hf⟩

/-- A traversal that returned keeps its result under a larger bound. -/
theorem forEachNode_mono {m : Memory} {nil : Nat} : ∀ (fuel node : Nat) (xs : List Nat),
    forEachNode m nil fuel node = some xs → ∀ k, forEachNode m nil (fuel + k) node = some xs
  | 0, _, _, h, _ => by simp [forEachNode] at h
  | fuel + 1, node, xs, h, k => by
    rw [show fuel + 1 + k = (fuel + k) + 1 by omega]
    simp only [forEachNode] at h ⊢
    cases hn : NodeList.isNil nil node with
    | none => simp [hn] at h
    | some b =>
      cases b with
      | true => simpa [hn] using h
      | false =>
        simp only [hn, Option.map_eq_some'] at h ⊢
        obtain ⟨rest, hr, e⟩ := h
        exact ⟨rest, forEachNode_mono fuel _ rest hr k, e⟩

/-- In a well-formed ring the linked nodes are the nodes of the sequence. -/
theorem Ring.linked_iff {m : Memory} {nil : Nat} {xs : List Nat} (h : Ring m nil xs)
    (x : Nat) : Linked m nil x ↔ x ∈ xs := by
  have hm := h.models
  constructor
  · rintro ⟨fuel, ys, hy, hx⟩
    have h1 := forEachNode_mono fuel _ ys hy (xs.length + 1)
    have h2 := (hm (fuel + (xs.length + 1)) (by omega)).1
    simp only [NodeList.nodes] at h2
    rw [h1] at h2
    rw [← Option.some.inj h2]
    exact hx
  · intro hx
    exact ⟨xs.length + 1, xs, (hm _ (by omega)).1, hx⟩

/-! ## The intrusive list: the operations on a ring -/

/-- Inserting a new node right after the base of a ring. -/
theorem Chain.insert_after_base {m : Memory} (c x : Nat) (ys : List Nat)
    (h : Chain m c ys c) (hnd : (c :: ys).Nodup) (hx : x ∉ c :: ys) :
    Chain (ListNode.insert m x c (m c).next_) c (x :: ys) c := by
  have hxc : x ≠ c := fun e => hx (by simp [e])
  cases ys with
  | nil =>
    simp only [Chain] at h ⊢
    simp [insert_next, insert_prev, h.1, h.2, hxc, hxc.symm]
  | cons y t =>
    simp only [Chain] at h ⊢
    obtain ⟨h1, h2, h3⟩ := h
    have hxy : x ≠ y := fun e => hx (by simp [e])
    have hcy : c ≠ y := fun e => by simp [e] at hnd
    refine ⟨?_, ?_, ?_, ?_, ?_⟩
    · simp [insert_next, hxc.symm]
    · simp [insert_prev, h1, hxy]
    · simp [insert_next, h1]
    · simp [insert_prev, h1]
    · apply Chain.frame t y c h3
      · intro p hp
        have hpx : p ≠ x := fun e => hx (by rw [← e]; exact List.mem_cons_of_mem _ hp)
        have hpc : p ≠ c := fun e => by
          rw [e] at hp
          exact (List.nodup_cons.1 hnd).1 hp
        simp [insert_next, hpx, hpc]
      · intro p hp
        have hpy : p ≠ y := fun e => by
          rw [e] at hp
          have := (List.nodup_cons.1 (List.nodup_cons.1 hnd).2).1
          rcases List.mem_append.1 hp with hp | hp
          · exact this hp
          · simp at hp
            exact hcy hp.symm
        have hpx : p ≠ x := fun e => by
          rw [e] at hp
          rcases List.mem_append.1 hp with hp | hp
          · exact hx (by simp [hp])
          · simp at hp
            exact hxc hp
        simp [insert_prev, h1, hpy, hpx]

/-- Inserting a new node right before the base of a ring. -/
theorem Chain.insert_before_base {m : Memory} (c x : Nat) (ys : List Nat)
    (h : Chain m c ys c) (hnd : (c :: ys).Nodup) (hx : x ∉ c :: ys) :
    Chain (ListNode.insert m x (m c).prev_ c) c (ys ++ [x]) c := by
  have hxc : x ≠ c := fun e => hx (by simp [e])
  rw [Chain.split_at]
  rcases List.eq_nil_or_concat ys with rfl | ⟨body, z, rfl⟩
  · simp only [Chain] at h ⊢
    simp [insert_next, insert_prev, h.1, h.2, hxc, hxc.symm]
  · simp only [List.concat_eq_append] at h hnd hx ⊢
    rw [Chain.split_at] at h ⊢
    obtain ⟨h1, h2⟩ := h
    simp only [Chain] at h2 ⊢
    have hxz : x ≠ z := fun e => hx (by simp [e])
    have hzc : z ≠ c := fun e => by simp [e] at hnd
    have hzb : z ∉ body := fun e => by
      have := (List.nodup_cons.1 hnd).2
      rw [List.nodup_append] at this
      exact this.2.2 e (by simp) 
    refine ⟨⟨?_, ?_, ?_⟩, ?_, ?_⟩
    · apply Chain.frame body c z h1
      · intro p hp
        have hpx : p ≠ x := fun e => hx (by
          rw [← e]
          rcases List.mem_cons.1 hp with hp | hp
          · simp [hp]
          · simp [hp])
        have hpz : p ≠ z := fun e => by
          rw [e] at hp
          rcases List.mem_cons.1 hp with hp | hp
          · exact hzc hp
          · exact hzb hp
        simp [insert_next, h2.2, hpx, hpz]
      · intro p hp
        have hpc : p ≠ c := fun e => by
          rw [e] at hp
          exact (List.nodup_cons.1 hnd).1 hp
        have hpx : p ≠ x := fun e => hx (by
          rw [← e]
          exact List.mem_cons_of_mem _ hp)
        simp [insert_prev, hpc, hpx]
    · simp [insert_next, h2.2, hxz.symm]
    · simp [insert_prev, h2.2, hxc]
    · simp [insert_next]
    · simp [insert_prev]

/-- Removing the node right after the base of a ring. -/
theorem Chain.remove_after_base {m : Memory} (c y : Nat) (ys : List Nat)
    (h : Chain m c (y :: ys) c) (hnd : (c :: y :: ys).Nodup) :
    Chain (ListNode.remove m y) c ys c := by
  simp only [Chain] at h
  obtain ⟨h1, h2, h3⟩ := h
  have hcy : c ≠ y := fun e => by simp [e] at hnd
  have hpy : (m y).prev_ ≠ y := by rw [h2]; exact hcy
  cases ys with
  | nil =>
    simp only [Chain] at h3 ⊢
    simp [remove_next, remove_prev m y _ hpy, h2, h3.1]
  | cons z t =>
    simp only [Chain] at h3 ⊢
    obtain ⟨h4, h5, h6⟩ := h3
    have hcz : c ≠ z := fun e => by simp [e] at hnd
    refine ⟨?_, ?_, ?_⟩
    · simp [remove_next, h2, h4]
    · simp [remove_prev m y _ hpy, h2, h4]
    · apply Chain.frame t z c h6
      · intro p hp
        have hpc : p ≠ c := fun e => by
          rw [e] at hp
          exact (List.nodup_cons.1 hnd).1 (List.mem_cons_of_mem _ hp)
        simp [remove_next, h2, hpc]
      · intro p hp
        have hpz : p ≠ z := fun e => by
          rw [e] at hp
          have hn := (List.nodup_cons.1 (List.nodup_cons.1 (List.nodup_cons.1 hnd).2).2).1
          rcases List.mem_append.1 hp with hp | hp
          · exact hn hp
          · simp at hp
            exact hcz hp.symm
        simp [remove_prev m y _ hpy, h4, hpz]

/-! ## The intrusive list: rings under the interface -/

theorem nodup_rotate (c y : Nat) (l r : List Nat) :
    (c :: (l ++ y :: r)).Nodup ↔ (y :: (r ++ c :: l)).Nodup := by
  have hperm : List.Perm (c :: (l ++ y :: r)) (y :: (r ++ c :: l)) := by
    have h1 : List.Perm (l ++ y :: r) (y :: (l ++ r)) := List.perm_middle
    have h2 : List.Perm (r ++ c :: l) (c :: (r ++ l)) := List.perm_middle
    have h3 : List.Perm (l ++ r) (r ++ l) := List.perm_append_comm
    exact ((h1.cons c).trans (List.Perm.swap y c _)).trans (((h3.cons c).trans h2.symm).cons y)
  exact hperm.nodup_iff

theorem mem_rotate (c y x : Nat) (l r : List Nat) :
    x ∈ c :: (l ++ y :: r) ↔ x ∈ y :: (r ++ c :: l) := by
  simp only [List.mem_cons, List.mem_append]
  tauto

theorem Ring.of_construct (m : Memory) (nil : Nat) (h : nil ≠ nullptr) :
    Ring (NodeList.initializeNil m nil) nil [] := by
  refine ⟨?_, by simp, by simpa using h.symm⟩
  simp [Chain, initializeNil_next, initializeNil_prev]

/-- A new node inserted after the node `y` of a ring, the sentinel (`l`, `r`
the nodes before and after `y`, counted from the sentinel). -/
theorem Ring.insert_after {m : Memory} {nil : Nat} (x y : Nat) (l r : List Nat)
    (h : Ring m nil (l ++ y :: r)) (hx : x ∉ nil :: (l ++ y :: r)) (hx0 : x ≠ nullptr) :
    Ring (ListNode.insert m x y (m y).next_) nil (l ++ y :: x :: r) := by
  obtain ⟨hc, hnd, h0⟩ := h
  have hc' := (Chain.rotate nil y l r).1 hc
  have hnd' := (nodup_rotate nil y l r).1 hnd
  have hx' : x ∉ y :: (r ++ nil :: l) := fun e => hx ((mem_rotate nil y x l r).2 e)
  have hi := Chain.insert_after_base y x (r ++ nil :: l) hc' hnd' hx'
  refine ⟨(Chain.rotate nil y l (x :: r)).2 hi, ?_, ?_⟩
  · rw [nodup_rotate nil y l (x :: r)]
    have : List.Perm (y :: (x :: r ++ nil :: l)) (x :: y :: (r ++ nil :: l)) :=
      List.Perm.swap x y _
    rw [this.nodup_iff]
    exact List.nodup_cons.2 ⟨hx', hnd'⟩
  · intro e
    have : nullptr ∈ nil :: (l ++ y :: r) ∨ nullptr = x := by
      simp only [List.mem_cons, List.mem_append] at e ⊢
      tauto
    rcases this with h | h
    · exact h0 h
    · exact hx0 h.symm

/-- A new node inserted before the node `y` of a ring. -/
theorem Ring.insert_before {m : Memory} {nil : Nat} (x y : Nat) (l r : List Nat)
    (h : Ring m nil (l ++ y :: r)) (hx : x ∉ nil :: (l ++ y :: r)) (hx0 : x ≠ nullptr) :
    Ring (ListNode.insert m x (m y).prev_ y) nil (l ++ x :: y :: r) := by
  obtain ⟨hc, hnd, h0⟩ := h
  have hc' := (Chain.rotate nil y l r).1 hc
  have hnd' := (nodup_rotate nil y l r).1 hnd
  have hx' : x ∉ y :: (r ++ nil :: l) := fun e => hx ((mem_rotate nil y x l r).2 e)
  have hi := Chain.insert_before_base y x (r ++ nil :: l) hc' hnd' hx'
  have e1 : (r ++ nil :: l) ++ [x] = r ++ nil :: (l ++ [x]) := by simp
  have e2 : l ++ x :: y :: r = (l ++ [x]) ++ y :: r := by simp
  rw [e1] at hi
  rw [e2]
  refine ⟨(Chain.rotate nil y (l ++ [x]) r).2 hi, ?_, ?_⟩
  · rw [nodup_rotate nil y (l ++ [x]) r, ← e1]
    have : List.Perm (y :: ((r ++ nil :: l) ++ [x])) (x :: y :: (r ++ nil :: l)) := by
      have h1 : List.Perm ((r ++ nil :: l) ++ [x]) (x :: (r ++ nil :: l)) :=
        List.perm_append_singleton _ _
      exact (h1.cons y).trans (List.Perm.swap x y _)
    rw [this.nodup_iff]
    exact List.nodup_cons.2 ⟨hx', hnd'⟩
  · intro e
    have : nullptr ∈ nil :: (l ++ y :: r) ∨ nullptr = x := by
      simp only [List.mem_cons, List.mem_append, List.mem_singleton] at e ⊢
      tauto
    rcases this with h | h
    · exact h0 h
    · exact hx0 h.symm

theorem Ring.add_head {m : Memory} {nil : Nat} (x : Nat) (xs : List Nat)
    (h : Ring m nil xs) (hx : x ∉ nil :: xs) (hx0 : x ≠ nullptr) :
    Ring (ListNode.insert m x nil (NodeList.getHead m nil)) nil (x :: xs) := by
  obtain ⟨hc, hnd, h0⟩ := h
  refine ⟨Chain.insert_after_base nil x xs hc hnd hx, ?_, ?_⟩
  · have : List.Perm (nil :: x :: xs) (x :: nil :: xs) := List.Perm.swap x nil _
    rw [this.nodup_iff]
    exact List.nodup_cons.2 ⟨hx, hnd⟩
  · intro e
    simp only [List.mem_cons] at e h0
    rcases e with e | e | e
    · exact h0 (Or.inl e)
    · exact hx0 e.symm
    · exact h0 (Or.inr e)

theorem Ring.add_tail {m : Memory} {nil : Nat} (x : Nat) (xs : List Nat)
    (h : Ring m nil xs) (hx : x ∉ nil :: xs) (hx0 : x ≠ nullptr) :
    Ring (ListNode.insert m x (NodeList.getTail m nil) nil) nil (xs ++ [x]) := by
  obtain ⟨hc, hnd, h0⟩ := h
  refine ⟨Chain.insert_before_base nil x xs hc hnd hx, ?_, ?_⟩
  · have : List.Perm (nil :: (xs ++ [x])) (x :: nil :: xs) :=
      ((List.perm_append_singleton x xs).cons nil).trans (List.Perm.swap x nil _)
    rw [this.nodup_iff]
    exact List.nodup_cons.2 ⟨hx, hnd⟩
  · intro e
    have : nullptr ∈ nil :: xs ∨ nullptr = x := by
      simp only [List.mem_cons, List.mem_append, List.mem_singleton] at e ⊢
      tauto
    rcases this with h | h
    · exact h0 h
    · exact hx0 h.symm

/-- Removing the node `y` of a ring. -/
theorem Ring.remove_node {m : Memory} {nil : Nat} (y : Nat) (l r : List Nat)
    (h : Ring m nil (l ++ y :: r)) : Ring (ListNode.remove m y) nil (l ++ r) := by
  obtain ⟨hc, hnd, h0⟩ := h
  have hsub : ∀ z, z ∈ nil :: (l ++ r) → z ∈ nil :: (l ++ y :: r) := by
    intro z hz
    simp only [List.mem_cons, List.mem_append] at hz ⊢
    tauto
  have hnd2 : (nil :: (l ++ r)).Nodup := by
    have : List.Perm (nil :: (l ++ y :: r)) (y :: nil :: (l ++ r)) :=
      ((List.perm_middle).cons nil).trans (List.Perm.swap y nil _)
    rw [this.nodup_iff] at hnd
    exact (List.nodup_cons.1 hnd).2
  refine ⟨?_, hnd2, fun e => h0 (hsub _ e)⟩
  rcases List.eq_nil_or_concat l with rfl | ⟨l', p, rfl⟩
  · exact Chain.remove_after_base nil y r hc hnd
  · simp only [List.concat_eq_append, List.append_assoc, List.singleton_append] at hc hnd ⊢
    have hc' := (Chain.rotate nil p l' (y :: r)).1 hc
    have hnd' := (nodup_rotate nil p l' (y :: r)).1 hnd
    have hr := Chain.remove_after_base p y (r ++ nil :: l') hc' hnd'
    exact (Chain.rotate nil p l' r).2 hr

theorem Ring.isEmpty_iff {m : Memory} {nil : Nat} {xs : List Nat} (h : Ring m nil xs) :
    NodeList.isEmpty m nil = true ↔ xs = [] := by
  obtain ⟨hc, hnd, _⟩ := h
  rcases List.eq_nil_or_concat xs with rfl | ⟨body, z, rfl⟩
  · simp only [Chain] at hc
    simp [NodeList.isEmpty, hc.2]
  · simp only [List.concat_eq_append] at hc hnd ⊢
    rw [Chain.split_at] at hc
    have hz : z ≠ nil := fun e => by simp [e] at hnd
    simp only [Chain] at hc
    simp [NodeList.isEmpty, hc.2.2, hz]

/-- Moving a ring from the sentinel `src` to the sentinel `dst`. -/
theorem Ring.move_to {m : Memory} {src dst : Nat} {xs : List Nat} (h : Ring m src xs)
    (hne : dst ≠ src) (hd : dst ∉ xs) (hd0 : dst ≠ nullptr) :
    Ring (NodeList.move m src dst) dst xs ∧ Ring (NodeList.move m src dst) src [] := by
  have hemp := h.isEmpty_iff
  obtain ⟨hc, hnd, h0⟩ := h
  have hs0 : src ≠ nullptr := fun e => h0 (by simp [e])
  have hnd2 : (dst :: xs).Nodup := List.nodup_cons.2 ⟨hd, (List.nodup_cons.1 hnd).2⟩
  have h02 : nullptr ∉ dst :: xs := by
    intro e
    rcases List.mem_cons.1 e with e | e
    · exact hd0 e.symm
    · exact h0 (List.mem_cons_of_mem _ e)
  rcases List.eq_nil_or_concat xs with rfl | ⟨body, z, rfl⟩
  · have he : NodeList.isEmpty m src = true := hemp.2 rfl
    simp only [Chain] at hc
    simp only [NodeList.move, he, if_true]
    refine ⟨⟨?_, hnd2, h02⟩, ⟨?_, by simp, by simpa using hs0.symm⟩⟩
    · simp [Chain, initializeNil_next, initializeNil_prev]
    · simp [Chain, initializeNil_next, initializeNil_prev, hne.symm, hc.1, hc.2]
  · simp only [List.concat_eq_append] at hc hnd hd hnd2 h02 hemp ⊢
    have he : NodeList.isEmpty m src = false := by
      cases hb : NodeList.isEmpty m src with
      | false => rfl
      | true => simpa using hemp.1 hb
    simp only [NodeList.move, he, Bool.false_eq_true, if_false]
    rw [Chain.split_at] at hc
    obtain ⟨hc1, hc2⟩ := hc
    simp only [Chain] at hc2
    have hzs : z ≠ src := fun e => by simp [e] at hnd
    have hzd : z ≠ dst := fun e => hd (by simp [e])
    have hzb : z ∉ body := fun e => by
      have := (List.nodup_cons.1 hnd).2
      rw [List.nodup_append] at this
      exact this.2.2 e (by simp)
    refine ⟨⟨?_, hnd2, h02⟩, ⟨?_, by simp, by simpa using hs0.symm⟩⟩
    · rw [Chain.split_at]
      refine ⟨?_, ?_⟩
      · cases body with
        | nil =>
          simp only [Chain] at hc1 ⊢
          simp [initializeNil_next, initializeNil_prev, insert_next, insert_prev, hc1.1, hc2.2,
            hne, hzs, hzd, hzd.symm]
        | cons hd' body' =>
          simp only [Chain] at hc1 ⊢
          obtain ⟨g1, g2, g3⟩ := hc1
          have hhs : hd' ≠ src := fun e => by simp [e] at hnd
          have hhd : hd' ≠ dst := fun e => hd (by simp [e])
          have hhz : hd' ≠ z := fun e => hzb (by simp [← e])
          refine ⟨?_, ?_, ?_⟩
          · simp [initializeNil_next, insert_next, g1, hne]
          · simp [initializeNil_prev, insert_prev, g1, hhs]
          · apply Chain.frame body' hd' z g3
            · intro p hp
              have hps : p ≠ src := fun e => by
                rw [e] at hp
                apply (List.nodup_cons.1 hnd).1
                simp only [List.mem_append, List.mem_singleton, List.mem_cons] at hp ⊢
                tauto
              have hpd : p ≠ dst := fun e => hd (by
                rw [← e]
                simp only [List.mem_append, List.mem_singleton, List.mem_cons] at hp ⊢
                tauto)
              have hpz : p ≠ z := fun e => hzb (by rw [← e]; exact hp)
              simp [initializeNil_next, insert_next, hc2.2, hps, hpd, hpz]
            · intro p hp
              have hps : p ≠ src := fun e => by
                rw [e] at hp
                apply (List.nodup_cons.1 hnd).1
                simp only [List.mem_append, List.mem_singleton, List.mem_cons] at hp ⊢
                tauto
              have hpd : p ≠ dst := fun e => hd (by
                rw [← e]
                simp only [List.mem_append, List.mem_singleton, List.mem_cons] at hp ⊢
                tauto)
              have hph : p ≠ hd' := fun e => by
                rw [e] at hp
                have hn := (List.nodup_cons.1 hnd).2
                simp only [List.cons_append, List.nodup_cons] at hn
                exact hn.1 hp
              simp [initializeNil_prev, insert_prev, g1, hps, hpd, hph]
      · simp only [Chain]
        have hdh : dst ≠ (m src).next_ := by
          intro e
          apply hd
          cases body with
          | nil =>
            simp only [Chain] at hc1
            simp [e, hc1.1]
          | cons hd' body' =>
            simp only [Chain] at hc1
            simp [e, hc1.1]
        simp [initializeNil_next, initializeNil_prev, insert_next, insert_prev, hc2.2, hne, hzs,
          hzd, hdh]
    · simp [Chain, initializeNil_next, initializeNil_prev]

/-! ## The intrusive list: lists built through the interface -/

/-- Every list built through the interface is a well-formed ring. -/
theorem Built.ring {nil : Nat} {m : Memory} (h : Built nil m) : ∃ ys, Ring m nil ys := by
  induction h with
  | construct m hnil => exact ⟨[], Ring.of_construct m nil hnil⟩
  | addHead m m' x _ hxn hxl hop ih =>
    obtain ⟨ys, hr⟩ := ih
    have hx : x ∉ nil :: ys := by
      intro e
      rcases List.mem_cons.1 e with e | e
      · exact hxn e
      · exact hxl ((hr.linked_iff x).2 e)
    simp only [NodeList.addHead] at hop
    split at hop
    · exact Option.noConfusion hop
    · rename_i hx0
      rw [← Option.some.inj hop]
      exact ⟨x :: ys, hr.add_head x ys hx hx0⟩
  | addTail m m' x _ hxn hxl hop ih =>
    obtain ⟨ys, hr⟩ := ih
    have hx : x ∉ nil :: ys := by
      intro e
      rcases List.mem_cons.1 e with e | e
      · exact hxn e
      · exact hxl ((hr.linked_iff x).2 e)
    simp only [NodeList.addTail] at hop
    split at hop
    · exact Option.noConfusion hop
    · rename_i hx0
      rw [← Option.some.inj hop]
      exact ⟨ys ++ [x], hr.add_tail x ys hx hx0⟩
  | insertBefore m m' x y _ hx0 hxn hxl hy hop ih =>
    obtain ⟨ys, hr⟩ := ih
    have hx : x ∉ nil :: ys := by
      intro e
      rcases List.mem_cons.1 e with e | e
      · exact hxn e
      · exact hxl ((hr.linked_iff x).2 e)
    simp only [ListNode.insertBefore] at hop
    split at hop
    · exact Option.noConfusion hop
    · rw [← Option.some.inj hop]
      rcases hy with rfl | hy
      · exact ⟨ys ++ [x], hr.add_tail x ys hx hx0⟩
      · obtain ⟨l, r, rfl⟩ := List.append_of_mem ((hr.linked_iff y).1 hy)
        exact ⟨l ++ x :: y :: r, Ring.insert_before x y l r hr hx hx0⟩
  | insertAfter m m' x y _ hx0 hxn hxl hy hop ih =>
    obtain ⟨ys, hr⟩ := ih
    have hx : x ∉ nil :: ys := by
      intro e
      rcases List.mem_cons.1 e with e | e
      · exact hxn e
      · exact hxl ((hr.linked_iff x).2 e)
    simp only [ListNode.insertAfter] at hop
    split at hop
    · exact Option.noConfusion hop
    · rw [← Option.some.inj hop]
      rcases hy with rfl | hy
      · exact ⟨x :: ys, hr.add_head x ys hx hx0⟩
      · obtain ⟨l, r, rfl⟩ := List.append_of_mem ((hr.linked_iff y).1 hy)
        exact ⟨l ++ y :: x :: r, Ring.insert_after x y l r hr hx hx0⟩
  | remove m x _ hxl ih =>
    obtain ⟨ys, hr⟩ := ih
    obtain ⟨l, r, rfl⟩ := List.append_of_mem ((hr.linked_iff x).1 hxl)
    exact ⟨l ++ r, Ring.remove_node x l r hr⟩

theorem Ring.links {m : Memory} {nil : Nat} {xs : List Nat} (h : Ring m nil xs) :
    ∀ n, n ∈ nil :: xs → (m (m n).next_).prev_ = n ∧ (m (m n).prev_).next_ = n := by
  intro n hn
  refine ⟨Chain.next_prev xs nil nil h.1 n hn, Chain.prev_next xs nil nil h.1 n ?_⟩
  simp only [List.mem_cons, List.mem_append, List.mem_singleton] at hn ⊢
  tauto

/-! ## Classes with container members -/

theorem insertMember_spec (m : Member) (a : Archive) (s : Stream)
    (h : a.stream_ = some s) (hm : m.hasFront = true) :
    ∃ b, a.insertMember m = ⟨⟨some ⟨s.data, b⟩,
        a.writtenByteCount_ + m.wireLayout.length, a.readByteCount_⟩, (), none⟩ ∧
      WritesAt s.buffer b a.writtenByteCount_ m.wireLayout := by
  cases m with
  | value v => exact insert_spec v a s h
  | string str =>
    obtain ⟨b, e1, w, e2⟩ := insertString_spec a s str h
    have hne : str ≠ [] := by
      intro hc
      simp [Member.hasFront, hc] at hm
    rw [if_neg hne] at e2
    refine ⟨b, ?_, w⟩
    simp only [Archive.insertMember, Member.wireLayout, List.length_append]
    rw [← e1, ← e2]
  | byteVector v =>
    obtain ⟨b, e1, w, e2⟩ := insertString_spec a s v h
    have hne : v ≠ [] := by
      intro hc
      simp [Member.hasFront, hc] at hm
    rw [if_neg hne] at e2
    refine ⟨b, ?_, w⟩
    simp only [Archive.insertMember, Member.wireLayout, List.length_append,
      insertByteVector_eq]
    rw [← e1, ← e2]
  | vector init xs =>
    obtain ⟨b, e, w⟩ := insertVector_spec a s xs h
    refine ⟨b, ?_, w⟩
    simp only [Archive.insertMember, Member.wireLayout, List.length_append, e]

theorem insertMembers_spec : ∀ (ms : List Member) (a : Archive) (s : Stream),
    a.stream_ = some s → (∀ m ∈ ms, m.hasFront = true) →
    ∃ b, Archive.insertMembers a ms = ⟨⟨some ⟨s.data, b⟩,
        a.writtenByteCount_ + (ms.map Member.wireLayout).flatten.length,
        a.readByteCount_⟩, (), none⟩ ∧
      WritesAt s.buffer b a.writtenByteCount_ (ms.map Member.wireLayout).flatten
  | [], a, s, h, _ => by
    refine ⟨s.buffer, ?_, WritesAt.refl _ _⟩
    simp only [Archive.insertMembers, List.map_nil, List.flatten_nil, List.length_nil,
      Nat.add_zero, ← h]
  | m :: ms, a, s, h, hms => by
    obtain ⟨b1, e1, w1⟩ := insertMember_spec m a s h (hms m (List.mem_cons_self _ _))
    obtain ⟨b2, e2, w2⟩ := insertMembers_spec ms
      ⟨some ⟨s.data, b1⟩, a.writtenByteCount_ + m.wireLayout.length, a.readByteCount_⟩
      ⟨s.data, b1⟩ rfl (fun x hx => hms x (List.mem_cons_of_mem _ hx))
    refine ⟨b2, ?_, WritesAt.append w1 w2⟩
    simp only [Archive.insertMembers, e1, e2, List.map_cons, List.flatten_cons,
      List.length_append, Nat.add_assoc]

/-- A class whose members are all values of the dispatch layer is an `object`
of that layer. -/
theorem insertComposite_values (vs : List Value) (a : Archive) :
    a.insertComposite (vs.map Member.value) = a.insert (.object vs) := by
  have h : ∀ (xs : List Value) (b : Archive),
      Archive.insertMembers b (xs.map Member.value) = Archive.insertEach b xs := by
    intro xs
    induction xs with
    | nil => intro b; rfl
    | cons x xs ih =>
      intro b
      simp only [List.map_cons, Archive.insertMembers, Archive.insertMember,
        Archive.insertEach, ih]
  simp only [Archive.insertComposite, Archive.insert, h]

/-- Composite objects outside the empty containers.  For every class declared
with `SIREN_SERDES(m1, ..., mk)` none of whose members is a `std::string` or a
byte-like `std::vector` of size 0, inserting an object into a bound archive
returns normally and writes exactly the layouts of `m1`, ..., `mk` one after
another in that order, so that the write cursor advances by the sum of their
sizes. -/
theorem composite_layout (ms : List Member) (a : Archive) (ha : a.isValid = true)
    (hms : ∀ m ∈ ms, m.hasFront = true) :
    (a.insertComposite ms).signal = none ∧
    bytesWritten a (a.insertComposite ms) = (ms.map Member.wireLayout).flatten ∧
    (a.insertComposite ms).archive.writtenByteCount_ =
      a.writtenByteCount_ + (ms.map (fun m => m.wireLayout.length)).sum := by
  obtain ⟨s, hs⟩ := (isValid_iff a).1 ha
  obtain ⟨b, hb, hw⟩ := insertMembers_spec ms a s hs hms
  simp only [Archive.insertComposite, ha, if_true, hb]
  refine ⟨trivial, ?_, ?_⟩
  · simp only [bytesWritten, Archive.buffer, Nat.add_sub_cancel_left]
    exact hw.window
  · simp only [List.length_flatten, List.map_map, Function.comp_def]

/-! ## C1 – C3: the fixed-width integer codec -/

/-- C1. Round trip of an unsigned integer.  For every unsigned type `T` of `W`
bits and every value `v < 2 ^ W`: when the `W/8` bytes that `serializeInteger`
writes for `v` (into any bound archive `w`) are the readable bytes at the read
cursor of an archive `r`, `deserializeInteger` on `r` returns normally, stores
exactly `v` in the destination (whatever it held), and advances the read cursor
by `W/8`, changing nothing else. -/
theorem C1_unsigned_round_trip (T : UIntType) (w r : Archive) (v d : Nat)
    (hw : w.isValid = true) (hv : v < 2 ^ T.digits)
    (hbytes : window r.data r.readByteCount_ T.sizeof =
      bytesWritten w (w.serializeInteger T v)) :
    r.deserializeInteger T d =
      ⟨{ r with readByteCount_ := r.readByteCount_ + T.sizeof }, v, none⟩ := by
  rw [bytesWritten_serializeInteger T w v hw] at hbytes
  have hlen := window_all _ _ _ _ hbytes (leBytes_length _ _) T.sizeof_pos
  cases hr : r.stream_ with
  | none =>
    have hpos := T.sizeof_pos
    simp [Archive.data, hr] at hlen
    omega
  | some s =>
    simp only [Archive.data, hr] at hbytes hlen
    rw [deserializeInteger_spec T r s d hr hlen, hbytes, leValue_leBytes, ← two_pow_digits,
      Nat.mod_eq_of_lt hv, hr]

/-- C1, at a concrete input: the four bytes written for the `uint32` value
`0x01020304` are read back as `0x01020304`. -/
theorem C1_unsigned_round_trip_witness :
    (⟨some ⟨[4, 3, 2, 1], []⟩, 0, 0⟩ : Archive).deserializeInteger .u32 77 =
      ⟨⟨some ⟨[4, 3, 2, 1], []⟩, 0, 4⟩, 0x01020304, none⟩ :=
  C1_unsigned_round_trip .u32 Archive.fresh ⟨some ⟨[4, 3, 2, 1], []⟩, 0, 0⟩ 0x01020304 77
    (by decide) (by decide)
    (by simp [window, Archive.data, bytesWritten, Archive.buffer, Archive.fresh,
      Archive.serializeInteger, Stream.reserveBuffer, serializeLoop, UIntType.digits,
      UIntType.sizeof, UINT_DIGITS, UnsignedToSigned, toByte])

/-- C2. Layout of an unsigned integer.  For every unsigned type `T` of `W` bits
and every value `v`, `serializeInteger` on a bound archive returns normally,
leaves byte `i` (for `i < W/8`) equal to `(v >> 8*i) & 0xFF` at position
`writeCursor + i`, changes no byte that existed outside these `W/8` positions,
and advances the write cursor by exactly `W/8`.  In particular `uint32`
`0x01020304` yields `04 03 02 01`, `uint32` `0` yields `00 00 00 00`, and an
8-bit value yields exactly one byte. -/
theorem C2_unsigned_layout (T : UIntType) (a : Archive) (v : Nat) (ha : a.isValid = true) :
    (a.serializeInteger T v).signal = none ∧
    (a.serializeInteger T v).archive.writtenByteCount_ = a.writtenByteCount_ + T.sizeof ∧
    (∀ i, i < T.sizeof →
      ((a.serializeInteger T v).archive.buffer[a.writtenByteCount_ + i]?).map Fin.val =
        some ((v >>> (8 * i)) &&& 0xFF)) ∧
    (∀ j, (j < a.writtenByteCount_ ∨ a.writtenByteCount_ + T.sizeof ≤ j) →
      j < a.buffer.length → (a.serializeInteger T v).archive.buffer[j]? = a.buffer[j]?) ∧
    bytesWritten a (a.serializeInteger .u32 0x01020304) = [4, 3, 2, 1] ∧
    bytesWritten a (a.serializeInteger .u32 0) = [0, 0, 0, 0] ∧
    (∀ x, bytesWritten a (a.serializeInteger .u8 x) = [toByte x]) := by
  obtain ⟨s, hs⟩ := (isValid_iff a).1 ha
  obtain ⟨b, hb, hw⟩ := serializeInteger_spec T a s v hs
  refine ⟨by rw [hb], by rw [hb], ?_, ?_, ?_, ?_, ?_⟩
  · intro i hi
    rw [hb]
    simp only [Archive.buffer]
    rw [hw.1 i (by rw [leBytes_length]; exact hi)]
    exact leBytes_val _ _ _ hi
  · intro j hj hjl
    rw [hb]
    simp only [Archive.buffer, hs] at hjl ⊢
    exact hw.2.1 j (by rw [leBytes_length]; exact hj) hjl
  · rw [bytesWritten_serializeInteger _ _ _ ha]
    decide
  · rw [bytesWritten_serializeInteger _ _ _ ha]
    decide
  · intro x
    rw [bytesWritten_serializeInteger _ _ _ ha]
    rfl

/-- C2, at a concrete input: a `uint16` written at write cursor 1 of a bound
archive. -/
theorem C2_unsigned_layout_witness :
    (Archive.serializeInteger .u16 ⟨some ⟨[], [9]⟩, 1, 0⟩ 0xBEEF).archive.writtenByteCount_ =
      1 + UIntType.u16.sizeof :=
  (C2_unsigned_layout .u16 ⟨some ⟨[], [9]⟩, 1, 0⟩ 0xBEEF (by decide)).2.1

/-- C3. End of stream on a fixed-width decode.  For every unsigned type `T` of
`W` bits, `deserializeInteger` on a bound archive throws `EndOfStream` if and
only if the available byte count is less than `readCursor + W/8`; when it
throws, the archive (the read cursor in particular) and the destination are
exactly what they were; when it does not throw it returns normally and the read
cursor has advanced by exactly `W/8`.  The public `operator>>` does the same. -/
theorem C3_end_of_stream (T : UIntType) (a : Archive) (d : Nat) (ha : a.isValid = true) :
    ((a.deserializeInteger T d).signal = some .EndOfStream ↔
      a.data.length < a.readByteCount_ + T.sizeof) ∧
    ((a.deserializeInteger T d).signal = some .EndOfStream →
      (a.deserializeInteger T d).archive = a ∧ (a.deserializeInteger T d).dest = d) ∧
    ((a.deserializeInteger T d).signal ≠ some .EndOfStream →
      (a.deserializeInteger T d).signal = none ∧
      (a.deserializeInteger T d).archive =
        { a with readByteCount_ := a.readByteCount_ + T.sizeof }) ∧
    a.extractUnsigned T d = a.deserializeInteger T d := by
  obtain ⟨s, hs⟩ := (isValid_iff a).1 ha
  have hdata : a.data = s.data := by simp [Archive.data, hs]
  rw [hdata]
  refine ⟨?_, ?_, ?_, by simp [Archive.extractUnsigned, ha]⟩
  · by_cases h : s.data.length < a.readByteCount_ + T.sizeof
    · rw [deserializeInteger_short T a s d hs h]
      simp [h]
    · rw [deserializeInteger_spec T a s d hs (by omega)]
      simp [h]
  · by_cases h : s.data.length < a.readByteCount_ + T.sizeof
    · rw [deserializeInteger_short T a s d hs h]
      simp
    · rw [deserializeInteger_spec T a s d hs (by omega)]
      simp
  · by_cases h : s.data.length < a.readByteCount_ + T.sizeof
    · rw [deserializeInteger_short T a s d hs h]
      simp
    · rw [deserializeInteger_spec T a s d hs (by omega)]
      simp

/-- C3, at a concrete input: three available bytes do not hold a `uint32`. -/
theorem C3_end_of_stream_witness :
    (Archive.deserializeInteger .u32 ⟨some ⟨[1, 2, 3], []⟩, 0, 0⟩ 5).signal =
      some .EndOfStream :=
  (C3_end_of_stream .u32 ⟨some ⟨[1, 2, 3], []⟩, 0, 0⟩ 5 (by decide)).1.2 (by decide)

/-! ## C4: signed integers -/

/-- C4. Signed integers.  For every signed type of `W` bits (`T` is its unsigned
counterpart) and every `v` with `-2 ^ (W-1) ≤ v ≤ 2 ^ (W-1) - 1`, the minimum
included: `operator<<` on a bound archive returns normally, writes the `W/8`
little-endian bytes of the two's-complement pattern `v mod 2 ^ W` and advances
the write cursor by `W/8`; and when those bytes are the readable bytes at the
read cursor of an archive `r`, `operator>>` for the same signed type returns
normally with `v` in the destination and the read cursor advanced by `W/8`.
In particular `int8` `-1` is written as the single byte `FF`, and the byte `FF`
is read back as `-1`. -/
theorem C4_signed_round_trip (T : UIntType) (a r : Archive) (v d : Int)
    (ha : a.isValid = true)
    (hlo : -(2 : Int) ^ (T.digits - 1) ≤ v) (hhi : v ≤ (2 : Int) ^ (T.digits - 1) - 1)
    (hbytes : window r.data r.readByteCount_ T.sizeof =
      bytesWritten a (a.insertSigned T v)) :
    (a.insertSigned T v).signal = none ∧
    (a.insertSigned T v).archive.writtenByteCount_ = a.writtenByteCount_ + T.sizeof ∧
    bytesWritten a (a.insertSigned T v) =
      leBytes T.sizeof (v % (2 : Int) ^ T.digits).toNat ∧
    r.extractSigned T d =
      ⟨{ r with readByteCount_ := r.readByteCount_ + T.sizeof }, v, none⟩ ∧
    bytesWritten a (a.insertSigned .u8 (-1)) = [0xFF] ∧
    (∀ (q : Archive) (e : Int), window q.data q.readByteCount_ 1 = [0xFF] →
      q.extractSigned .u8 e =
        ⟨{ q with readByteCount_ := q.readByteCount_ + 1 }, -1, none⟩) := by
  have hins : ∀ (U : UIntType) (x : Int), a.insertSigned U x =
      a.serializeInteger U (SignedToUnsigned U.digits x) := by
    intro U x
    simp [Archive.insertSigned, ha]
  have hpat : (v % (2 : Int) ^ T.digits).toNat = SignedToUnsigned T.digits v := by
    simp [SignedToUnsigned]
  obtain ⟨s, hs⟩ := (isValid_iff a).1 ha
  obtain ⟨b, hb, hw⟩ := serializeInteger_spec T a s (SignedToUnsigned T.digits v) hs
  rw [hins, bytesWritten_serializeInteger _ _ _ ha] at hbytes
  refine ⟨by rw [hins, hb], by rw [hins, hb], ?_, ?_, ?_, ?_⟩
  · rw [hins, bytesWritten_serializeInteger _ _ _ ha, hpat]
  · exact extractSigned_leBytes T r v d hlo hhi hbytes
  · rw [hins, bytesWritten_serializeInteger _ _ _ ha]
    decide
  · intro q e hq
    exact extractSigned_leBytes .u8 q (-1) e (by decide) (by decide) hq

/-- C4, at a concrete input: the minimum `int8` value `-128` is written as the
byte `80`, and that byte is read back as `-128`. -/
theorem C4_signed_round_trip_witness :
    (Archive.extractSigned .u8 ⟨some ⟨[0x80], []⟩, 0, 0⟩ 5) =
      ⟨⟨some ⟨[0x80], []⟩, 0, 1⟩, -128, none⟩ :=
  (C4_signed_round_trip .u8 Archive.fresh ⟨some ⟨[0x80], []⟩, 0, 0⟩ (-128) 5 (by decide)
    (by decide) (by decide)
    (by simp [window, Archive.data, bytesWritten, Archive.buffer, Archive.fresh,
      Archive.insertSigned, Archive.isValid, SignedToUnsigned,
      Archive.serializeInteger, Stream.reserveBuffer, serializeLoop, UIntType.digits,
      UIntType.sizeof, UINT_DIGITS, UnsignedToSigned, toByte])).2.2.2.1

/-! ## C5 – C8: sequences of values, composites, short buffers -/

/-- C5. Order preservation.  Let the values `vs` (booleans and fixed-width
integers of any widths and signedness, and more generally any representable
values of the dispatch layer) be inserted one after another into one bound
session `a` whose write cursor is `w`.  The insertions return normally.  If the
bytes so written are the readable bytes at read cursor `w` of a bound session
`r`, then extracting destinations `ds` of the same types in the same order
from `r` returns normally, leaves exactly `vs` in the destinations, first
inserted first extracted, and the final read cursor equals the final write
cursor. -/
theorem C5_sequential_order (vs ds : List Value) (a r : Archive)
    (ha : a.isValid = true) (hr : r.isValid = true)
    (hrange : Value.allInRange vs = true) (htypes : Value.sameTypes ds vs = true)
    (hcursor : r.readByteCount_ = a.writtenByteCount_)
    (hbytes : window r.data r.readByteCount_
        ((Archive.insertEach a vs).archive.writtenByteCount_ - a.writtenByteCount_) =
      bytesWritten a (Archive.insertEach a vs)) :
    (Archive.insertEach a vs).signal = none ∧
    Archive.extractEach r ds =
      ⟨{ r with readByteCount_ := (Archive.insertEach a vs).archive.writtenByteCount_ },
        vs, none⟩ := by
  obtain ⟨h1, h2, h3⟩ := bytesWritten_insertEach vs a ha
  obtain ⟨s, hs⟩ := (isValid_iff r).1 hr
  rw [h2, h3, Nat.add_sub_cancel_left, data_eq r s hs] at hbytes
  refine ⟨h1, ?_⟩
  rw [extractEach_spec vs ds r s hs hrange htypes hbytes, h2, hcursor]

/-- C5, at a concrete input: a `uint16`, a boolean and an `int8` written into
a fresh session and read back in that order. -/
theorem C5_sequential_order_witness :
    Archive.extractEach ⟨some ⟨[0x34, 0x12, 1, 0xFF], []⟩, 0, 0⟩
        [.unsigned .u16 0, .bool false, .signed .u8 0] =
      ⟨⟨some ⟨[0x34, 0x12, 1, 0xFF], []⟩, 0, 4⟩,
        [.unsigned .u16 0x1234, .bool true, .signed .u8 (-1)], none⟩ :=
  (C5_sequential_order [.unsigned .u16 0x1234, .bool true, .signed .u8 (-1)]
    [.unsigned .u16 0, .bool false, .signed .u8 0] Archive.fresh
    ⟨some ⟨[0x34, 0x12, 1, 0xFF], []⟩, 0, 0⟩ (by decide) (by decide) (by decide) (by decide)
    rfl
    (by simp [window, Archive.data, bytesWritten, Archive.buffer, Archive.fresh,
      Archive.insertEach, Archive.insert, Archive.insertBool, Archive.insertUnsigned,
      Archive.insertSigned, Archive.isValid, SignedToUnsigned,
      Archive.serializeInteger, Stream.reserveBuffer, serializeLoop, UIntType.digits,
      UIntType.sizeof, UINT_DIGITS, UnsignedToSigned, toByte])).2

/-- Composite objects whose members are values of the dispatch layer.  For
every class declared with `SIREN_SERDES(m1, ..., mk)` over booleans,
fixed-width integers, fixed-size arrays and nested objects, inserting an object
into a bound archive returns normally and writes exactly the encodings of
`m1`, ..., `mk` one after another in that order, with nothing before, between
or after them, so that the write cursor advances by the sum of the members'
encoded sizes.  Extraction runs the member extractions in the same order: the
object is read by the chain over its members taken from the first, and from
the bytes an object wrote each member gets back the value of the member at its
own position. -/
theorem composite_layout_of_values (ms : List Value) (a : Archive) (ha : a.isValid = true) :
    (a.insert (.object ms)).signal = none ∧
    bytesWritten a (a.insert (.object ms)) = (ms.map encodingOf).flatten ∧
    (a.insert (.object ms)).archive.writtenByteCount_ =
      a.writtenByteCount_ + (ms.map (fun m => (encodingOf m).length)).sum ∧
    (∀ (r : Archive) (ds : List Value), r.isValid = true →
      r.extract (.object ds) =
        ⟨(Archive.extractEach r ds).archive, .object (Archive.extractEach r ds).dest,
          (Archive.extractEach r ds).signal⟩) ∧
    (∀ (r : Archive) (d : Value) (ds : List Value),
      ((r.extract d).signal = none →
        Archive.extractEach r (d :: ds) =
          ⟨(Archive.extractEach (r.extract d).archive ds).archive,
            (r.extract d).dest :: (Archive.extractEach (r.extract d).archive ds).dest,
            (Archive.extractEach (r.extract d).archive ds).signal⟩) ∧
      (∀ e, (r.extract d).signal = some e →
        Archive.extractEach r (d :: ds) =
          ⟨(r.extract d).archive, (r.extract d).dest :: ds, some e⟩)) ∧
    (∀ (r : Archive) (ds : List Value), r.isValid = true →
      Value.allInRange ms = true → Value.sameTypes ds ms = true →
      window r.data r.readByteCount_ (ms.map encodingOf).flatten.length =
        bytesWritten a (a.insert (.object ms)) →
      r.extract (.object ds) =
        ⟨{ r with readByteCount_ := r.readByteCount_ + (ms.map encodingOf).flatten.length },
          .object ms, none⟩) := by
  obtain ⟨h1, h2, h3⟩ := bytesWritten_insert (.object ms) a ha
  simp only [Value.wireLayout] at h2 h3
  refine ⟨h1, ?_, ?_, ?_, ?_, ?_⟩
  · rw [h3, flatten_encodingOf]
  · rw [h2, sum_encodingOf]
  · intro r ds hr
    simp only [Archive.extract, hr, if_true]
  · intro r d ds
    constructor
    · intro hn
      simp only [Archive.extractEach, hn]
    · intro e he
      simp only [Archive.extractEach, he]
  · intro r ds hr hrange htypes hbytes
    obtain ⟨s, hs⟩ := (isValid_iff r).1 hr
    rw [h3, flatten_encodingOf, data_eq r s hs] at hbytes
    rw [flatten_encodingOf]
    exact extract_spec (.object ms) (.object ds) r s hs
      (by simpa only [Value.inRange] using hrange)
      (by simpa only [Value.sameType] using htypes)
      (by simpa only [Value.wireLayout] using hbytes)

/-- An object with a `uint16` member and a boolean member written at write
cursor 0. -/
theorem composite_layout_of_values_example :
    bytesWritten Archive.fresh
        (Archive.fresh.insert (.object [.unsigned .u16 0x1234, .bool true])) =
      ([.unsigned .u16 0x1234, .bool true].map encodingOf).flatten :=
  (composite_layout_of_values [.unsigned .u16 0x1234, .bool true] Archive.fresh
    (by decide)).2.1

/-- C6. Composite objects: a member that is an empty string.  Take the class
`struct { std::string s; std::uint8_t n; SIREN_SERDES(s, n) }` with `s` empty
and `n = 5`.  The encodings of its members one after another are the two bytes
`00 05`, their sizes sum to 2.  Inserting the object into a fresh archive
writes the length byte `00` of `s`, then takes `&string.front()` of the empty
string and ends in undefined behaviour instead of returning: one byte has been
written, the write cursor stands at 1, and `n` has not been encoded.
Extracting such an object from the bytes `00 05` reads the length, resizes `s`
to 0, and ends in undefined behaviour in the same way: the read cursor stands
at 1 and `n` has not been extracted.  With `s` = "a" the same class is written
as `01 61 05`, write cursor 3, and the call returns. -/
theorem C6_composite_empty_string :
    ([Member.string [], .value (.unsigned .u8 5)].map Member.wireLayout).flatten =
      [0x00, 0x05] ∧
    (Archive.fresh.insertComposite [.string [], .value (.unsigned .u8 5)]).signal =
      some .UndefinedBehaviour ∧
    bytesWritten Archive.fresh
      (Archive.fresh.insertComposite [.string [], .value (.unsigned .u8 5)]) = [0x00] ∧
    (Archive.fresh.insertComposite
      [.string [], .value (.unsigned .u8 5)]).archive.writtenByteCount_ = 1 ∧
    (Archive.extractComposite ⟨some ⟨[0x00, 0x05], []⟩, 0, 0⟩
      [.string [0x61], .value (.unsigned .u8 0)]).signal = some .UndefinedBehaviour ∧
    (Archive.extractComposite ⟨some ⟨[0x00, 0x05], []⟩, 0, 0⟩
      [.string [0x61], .value (.unsigned .u8 0)]).archive.readByteCount_ = 1 ∧
    (Archive.fresh.insertComposite [.string [0x61], .value (.unsigned .u8 5)]).signal =
      none ∧
    bytesWritten Archive.fresh
      (Archive.fresh.insertComposite [.string [0x61], .value (.unsigned .u8 5)]) =
      [0x01, 0x61, 0x05] ∧
    (Archive.fresh.insertComposite
      [.string [0x61], .value (.unsigned .u8 5)]).archive.writtenByteCount_ = 3 := by
  have h1 : Archive.fresh.insertString [] =
      ⟨⟨some ⟨[], [0x00]⟩, 1, 0⟩, (), some .UndefinedBehaviour⟩ := by
    simp only [Archive.insertString, Archive.serializeVariableLengthInteger,
      List.length_nil, varintBytes_zero]
    rfl
  have h2 : Archive.extractString ⟨some ⟨[0x00, 0x05], []⟩, 0, 0⟩ [0x61] =
      ⟨⟨some ⟨[0x00, 0x05], []⟩, 0, 1⟩, [], some .UndefinedBehaviour⟩ := by decide
  have h3 : ([Member.string [0x61], .value (.unsigned .u8 5)].map
      Member.wireLayout).flatten = [0x01, 0x61, 0x05] := by
    simp only [List.map_cons, List.map_nil, Member.wireLayout, Value.wireLayout,
      List.length_singleton, varintBytes_small 1 (by decide)]
    rfl
  obtain ⟨e1, e2, e3⟩ := composite_layout [.string [0x61], .value (.unsigned .u8 5)]
    Archive.fresh (by decide) (by decide)
  refine ⟨?_, ?_, ?_, ?_, ?_, ?_, e1, ?_, ?_⟩
  · simp only [List.map_cons, List.map_nil, Member.wireLayout, Value.wireLayout,
      List.length_nil, varintBytes_zero]
    rfl
  · simp only [Archive.insertComposite, Archive.insertMembers, Archive.insertMember, h1]
    rfl
  · simp only [Archive.insertComposite, Archive.insertMembers, Archive.insertMember, h1]
    rfl
  · simp only [Archive.insertComposite, Archive.insertMembers, Archive.insertMember, h1]
    rfl
  · simp only [Archive.extractComposite, Archive.extractMembers, Archive.extractMember, h2]
    rfl
  · simp only [Archive.extractComposite, Archive.extractMembers, Archive.extractMember, h2]
    rfl
  · rw [e2, h3]
  · rw [e3]
    simp only [List.map_cons, List.map_nil, Member.wireLayout, Value.wireLayout,
      List.length_singleton, varintBytes_small 1 (by decide), List.length_append,
      leBytes_length]
    rfl

/-- C7. Non-atomic composite extraction.  For an object with three members of
which the second is of fixed width, on a bound archive where the bytes
available beyond the read cursor are enough for member 1 but not for members 1
and 2 together: extracting the object throws `EndOfStream`; the read cursor
afterwards is its starting value plus the encoded size of member 1 only (not
rolled back, not advanced further) and nothing else of the archive has changed;
member 1 holds the value its own extraction produced; members 2 and 3 hold
what they held before, member 3 never having been extracted. -/
theorem C7_composite_not_atomic (d1 d2 d3 : Value) (r : Archive)
    (hr : r.isValid = true) (hfixed : d2.isFixedWidth = true)
    (hfirst : (encodingOf d1).length ≤ r.data.length - r.readByteCount_)
    (hsecond : r.data.length - r.readByteCount_ <
      (encodingOf d1).length + (encodingOf d2).length) :
    (r.extract (.object [d1, d2, d3])).signal = some .EndOfStream ∧
    (r.extract (.object [d1, d2, d3])).archive =
      { r with readByteCount_ := r.readByteCount_ + (encodingOf d1).length } ∧
    (r.extract d1).signal = none ∧
    (r.extract (.object [d1, d2, d3])).dest = .object [(r.extract d1).dest, d2, d3] := by
  obtain ⟨s, hs⟩ := (isValid_iff r).1 hr
  rw [encodingOf_eq, data_eq r s hs] at hfirst
  rw [encodingOf_eq, encodingOf_eq, data_eq r s hs] at hsecond
  rw [encodingOf_eq]
  obtain ⟨e1, e2⟩ := extract_enough d1 r s hs hfirst
  have hs2 : (r.extract d1).archive.stream_ = some s := by rw [e2]; exact hs
  have e3 := extract_fixed_short d2 (r.extract d1).archive s hfixed hs2
    (by rw [e2]; simp only []; omega)
  simp only [Archive.extract, hr, if_true, Archive.extractEach, e1, e3]
  exact ⟨trivial, e2, trivial, trivial⟩

/-- C7, at a concrete input: members `uint16`, `uint32`, `uint8` with three
bytes available. -/
theorem C7_composite_not_atomic_witness :
    (Archive.extract ⟨some ⟨[0x34, 0x12, 7], []⟩, 0, 0⟩
      (.object [.unsigned .u16 0, .unsigned .u32 0, .unsigned .u8 0])).archive =
      ⟨some ⟨[0x34, 0x12, 7], []⟩, 0,
        0 + (encodingOf (.unsigned .u16 0)).length⟩ :=
  (C7_composite_not_atomic (.unsigned .u16 0) (.unsigned .u32 0) (.unsigned .u8 0)
    ⟨some ⟨[0x34, 0x12, 7], []⟩, 0, 0⟩ (by decide) (by decide)
    (by simp [encodingOf, window, Archive.data, bytesWritten, Archive.buffer, Archive.fresh,
      Archive.insertEach, Archive.insert, Archive.insertUnsigned, Archive.isValid,
      Archive.serializeInteger, Stream.reserveBuffer, serializeLoop, UIntType.digits,
      UIntType.sizeof, UINT_DIGITS, UnsignedToSigned, toByte])
    (by simp [encodingOf, window, Archive.data, bytesWritten, Archive.buffer, Archive.fresh,
      Archive.insertEach, Archive.insert, Archive.insertUnsigned, Archive.isValid,
      Archive.serializeInteger, Stream.reserveBuffer, serializeLoop, UIntType.digits,
      UIntType.sizeof, UINT_DIGITS, UnsignedToSigned, toByte])).2.1

/-- C8. Short buffers.  For every object or fixed-size array built, to any
depth, from fixed-width integers (and booleans), with `N` the size of its full
encoding, on a bound archive: when fewer than `N` bytes are available beyond
the read cursor (in particular `N - 1`), extraction throws `EndOfStream` and so
does not return normally, with the read cursor moved forward by less than `N`
and nothing else of the archive changed; when at least `N` bytes are available
it returns normally and the read cursor has advanced by exactly `N`.  An array
of byte-sized elements (`uint8_t[N]`, `int8_t[N]`, `bool[N]`) is handed to
`deserializeBytes` in one piece: with fewer than `N` bytes available neither
the read cursor nor any element has changed. -/
theorem C8_short_buffer (d : Value) (r : Archive) (hr : r.isValid = true) :
    (r.data.length - r.readByteCount_ < (encodingOf d).length →
      (r.extract d).signal = some .EndOfStream ∧
      ∃ n, (r.extract d).archive = { r with readByteCount_ := n } ∧
        r.readByteCount_ ≤ n ∧ n < r.readByteCount_ + (encodingOf d).length) ∧
    ((encodingOf d).length ≤ r.data.length - r.readByteCount_ →
      (r.extract d).signal = none ∧
      (r.extract d).archive =
        { r with readByteCount_ := r.readByteCount_ + (encodingOf d).length }) ∧
    (∀ xs, d = .array xs → Value.likeCharElements xs = true →
      (encodingOf d).length = xs.length ∧
      (r.data.length - r.readByteCount_ < xs.length →
        r.extract d = ⟨r, d, some .EndOfStream⟩)) := by
  obtain ⟨s, hs⟩ := (isValid_iff r).1 hr
  rw [encodingOf_eq, data_eq r s hs]
  refine ⟨extract_short d r s hs, extract_enough d r s hs, ?_⟩
  intro xs hd hl
  subst hd
  have hall := ((likeCharElements_iff xs).1 hl).2
  refine ⟨by simp only [Value.wireLayout, wireLayouts_of_all xs hall, List.length_map], ?_⟩
  intro hlen
  have e := deserializeBytes_short r s (xs.map Value.rawByte) xs.length hs (by omega)
  simp only [Archive.extract, hr, if_true, hl, e]

/-- C8, at concrete inputs: `uint8_t x[2]` needs 2 bytes; with 1 available the
extraction throws, the read cursor is still 0 and `x[0]` has not been stored.
An array of two objects, each a `uint16` and a `uint8`, needs 6 bytes; with 5
available the extraction throws. -/
theorem C8_short_buffer_witness :
    Archive.extract ⟨some ⟨[7], []⟩, 0, 0⟩ (.array [.unsigned .u8 0, .unsigned .u8 0]) =
      ⟨⟨some ⟨[7], []⟩, 0, 0⟩, .array [.unsigned .u8 0, .unsigned .u8 0],
        some .EndOfStream⟩ ∧
    (Archive.extract ⟨some ⟨[1, 2, 3, 4, 5], []⟩, 0, 0⟩
      (.array [.object [.unsigned .u16 0, .unsigned .u8 0],
        .object [.unsigned .u16 0, .unsigned .u8 0]])).signal = some .EndOfStream :=
  ⟨((C8_short_buffer (.array [.unsigned .u8 0, .unsigned .u8 0])
    ⟨some ⟨[7], []⟩, 0, 0⟩ (by decide)).2.2
      [.unsigned .u8 0, .unsigned .u8 0] rfl (by decide)).2 (by decide),
   ((C8_short_buffer (.array [.object [.unsigned .u16 0, .unsigned .u8 0],
      .object [.unsigned .u16 0, .unsigned .u8 0]])
    ⟨some ⟨[1, 2, 3, 4, 5], []⟩, 0, 0⟩ (by decide)).1
    (by simp [encodingOf, window, Archive.data, bytesWritten, Archive.buffer, Archive.fresh,
      Archive.insertEach, Archive.insert, Archive.insertUnsigned, Archive.isValid,
      Archive.serializeInteger, Stream.reserveBuffer, serializeLoop, UIntType.digits,
      UIntType.sizeof, UINT_DIGITS, UnsignedToSigned, toByte, Value.likeCharElements,
      Value.likeChar])).1⟩

/-! ## C9 – C10: strings and byte-like vectors -/

/-- C9. Layout of a string.  For every byte string `s` of length `n`,
`operator<<(const std::string &)` on a bound archive leaves, from the write
cursor it started at, the variable-length-integer encoding of `n` followed
immediately by the `n` bytes of `s` in order, and nothing more: the write
cursor has advanced by the size of the length encoding plus `n`, so there is no
terminator and no padding.  For a non-empty `s` the call returns normally.  In
particular the string "ab" is encoded as the three bytes `02 61 62`. -/
theorem C9_string_layout (s : List Byte) (a : Archive) (ha : a.isValid = true) :
    bytesWritten a (a.insertString s) =
      bytesWritten a (a.serializeVariableLengthInteger s.length) ++ s ∧
    bytesWritten a (a.serializeVariableLengthInteger s.length) = varintBytes s.length ∧
    (a.insertString s).archive.writtenByteCount_ =
      a.writtenByteCount_ + ((varintBytes s.length).length + s.length) ∧
    (s ≠ [] → (a.insertString s).signal = none) ∧
    bytesWritten a (a.insertString [0x61, 0x62]) = [0x02, 0x61, 0x62] := by
  obtain ⟨st, hs⟩ := (isValid_iff a).1 ha
  have hlen : bytesWritten a (a.serializeVariableLengthInteger s.length) =
      varintBytes s.length := by
    obtain ⟨b, e, w⟩ := serializeBytes_spec a st (varintBytes s.length) hs
    simp only [Archive.serializeVariableLengthInteger, e, bytesWritten, Archive.buffer,
      Nat.add_sub_cancel_left]
    exact w.window
  have hall : ∀ str : List Byte,
      bytesWritten a (a.insertString str) = varintBytes str.length ++ str := by
    intro str
    obtain ⟨b, e, w, _⟩ := insertString_spec a st str hs
    simp only [bytesWritten, e, Archive.buffer, Nat.add_sub_cancel_left]
    have := w.window
    rw [List.length_append] at this
    exact this
  obtain ⟨b, e, w, hsig⟩ := insertString_spec a st s hs
  refine ⟨by rw [hall, hlen], hlen, by rw [e], ?_, ?_⟩
  · intro hne
    rw [hsig, if_neg hne]
  · rw [hall]
    simp only [List.length_cons, List.length_nil]
    rw [varintBytes_two]
    rfl

/-- C9, at a concrete input: the one-byte string "a" written at write cursor 0
of a fresh archive advances the cursor by two. -/
theorem C9_string_layout_witness :
    (Archive.fresh.insertString [0x61]).archive.writtenByteCount_ =
      0 + ((varintBytes 1).length + 1) :=
  (C9_string_layout [0x61] Archive.fresh (by decide)).2.2.1

/-- C10. The empty string and the empty byte-like vector.  Both operators take
`&container.front()` of the container they are given: on insertion after the
length has been written, on extraction after `resize(0)`.  A container of size
0 has no first element, `front()` requires `!empty()`, and the call is
undefined: insertion of the empty string (or vector) into a fresh archive
writes the length byte `00` and then ends in undefined behaviour instead of
returning; extraction from the byte `00` reads the length, leaves the container
with size 0, and ends in undefined behaviour instead of returning. -/
theorem C10_empty_container_front :
    front [] = none ∧
    (Archive.fresh.insertString []).signal = some .UndefinedBehaviour ∧
    bytesWritten Archive.fresh (Archive.fresh.insertString []) = [0x00] ∧
    (Archive.fresh.insertByteVector []).signal = some .UndefinedBehaviour ∧
    bytesWritten Archive.fresh (Archive.fresh.insertByteVector []) = [0x00] ∧
    Archive.extractString ⟨some ⟨[0x00], []⟩, 0, 0⟩ [0x61] =
      ⟨⟨some ⟨[0x00], []⟩, 0, 1⟩, [], some .UndefinedBehaviour⟩ ∧
    Archive.extractByteVector ⟨some ⟨[0x00], []⟩, 0, 0⟩ [0x61] =
      ⟨⟨some ⟨[0x00], []⟩, 0, 1⟩, [], some .UndefinedBehaviour⟩ := by
  have h1 : Archive.fresh.insertString [] =
      ⟨⟨some ⟨[], [0x00]⟩, 1, 0⟩, (), some .UndefinedBehaviour⟩ := by
    simp only [Archive.insertString, Archive.serializeVariableLengthInteger,
      List.length_nil, varintBytes_zero]
    rfl
  refine ⟨rfl, ?_, ?_, ?_, ?_, ?_, ?_⟩
  · rw [h1]
  · rw [h1]
    rfl
  · rw [insertByteVector_eq, h1]
  · rw [insertByteVector_eq, h1]
    rfl
  · decide
  · decide

/-! ## C13, C16, C17 -/

/-- C13. Booleans.  For every boolean `b`, `operator<<(bool)` on a bound archive
returns normally, writes exactly one byte, `00` when `b` is false and `01` when
`b` is true, and advances the write cursor by 1; when that byte is the readable
byte at the read cursor of an archive `r`, `operator>>(bool &)` on `r` returns
normally with `b` in the destination and the read cursor advanced by 1. -/
theorem C13_boolean (b d : Bool) (a r : Archive) (ha : a.isValid = true)
    (hbytes : window r.data r.readByteCount_ 1 = bytesWritten a (a.insertBool b)) :
    (a.insertBool b).signal = none ∧
    bytesWritten a (a.insertBool b) = [if b then 0x01 else 0x00] ∧
    (a.insertBool b).archive.writtenByteCount_ = a.writtenByteCount_ + 1 ∧
    r.extractBool d = ⟨{ r with readByteCount_ := r.readByteCount_ + 1 }, b, none⟩ := by
  obtain ⟨h1, h2, h3⟩ := bytesWritten_insert (.bool b) a ha
  have hi : a.insert (.bool b) = a.insertBool b := by simp [Archive.insert]
  rw [hi] at h1 h2 h3
  have hl : (Value.bool b).wireLayout = [if b then 1 else 0] := by simp [Value.wireLayout]
  rw [hl] at h2 h3
  rw [h3] at hbytes
  refine ⟨h1, h3, h2, ?_⟩
  have hlen := window_all _ _ _ _ hbytes rfl (by decide)
  cases hr : r.stream_ with
  | none =>
    simp [Archive.data, hr] at hlen
  | some s =>
    rw [data_eq r s hr] at hbytes
    have he := extract_spec (.bool b) (.bool d) r s hr rfl rfl (by rw [hl]; exact hbytes)
    simp only [Archive.extract, Outcome.mk.injEq, Value.bool.injEq] at he
    obtain ⟨e1, e2, e3⟩ := he
    rw [hl] at e1
    cases hx : r.extractBool d with
    | mk ar dd sg =>
      rw [hx] at e1 e2 e3
      simp only [] at e1 e2 e3
      rw [e1, e2, e3, hr]
      rfl

/-- C13, at a concrete input: `true` is written as `01`, and `01` is read back
as `true`. -/
theorem C13_boolean_witness :
    Archive.extractBool ⟨some ⟨[0x01], []⟩, 0, 0⟩ false =
      ⟨⟨some ⟨[0x01], []⟩, 0, 1⟩, true, none⟩ :=
  (C13_boolean true false Archive.fresh ⟨some ⟨[0x01], []⟩, 0, 0⟩ (by decide)
    (by simp [window, Archive.data, bytesWritten, Archive.buffer, Archive.fresh,
      Archive.insertBool, Archive.insertUnsigned, Archive.isValid,
      Archive.serializeInteger, Stream.reserveBuffer, serializeLoop, UIntType.digits,
      UIntType.sizeof, UINT_DIGITS, UnsignedToSigned, toByte])).2.2.2

/-- C16. Independent cursors.  Every fixed-width encode (`serializeInteger`, and
`operator<<` for any value of the dispatch layer, booleans and fixed-width
integers in particular) leaves the read cursor and the readable area unchanged
and changes no byte of the writable area that existed outside the window
`[writeCursor, writeCursor + size)`, so bytes written earlier are never
overwritten.  Every fixed-width decode (`deserializeInteger`, and `operator>>`
for any destination of the dispatch layer), whether it returns or throws,
leaves the write cursor and the whole stream, readable and writable area,
unchanged. -/
theorem C16_independent_cursors (T : UIntType) (a : Archive) (x y : Nat) (v d : Value) :
    ((a.serializeInteger T x).archive.readByteCount_ = a.readByteCount_ ∧
      (a.serializeInteger T x).archive.data = a.data ∧
      (∀ j, (j < a.writtenByteCount_ ∨ a.writtenByteCount_ + T.sizeof ≤ j) →
        j < a.buffer.length →
        (a.serializeInteger T x).archive.buffer[j]? = a.buffer[j]?)) ∧
    ((a.insert v).archive.readByteCount_ = a.readByteCount_ ∧
      (a.insert v).archive.data = a.data ∧
      (∀ j, (j < a.writtenByteCount_ ∨
          a.writtenByteCount_ + (encodingOf v).length ≤ j) →
        j < a.buffer.length → (a.insert v).archive.buffer[j]? = a.buffer[j]?)) ∧
    ((a.deserializeInteger T y).archive.writtenByteCount_ = a.writtenByteCount_ ∧
      (a.deserializeInteger T y).archive.stream_ = a.stream_) ∧
    ((a.extract d).archive.writtenByteCount_ = a.writtenByteCount_ ∧
      (a.extract d).archive.stream_ = a.stream_) := by
  obtain ⟨s1, s2, _, s4⟩ := serializeInteger_frame T a x
  obtain ⟨i1, i2, _, i4⟩ := insert_frame v a
  obtain ⟨n, e, _, _⟩ := deserializeInteger_frame T a y
  obtain ⟨m, e', _, _⟩ := extract_frame d a
  rw [encodingOf_eq]
  refine ⟨⟨s1, s2, s4⟩, ⟨i1, i2, i4⟩, ?_, ?_⟩
  · rw [e]
    exact ⟨rfl, rfl⟩
  · rw [e']
    exact ⟨rfl, rfl⟩

/-- C17. The fixed-width encoding is a bijection.  For every unsigned type `T`
of `W` bits and every sequence of `W/8` bytes readable at the read cursor,
`deserializeInteger` returns normally (no byte string is rejected) with a value
below `2 ^ W`, advancing the read cursor by `W/8`, and `serializeInteger` of
that value writes exactly the same `W/8` bytes.  Conversely every value below
`2 ^ W` is the one read back from the bytes written for it. -/
theorem C17_fixed_width_bijection (T : UIntType) (r a : Archive) (bytes : List Byte)
    (d : Nat) (ha : a.isValid = true) (hlen : bytes.length = T.sizeof)
    (hr : window r.data r.readByteCount_ T.sizeof = bytes) :
    (r.deserializeInteger T d).signal = none ∧
    (r.deserializeInteger T d).archive =
      { r with readByteCount_ := r.readByteCount_ + T.sizeof } ∧
    (r.deserializeInteger T d).dest < 2 ^ T.digits ∧
    bytesWritten a (a.serializeInteger T (r.deserializeInteger T d).dest) = bytes ∧
    (∀ (v : Nat) (q : Archive) (e : Nat), v < 2 ^ T.digits →
      window q.data q.readByteCount_ T.sizeof = bytesWritten a (a.serializeInteger T v) →
      (q.deserializeInteger T e).dest = v) := by
  have hall := window_all _ _ _ _ hr hlen T.sizeof_pos
  have hconv : ∀ (v : Nat) (q : Archive) (e : Nat), v < 2 ^ T.digits →
      window q.data q.readByteCount_ T.sizeof = bytesWritten a (a.serializeInteger T v) →
      (q.deserializeInteger T e).dest = v := by
    intro v q e hv hq
    rw [bytesWritten_serializeInteger T a v ha] at hq
    have hql := window_all _ _ _ _ hq (leBytes_length _ _) T.sizeof_pos
    cases hqs : q.stream_ with
    | none =>
      have hpos := T.sizeof_pos
      simp [Archive.data, hqs] at hql
      omega
    | some sq =>
      rw [data_eq q sq hqs] at hq
      rw [deserializeInteger_leBytes T q sq v e hqs hv hq]
  cases hs : r.stream_ with
  | none =>
    have hpos := T.sizeof_pos
    simp [Archive.data, hs] at hall
    omega
  | some s =>
    rw [data_eq r s hs] at hr hall
    rw [deserializeInteger_spec T r s d hs hall, hr]
    refine ⟨rfl, by rw [hs], ?_, ?_, hconv⟩
    · have := leValue_lt bytes
      rw [hlen, ← two_pow_digits] at this
      exact this
    · rw [bytesWritten_serializeInteger T a _ ha, ← hlen, leBytes_leValue]

/-- C17, at a concrete input: the bytes `FF 00` are read as the `uint16` value
`0x00FF`. -/
theorem C17_fixed_width_bijection_witness :
    (Archive.deserializeInteger .u16 ⟨some ⟨[0xFF, 0x00], []⟩, 0, 0⟩ 9).signal = none :=
  (C17_fixed_width_bijection .u16 ⟨some ⟨[0xFF, 0x00], []⟩, 0, 0⟩ Archive.fresh
    [0xFF, 0x00] 9 (by decide) (by decide) (by decide)).1

/-! ## C11, C12, C14, C15 -/

/-- C11. Vectors of elements that are not byte-like.  For every sequence `xs`
of representable elements of one type (fixed-width integers such as `uint32` in
particular), `operator<<` on a bound archive returns normally and writes the
variable-length-integer encoding of `length(xs)` followed by the encodings of
`xs[0]`, `xs[1]`, ... in index order.  When those bytes are the readable bytes
at the read cursor of a bound archive `r`, `operator>>` into any destination
vector of the same element type, whatever its previous length and contents,
returns normally and leaves a vector equal to `xs`: same length, same elements,
same order.  `init` is the value-initialized element that `resize` appends. -/
theorem C11_vector_round_trip (xs dest : List Value) (init : Value) (a r : Archive)
    (ha : a.isValid = true) (hr : r.isValid = true)
    (hrange : Value.allInRange xs = true)
    (hinit : ∀ x ∈ xs, Value.sameType init x = true)
    (hdest : ∀ d ∈ dest, ∀ x ∈ xs, Value.sameType d x = true)
    (hbytes : window r.data r.readByteCount_
        ((a.insertVector xs).archive.writtenByteCount_ - a.writtenByteCount_) =
      bytesWritten a (a.insertVector xs)) :
    (a.insertVector xs).signal = none ∧
    bytesWritten a (a.insertVector xs) =
      bytesWritten a (a.serializeVariableLengthInteger xs.length) ++
        (xs.map encodingOf).flatten ∧
    r.extractVector init dest =
      ⟨{ r with readByteCount_ := r.readByteCount_ +
          ((a.insertVector xs).archive.writtenByteCount_ - a.writtenByteCount_) },
        xs, none⟩ := by
  obtain ⟨sa, hsa⟩ := (isValid_iff a).1 ha
  obtain ⟨sr, hsr⟩ := (isValid_iff r).1 hr
  obtain ⟨b, e, w⟩ := insertVector_spec a sa xs hsa
  have hlenw : bytesWritten a (a.serializeVariableLengthInteger xs.length) =
      varintBytes xs.length := by
    obtain ⟨b', e', w'⟩ := serializeBytes_spec a sa (varintBytes xs.length) hsa
    simp only [Archive.serializeVariableLengthInteger, e', bytesWritten, Archive.buffer,
      Nat.add_sub_cancel_left]
    exact w'.window
  have hw : bytesWritten a (a.insertVector xs) =
      varintBytes xs.length ++ Value.wireLayouts xs := by
    simp only [bytesWritten, e, Archive.buffer, Nat.add_sub_cancel_left]
    have := w.window
    rw [List.length_append] at this
    exact this
  rw [hw, e, data_eq r sr hsr] at hbytes
  simp only [Nat.add_sub_cancel_left] at hbytes
  refine ⟨by rw [e], by rw [hw, hlenw, flatten_encodingOf], ?_⟩
  obtain ⟨hw1, hw2⟩ := window_append _ _ _ _ hbytes
  have hdrop := drop_of_window _ _ _ _ hw1
  have e1 := deserializeVariableLengthInteger_spec r sr xs.length 0 _ hsr hdrop
  have hst : Value.sameTypes (resizeWith dest xs.length init) xs = true := by
    apply sameTypes_of_forall _ _ (resizeWith_length _ _ _)
    intro d hd x hx
    rcases mem_resizeWith _ _ _ _ hd with h | h
    · exact hdest d h x hx
    · rw [h]
      exact hinit x hx
  have e2 := extractEach_spec xs (resizeWith dest xs.length init)
    { r with readByteCount_ := r.readByteCount_ + (varintBytes xs.length).length } sr hsr
    hrange hst hw2
  simp only [Archive.extractVector, hr, if_true, e1, e2, e, Nat.add_sub_cancel_left,
    Nat.add_assoc]

/-- C11, at a concrete input: the `uint16` vector `[0x0102, 0x0304]` is written
as `02 02 01 04 03` and read back into a destination that held three other
elements. -/
theorem C11_vector_round_trip_witness :
    Archive.extractVector ⟨some ⟨[0x02, 0x02, 0x01, 0x04, 0x03], []⟩, 0, 0⟩ (.unsigned .u16 0)
        [.unsigned .u16 7, .unsigned .u16 8, .unsigned .u16 9] =
      ⟨⟨some ⟨[0x02, 0x02, 0x01, 0x04, 0x03], []⟩, 0,
          0 + ((Archive.insertVector Archive.fresh
            [.unsigned .u16 0x0102, .unsigned .u16 0x0304]).archive.writtenByteCount_ - 0)⟩,
        [.unsigned .u16 0x0102, .unsigned .u16 0x0304], none⟩ :=
  (C11_vector_round_trip [.unsigned .u16 0x0102, .unsigned .u16 0x0304]
    [.unsigned .u16 7, .unsigned .u16 8, .unsigned .u16 9] (.unsigned .u16 0)
    Archive.fresh ⟨some ⟨[0x02, 0x02, 0x01, 0x04, 0x03], []⟩, 0, 0⟩
    (by decide) (by decide) (by decide) (by decide) (by decide)
    (by simp [window, Archive.data, bytesWritten, Archive.buffer, Archive.fresh,
      Archive.insertVector, Archive.serializeVariableLengthInteger, Archive.serializeBytes,
      varintBytes, copyAt, Archive.insertEach, Archive.insert, Archive.insertUnsigned,
      Archive.isValid, Archive.serializeInteger, Stream.reserveBuffer, serializeLoop,
      UIntType.digits, UIntType.sizeof, UINT_DIGITS, UnsignedToSigned, toByte])).2.2

/-- C12. The variable-length integer.  For every unsigned integer `n`,
`serializeVariableLengthInteger` on a bound archive returns normally and writes
the 7-bit groups of `n` least-significant group first, one byte per group: byte
`i` is the group `(n / 128 ^ i) mod 128` with the high bit (128) added on every
byte except the last and not on the last; at least one byte is written, and the
bytes written are exactly the groups `n` needs (`n < 128 ^ k` for the `k`
bytes, and `k = 1` or `128 ^ (k-1) ≤ n`).  In particular 127 is the single byte
`7F` and 128 is the two bytes `80 01`. -/
theorem C12_varint_layout (n : Nat) (a : Archive) (ha : a.isValid = true) :
    (a.serializeVariableLengthInteger n).signal = none ∧
    (a.serializeVariableLengthInteger n).archive.writtenByteCount_ =
      a.writtenByteCount_ + (bytesWritten a (a.serializeVariableLengthInteger n)).length ∧
    1 ≤ (bytesWritten a (a.serializeVariableLengthInteger n)).length ∧
    (∀ i, i < (bytesWritten a (a.serializeVariableLengthInteger n)).length →
      ((bytesWritten a (a.serializeVariableLengthInteger n))[i]?).map Fin.val =
        some ((n / 128 ^ i) % 128 +
          if i + 1 < (bytesWritten a (a.serializeVariableLengthInteger n)).length
          then 128 else 0)) ∧
    n < 128 ^ (bytesWritten a (a.serializeVariableLengthInteger n)).length ∧
    ((bytesWritten a (a.serializeVariableLengthInteger n)).length = 1 ∨
      128 ^ ((bytesWritten a (a.serializeVariableLengthInteger n)).length - 1) ≤ n) ∧
    bytesWritten a (a.serializeVariableLengthInteger 127) = [0x7F] ∧
    bytesWritten a (a.serializeVariableLengthInteger 128) = [0x80, 0x01] := by
  obtain ⟨s, hs⟩ := (isValid_iff a).1 ha
  have hb : ∀ m, bytesWritten a (a.serializeVariableLengthInteger m) = varintBytes m := by
    intro m
    obtain ⟨b', e', w'⟩ := serializeBytes_spec a s (varintBytes m) hs
    simp only [Archive.serializeVariableLengthInteger, e', bytesWritten, Archive.buffer,
      Nat.add_sub_cancel_left]
    exact w'.window
  obtain ⟨b, e, _⟩ := serializeBytes_spec a s (varintBytes n) hs
  rw [hb, hb, hb]
  refine ⟨?_, ?_, varintBytes_length_pos n, varintBytes_getElem? n,
    (varintBytes_length_spec n).1, (varintBytes_length_spec n).2, ?_, ?_⟩
  · simp only [Archive.serializeVariableLengthInteger, e]
  · simp only [Archive.serializeVariableLengthInteger, e]
  · rw [varintBytes_small 127 (by decide)]
    rfl
  · rw [varintBytes_large 128 (by decide), varintBytes_small (128 / 128) (by decide)]
    rfl

/-- C12, at a concrete input: 300 is written as `AC 02`. -/
theorem C12_varint_layout_witness :
    (Archive.serializeVariableLengthInteger Archive.fresh 300).signal = none :=
  (C12_varint_layout 300 Archive.fresh (by decide)).1

/-- C14. Cursor invariant.  Across every encode and every decode operation, on
any session and whether the call returns, throws `EndOfStream` or fails its
assertion, neither the write cursor nor the read cursor decreases, and if the
read cursor was at most the available byte count before the call (the
available count not shrinking) it still is after it.  The operations are the
fixed-width codec, `operator<<` and `operator>>` for every value of the
dispatch layer, for strings, for byte-like vectors and for other vectors. -/
theorem C14_cursor_invariant (a : Archive) (T : UIntType) (x y : Nat) (v d : Value)
    (s t : List Byte) (xs ds : List Value) (init : Value) :
    CursorInvariant a (a.serializeInteger T x).archive ∧
    CursorInvariant a (a.deserializeInteger T y).archive ∧
    CursorInvariant a (a.insert v).archive ∧
    CursorInvariant a (a.extract d).archive ∧
    CursorInvariant a (a.insertString s).archive ∧
    CursorInvariant a (a.extractString t).archive ∧
    CursorInvariant a (a.insertByteVector s).archive ∧
    CursorInvariant a (a.extractByteVector t).archive ∧
    CursorInvariant a (a.insertVector xs).archive ∧
    CursorInvariant a (a.extractVector init ds).archive := by
  obtain ⟨s1, s2, s3, _⟩ := serializeInteger_frame T a x
  obtain ⟨i1, i2, i3, _⟩ := insert_frame v a
  obtain ⟨n1, e1, h1, h1'⟩ := deserializeInteger_frame T a y
  obtain ⟨n2, e2, h2, h2'⟩ := extract_frame d a
  obtain ⟨n3, e3, h3, h3'⟩ := extractString_frame a t
  obtain ⟨n4, e4, h4, h4'⟩ := extractVector_frame a init ds
  refine ⟨CursorInvariant.of_write s1 s2 s3, CursorInvariant.of_read e1 h1 h1',
    CursorInvariant.of_write i1 i2 i3, CursorInvariant.of_read e2 h2 h2',
    insertString_frame a s, CursorInvariant.of_read e3 h3 h3', ?_, ?_,
    insertVector_frame a xs, CursorInvariant.of_read e4 h4 h4'⟩
  · rw [insertByteVector_eq]
    exact insertString_frame a s
  · rw [extractByteVector_eq]
    exact CursorInvariant.of_read e3 h3 h3'

/-- C15. Moved-from sessions.  After a session is moved, the source reports
`isValid() == false` and the session moved to is what the source was.  On a
session whose `isValid()` is false every public insertion and extraction fails
its assertion before anything else happens: the call ends with the assertion
failure, never with `EndOfStream`, and the archive, both cursors included, and
the destination are exactly what they were. -/
theorem C15_moved_from_session (a b : Archive) (T : UIntType) (x : Nat) (i : Int)
    (f : Bool) (v : Value) (s : List Byte) (xs : List Value) (init : Value)
    (h : a.isValid = false) :
    (Archive.move b).1.isValid = false ∧
    (Archive.move b).2 = b ∧
    a.insertBool f = ⟨a, (), some .AssertionFailure⟩ ∧
    a.extractBool f = ⟨a, f, some .AssertionFailure⟩ ∧
    a.insertUnsigned T x = ⟨a, (), some .AssertionFailure⟩ ∧
    a.extractUnsigned T x = ⟨a, x, some .AssertionFailure⟩ ∧
    a.insertSigned T i = ⟨a, (), some .AssertionFailure⟩ ∧
    a.extractSigned T i = ⟨a, i, some .AssertionFailure⟩ ∧
    a.insertString s = ⟨a, (), some .AssertionFailure⟩ ∧
    a.extractString s = ⟨a, s, some .AssertionFailure⟩ ∧
    a.insertByteVector s = ⟨a, (), some .AssertionFailure⟩ ∧
    a.extractByteVector s = ⟨a, s, some .AssertionFailure⟩ ∧
    a.insertVector xs = ⟨a, (), some .AssertionFailure⟩ ∧
    a.extractVector init xs = ⟨a, xs, some .AssertionFailure⟩ ∧
    a.insert v = ⟨a, (), some .AssertionFailure⟩ ∧
    a.extract v = ⟨a, v, some .AssertionFailure⟩ := by
  refine ⟨rfl, rfl, ?_, ?_, ?_, ?_, ?_, ?_, ?_, ?_, ?_, ?_, ?_, ?_,
    insert_invalid v a h, extract_invalid v a h⟩
  · simp [Archive.insertBool, h]
  · simp [Archive.extractBool, h]
  · simp [Archive.insertUnsigned, h]
  · simp [Archive.extractUnsigned, h]
  · simp [Archive.insertSigned, h]
  · simp [Archive.extractSigned, h]
  · simp [Archive.insertString, h]
  · simp [Archive.extractString, h]
  · simp [Archive.insertByteVector, h]
  · simp [Archive.extractByteVector, h]
  · simp [Archive.insertVector, h]
  · simp [Archive.extractVector, h]

/-- C15, at a concrete input: extracting a `uint32` from the source of a move
whose stream holds no bytes at all ends with the assertion failure, not with
`EndOfStream`. -/
theorem C15_moved_from_session_witness :
    Archive.extractUnsigned .u32 (Archive.move ⟨some ⟨[], []⟩, 0, 0⟩).1 5 =
      ⟨(Archive.move ⟨some ⟨[], []⟩, 0, 0⟩).1, 5, some .AssertionFailure⟩ :=
  (C15_moved_from_session (Archive.move ⟨some ⟨[], []⟩, 0, 0⟩).1 Archive.fresh .u32 5 0
    false (.bool false) [] [] (.bool false) (by decide)).2.2.2.2.2.1

/-! ## C18 – C20: the intrusive list -/

/-- C18. The list as a sequence.  Take a well-formed list at `nil` whose nodes,
from `getHead()` through `getNext()` until `isNil`, are `xs`, and an existing
node `x` that is not linked and is not the sentinel.  Then the forward
traversal returns `xs` and the traversal from `getTail()` through `getPrev()`
returns the same nodes in reverse order; `isEmpty()` is true exactly when `xs`
is empty; a newly constructed or reset list is the empty sequence;
`addTail(x)` gives `xs` with `x` appended, `addHead(x)` gives `xs` with `x`
prepended, `x.insertBefore(y)` and `x.insertAfter(y)` give `xs` with `x` placed
immediately before and after `y`, and `y.remove()` gives `xs` without `y`, the
other nodes keeping their order; each resulting list is again well-formed and
is traversed forward and in reverse as its new sequence. -/
theorem C18_list_sequence (m : Memory) (nil x : Nat) (xs : List Nat)
    (hring : Ring m nil xs) (hx : x ∉ nil :: xs) (hx0 : x ≠ nullptr) :
    Models m nil xs ∧
    (NodeList.isEmpty m nil = true ↔ xs = []) ∧
    (∀ m0, Models (NodeList.construct m0 nil) nil [] ∧
      Models (NodeList.reset m0 nil) nil [] ∧
      NodeList.isEmpty (NodeList.construct m0 nil) nil = true) ∧
    (∃ m', NodeList.addTail m nil x = some m' ∧
      Ring m' nil (xs ++ [x]) ∧ Models m' nil (xs ++ [x])) ∧
    (∃ m', NodeList.addHead m nil x = some m' ∧
      Ring m' nil (x :: xs) ∧ Models m' nil (x :: xs)) ∧
    (∀ y l r, xs = l ++ y :: r → ∃ m', ListNode.insertBefore m x y = some m' ∧
      Ring m' nil (l ++ x :: y :: r) ∧ Models m' nil (l ++ x :: y :: r)) ∧
    (∀ y l r, xs = l ++ y :: r → ∃ m', ListNode.insertAfter m x y = some m' ∧
      Ring m' nil (l ++ y :: x :: r) ∧ Models m' nil (l ++ y :: x :: r)) ∧
    (∀ y l r, xs = l ++ y :: r →
      Ring (ListNode.remove m y) nil (l ++ r) ∧ Models (ListNode.remove m y) nil (l ++ r)) := by
  have hnil : nil ≠ nullptr := fun e => hring.2.2 (by simp [e])
  refine ⟨hring.models, hring.isEmpty_iff, ?_, ?_, ?_, ?_, ?_, ?_⟩
  · intro m0
    have hr := Ring.of_construct m0 nil hnil
    exact ⟨hr.models, hr.models, hr.isEmpty_iff.2 rfl⟩
  · have hr := hring.add_tail x xs hx hx0
    exact ⟨_, by simp [NodeList.addTail, hx0], hr, hr.models⟩
  · have hr := hring.add_head x xs hx hx0
    exact ⟨_, by simp [NodeList.addHead, hx0], hr, hr.models⟩
  · intro y l r e
    subst e
    have hy0 : y ≠ nullptr := fun e => hring.2.2 (by simp [e])
    have hr := Ring.insert_before x y l r hring hx hx0
    exact ⟨_, by simp [ListNode.insertBefore, hy0], hr, hr.models⟩
  · intro y l r e
    subst e
    have hy0 : y ≠ nullptr := fun e => hring.2.2 (by simp [e])
    have hr := Ring.insert_after x y l r hring hx hx0
    exact ⟨_, by simp [ListNode.insertAfter, hy0], hr, hr.models⟩
  · intro y l r e
    subst e
    have hr := Ring.remove_node y l r hring
    exact ⟨hr, hr.models⟩

/-- C18, at a concrete input: the list at address 1 holding the node 2, and the
new node 3; after `addTail(3)` the list is `[2, 3]`. -/
theorem C18_list_sequence_witness :
    ∃ m', NodeList.addTail
        (ListNode.insert (NodeList.initializeNil (fun _ => ⟨0, 0⟩) 1) 2 1 1) 1 3 = some m' ∧
      Ring m' 1 ([2] ++ [3]) ∧ Models m' 1 ([2] ++ [3]) :=
  (C18_list_sequence (ListNode.insert (NodeList.initializeNil (fun _ => ⟨0, 0⟩) 1) 2 1 1) 1 3 [2]
    (by
      refine ⟨?_, by decide, by decide⟩
      simp [Chain, ListNode.insert, NodeList.initializeNil, setPrev, setNext])
    (by decide) (by decide)).2.2.2.1

/-- C19. Ring well-formedness is an invariant.  For every list built through
the interface (a newly constructed list, then any sequence of `addHead`,
`addTail`, `insertBefore` / `insertAfter` of a node that is not currently
linked relative to the sentinel or a linked node, and `remove` of a linked
node) there is a duplicate-free sequence `ys` of nodes, none of them the
sentinel, which are exactly the linked nodes, such that every node `n` of the
ring, sentinel included, satisfies `n.next.prev == n` and `n.prev.next == n`,
and following `next` from the sentinel visits exactly `ys`, each node once, and
returns to the sentinel. -/
theorem C19_ring_invariant (nil : Nat) (m : Memory) (h : Built nil m) :
    ∃ ys, (nil :: ys).Nodup ∧
      (∀ x, Linked m nil x ↔ x ∈ ys) ∧
      (∀ n, n ∈ nil :: ys → (m (m n).next_).prev_ = n ∧ (m (m n).prev_).next_ = n) ∧
      (∀ fuel, ys.length < fuel → NodeList.nodes fuel m nil = some ys) := by
  obtain ⟨ys, hr⟩ := h.ring
  exact ⟨ys, hr.2.1, hr.linked_iff, hr.links, fun fuel hf => (hr.models fuel hf).1⟩

/-- C19, at a concrete input: a list constructed at address 1, then
`addTail(2)`. -/
theorem C19_ring_invariant_witness :
    ∃ ys, (1 :: ys).Nodup ∧ ∀ fuel, ys.length < fuel →
      NodeList.nodes fuel (ListNode.insert (NodeList.construct (fun _ => ⟨0, 0⟩) 1) 2
        (NodeList.getTail (NodeList.construct (fun _ => ⟨0, 0⟩) 1) 1) 1) 1 = some ys :=
  match C19_ring_invariant 1 _
    (Built.addTail (NodeList.construct (fun _ => ⟨0, 0⟩) 1) _ 2
      (Built.construct (fun _ => ⟨0, 0⟩) (by decide)) (by decide)
      (by
        rintro ⟨fuel, xs, hxs, hmem⟩
        cases fuel with
        | zero => simp [NodeList.nodes, forEachNode] at hxs
        | succ k =>
          simp [NodeList.nodes, forEachNode, NodeList.getHead, NodeList.construct,
            NodeList.initializeNil, setPrev, setNext, NodeList.isNil, nullptr] at hxs
          subst hxs
          simp at hmem)
      rfl) with
  | ⟨ys, h1, _, _, h4⟩ => ⟨ys, h1, h4⟩

/-- C20. Moving a list.  Take a well-formed list at `src` with node sequence
`xs` and another list object at `dst` (not the source and not one of its
nodes).  Move construction of `dst` from `src`, and move assignment to `dst`
from `src`, which does the same, leave at `dst` a well-formed list whose
head-to-tail sequence is `xs` and leave the source empty.  When the source is
empty the destination is empty and its sentinel is linked to itself, not to
the source's sentinel.  Move-assigning a list to itself leaves the memory
unchanged. -/
theorem C20_list_move (m : Memory) (src dst : Nat) (xs : List Nat)
    (hring : Ring m src xs) (hne : dst ≠ src) (hd : dst ∉ xs) (hd0 : dst ≠ nullptr) :
    (Ring (NodeList.moveConstruct m dst src) dst xs ∧
      Models (NodeList.moveConstruct m dst src) dst xs) ∧
    (Ring (NodeList.moveConstruct m dst src) src [] ∧
      Models (NodeList.moveConstruct m dst src) src [] ∧
      NodeList.isEmpty (NodeList.moveConstruct m dst src) src = true) ∧
    NodeList.moveAssign m dst src = NodeList.moveConstruct m dst src ∧
    (xs = [] →
      ((NodeList.moveConstruct m dst src) dst).next_ = dst ∧
      ((NodeList.moveConstruct m dst src) dst).prev_ = dst ∧
      NodeList.isEmpty (NodeList.moveConstruct m dst src) dst = true) ∧
    NodeList.moveAssign m src src = m := by
  obtain ⟨h1, h2⟩ := hring.move_to hne hd hd0
  refine ⟨⟨h1, h1.models⟩, ⟨h2, h2.models, h2.isEmpty_iff.2 rfl⟩, ?_, ?_, ?_⟩
  · simp [NodeList.moveAssign, NodeList.moveConstruct, hne.symm]
  · intro e
    subst e
    have hc := h1.1
    simp only [Chain] at hc
    exact ⟨hc.1, hc.2, h1.isEmpty_iff.2 rfl⟩
  · simp [NodeList.moveAssign]

/-- C20, at a concrete input: the list at address 1 holding the node 2 is moved
to a new list at address 5. -/
theorem C20_list_move_witness :
    Ring (NodeList.moveConstruct
        (ListNode.insert (NodeList.initializeNil (fun _ => ⟨0, 0⟩) 1) 2 1 1) 5 1) 5 [2] ∧
      Models (NodeList.moveConstruct
        (ListNode.insert (NodeList.initializeNil (fun _ => ⟨0, 0⟩) 1) 2 1 1) 5 1) 5 [2] :=
  (C20_list_move (ListNode.insert (NodeList.initializeNil (fun _ => ⟨0, 0⟩) 1) 2 1 1) 1 5 [2]
    (by
      refine ⟨?_, by decide, by decide⟩
      simp [Chain, ListNode.insert, NodeList.initializeNil, setPrev, setNext])
    (by decide) (by decide) (by decide)).1

end siren
